import Mathlib

/-!
# xfilter: text-editing, matching and pagination engine

Shallow embedding of the core of `xfilter.c`.

Conventions of the embedding.

* A byte (`char` read as `unsigned char`) is a natural number.
* A `char *` that is only read is the list of the bytes it points at; the end
  of the list stands for the terminating NUL, and a `0` inside the list is a NUL
  as well.  Advancing the pointer drops the head of the list.
* `struct Item *` is an index into the catalog `Prompt.items`, which lists the
  items in the order of their `next` links starting at `head`; `NULL` is `none`.
* `size_t` arithmetic that can wrap is written with an explicit `% 2 ^ 64`.
* Functions that dereference a pointer that may be `NULL` or dangling return
  `Option`; `none` stands for the undefined behaviour of the C program.
-/

namespace XFilter

/-! ## libc -/

/-- Value of `*s` for a `char *` modelled by the list of bytes from `s` on. -/
def deref (s : List Nat) : Nat := s.headD 0

/-- The C string stored at the start of a char array: the bytes before the first NUL. -/
def cstr (buf : List Nat) : List Nat := buf.takeWhile (fun c => c != 0)

/-- Length of the C string: `strlen(3)`. -/
def strlen (buf : List Nat) : Nat := (cstr buf).length

/-- Whitespace test `isspace(3)` in the C locale. -/
def isspace (c : Nat) : Bool := c == 32 || (9 ≤ c && c ≤ 13)

/-- Control character test `iscntrl(3)` in the C locale. -/
def iscntrl (c : Nat) : Bool := c < 32 || c == 127

/-- Lower-case conversion `tolower(3)` in the C locale. -/
def tolower (c : Nat) : Nat := if 65 ≤ c ∧ c ≤ 90 then c + 32 else c

/-- Comparison `strncmp(3)`: compares at most `n` bytes, stopping after a NUL. -/
def strncmp : List Nat → List Nat → Nat → Int
  | _, _, 0 => 0
  | s1, s2, n + 1 =>
    if deref s1 ≠ deref s2 then (deref s1 : Int) - (deref s2 : Int)
    else if deref s1 = 0 then 0
    else strncmp s1.tail s2.tail n

/-- Comparison `strncasecmp(3)`: as `strncmp`, ignoring the case of ASCII letters. -/
def strncasecmp : List Nat → List Nat → Nat → Int
  | _, _, 0 => 0
  | s1, s2, n + 1 =>
    if tolower (deref s1) ≠ tolower (deref s2) then
      (tolower (deref s1) : Int) - (tolower (deref s2) : Int)
    else if deref s1 = 0 then 0
    else strncasecmp s1.tail s2.tail n

/-- Comparison `strcmp(3)` of two C strings. -/
def strcmp (s1 s2 : List Nat) : Int := strncmp s1 s2 (max s1.length s2.length + 1)

/-- Copy `memmove(buf + dst, buf + src, len)` inside one char array. -/
def memmove (buf : List Nat) (dst src len : Nat) : List Nat :=
  buf.take dst ++ (buf.drop src).take len ++ buf.drop (dst + len)

/-- Copy `memcpy(buf + dst, str, n)` into a char array. -/
def memcpy (buf : List Nat) (dst : Nat) (str : List Nat) (n : Nat) : List Nat :=
  buf.take dst ++ str.take n ++ buf.drop (dst + n)

/-! ## Data model -/

/-- Entry of the list of group names (`struct Group`). -/
inductive Group where
  | mk (next : Option Group) (name : List Nat) : Group

/-- Name of a group (`group->name`). -/
def Group.name : Group → List Nat
  | Group.mk _ name => name

/-- Completion item (`struct Item`); `prev` and `next` are the position in the catalog. -/
structure Item where
  group : Option Group
  prevmatch : Option Nat
  nextmatch : Option Nat
  text : List Nat
  description : Option (List Nat)
  output : Option (List Nat)

/-- Input operations (`enum Ctrl`). -/
inductive Ctrl where
  | CTRLPASTE | CTRLCOPY | CTRLENTER | CTRLPREV | CTRLNEXT | CTRLPGUP | CTRLPGDOWN
  | CTRLUP | CTRLDOWN | CTRLBOL | CTRLEOL | CTRLLEFT | CTRLRIGHT | CTRLWLEFT | CTRLWRIGHT
  | CTRLDELBOL | CTRLDELEOL | CTRLDELLEFT | CTRLDELRIGHT | CTRLDELWORD
  | CTRLSELBOL | CTRLSELEOL | CTRLSELLEFT | CTRLSELRIGHT | CTRLSELWLEFT | CTRLSELWRIGHT
  | CTRLUNDO | CTRLREDO | CTRLCANCEL | CTRLNOTHING | INSERT
  deriving DecidableEq, Repr

/-- Result of handling an event (`enum Press_ret`). -/
inductive Press_ret where
  | DrawPrompt | DrawInput | Esc | Enter | Nop
  deriving DecidableEq, Repr

/-- The file-scope flags and configuration values, and the directory listing
that `opendir`/`readdir` give for a path (`none` when the directory cannot be opened). -/
structure Env where
  fflag : Bool
  gflag : Bool
  iflag : Bool
  number_items : Nat
  histsize : Nat
  readdir : List Nat → Option (List (List Nat))

/-- The comparison function `fstrncmp`: `strncmp`, or `strncasecmp` under option `-i`. -/
def fstrncmp (env : Env) : List Nat → List Nat → Nat → Int :=
  if env.iflag then strncasecmp else strncmp

/-- The prompt (`struct Prompt`), without the geometry and drawing fields that the
engine never reads, and with the two pieces of state that live outside the struct:
the static `prevoperation` of `keypress` and the bytes written to standard output.

* `text` is the whole char array of `textsize` bytes, the bytes after the NUL included.
* `undo` lists the undo entries from `prompt->undo` along `next`; an entry is its
  `text`, `none` for the dummy entry; `undocurr` is an index into that list.
* `items` is the catalog from `head` along `next`; the first `nstatic` items are
  those up to `tail`, the others are the file completion items from `fhead`. -/
structure Prompt where
  text : List Nat
  textsize : Nat
  cursor : Nat
  select : Nat
  history : List (List Nat)
  histindex : Nat
  histsize : Nat
  undo : List (Option (List Nat))
  undocurr : Option Nat
  groups : Option Group
  items : List Item
  nstatic : Nat
  firstmatch : Option Nat
  matchlist : Option Nat
  selitem : Option Nat
  hoveritem : Option Nat
  itemarray : List (Option Nat)
  nitems : Nat
  maxitems : Nat
  h : Int
  separator : Int
  prevoperation : Ctrl
  stdout : List Nat

/-! ## TextBuffer -/

/-- The loop of `nextrune` from `n`, with `fuel` iterations left:
`for (...; n + inc >= 0 && (text[n] & 0xc0) == 0x80; n += inc)`. -/
def nextruneLoop (text : List Nat) (inc : Int) : Nat → Int → Int
  | 0, n => n
  | fuel + 1, n =>
    if n + inc ≥ 0 ∧ (text.getD n.toNat 0) &&& 0xc0 = 0x80 then
      nextruneLoop text inc fuel (n + inc)
    else n

/-- Return location of next utf8 rune in the given direction (`nextrune`); the
`ssize_t` result is converted to `size_t`. -/
def nextrune (text : List Nat) (position : Nat) (inc : Int) : Nat :=
  ((nextruneLoop text inc (text.length + 1) ((position : Int) + inc)) % 2 ^ 64).toNat

/-- The two leftward loops of `movewordedge`, with `fuel` iterations left:
`while (pos > 0 && isspace(text[nextrune(text, pos, -1)]) == sp) pos = nextrune(text, pos, -1)`. -/
def wordleftLoop (text : List Nat) (sp : Bool) : Nat → Nat → Nat
  | 0, pos => pos
  | fuel + 1, pos =>
    if pos > 0 ∧ isspace (text.getD (nextrune text pos (-1)) 0) = sp then
      wordleftLoop text sp fuel (nextrune text pos (-1))
    else pos

/-- The two rightward loops of `movewordedge`, with `fuel` iterations left:
`while (text[pos] && isspace(text[pos]) == sp) pos = nextrune(text, pos, +1)`. -/
def wordrightLoop (text : List Nat) (sp : Bool) : Nat → Nat → Nat
  | 0, pos => pos
  | fuel + 1, pos =>
    if text.getD pos 0 ≠ 0 ∧ isspace (text.getD pos 0) = sp then
      wordrightLoop text sp fuel (nextrune text pos 1)
    else pos

/-- Move cursor to start (dir = -1) or end (dir = +1) of the word (`movewordedge`). -/
def movewordedge (text : List Nat) (pos : Nat) (dir : Int) : Nat :=
  if dir < 0 then
    let pos1 := wordleftLoop text true (pos + 1) pos
    wordleftLoop text false (pos1 + 1) pos1
  else
    let pos1 := wordrightLoop text true (text.length + 1) pos
    wordrightLoop text false (text.length + 1) pos1

/-- Delete selected text (`delselection`). -/
def delselection (p : Prompt) : Prompt :=
  if p.select = p.cursor then p
  else
    let minpos := min p.cursor p.select
    let maxpos := max p.cursor p.select
    let len := strlen (p.text.drop maxpos)
    { p with text := memmove p.text minpos maxpos (len + 1), cursor := minpos, select := minpos }

/-- Insert string on prompt->text and update prompt->cursor (`insert`); `n` is the
`ssize_t` argument, and the sums with `size_t` operands are taken modulo `2 ^ 64`. -/
def insert (p : Prompt) (str : List Nat) (n : Int) : Prompt :=
  if ((strlen p.text : Int) + n) % 2 ^ 64 > ((p.textsize : Int) - 1) % 2 ^ 64 then p
  else
    let dst := (((p.cursor : Int) + n) % 2 ^ 64).toNat
    let len := (((p.textsize : Int) - (p.cursor : Int) - max n 0) % 2 ^ 64).toNat
    let text1 := memmove p.text dst p.cursor len
    let text2 := if n > 0 then memcpy text1 p.cursor str n.toNat else text1
    { p with text := text2, cursor := dst, select := dst }

/-- The two loops of `delword`, with `fuel` iterations left; `none` when the fuel runs
out, which happens only if the loop of the C program does not terminate. -/
def delwordLoop (sp : Bool) : Nat → Prompt → Option Prompt
  | 0, p =>
    if p.cursor > 0 ∧ isspace (p.text.getD (nextrune p.text p.cursor (-1)) 0) = sp then none
    else some p
  | fuel + 1, p =>
    if p.cursor > 0 ∧ isspace (p.text.getD (nextrune p.text p.cursor (-1)) 0) = sp then
      delwordLoop sp fuel
        (insert p [] ((nextrune p.text p.cursor (-1) : Int) - (p.cursor : Int)))
    else some p

/-- Delete word from the input field (`delword`). -/
def delword (p : Prompt) : Option Prompt :=
  (delwordLoop true p.cursor p).bind (fun p1 => delwordLoop false p1.cursor p1)

/-! ## UndoHistory -/

/-- Add entry to undo list (`addundo`). -/
def addundo (p : Prompt) (editing : Bool) : Prompt :=
  let p1 := match p.undocurr with
    | some (i + 1) => { p with undo := p.undo.drop (i + 1), undocurr := some 0 }
    | _ => p
  let push : Bool := match p1.undo.head? with
    | some (some t) => decide (strcmp t (cstr p1.text) ≠ 0)
    | _ => true
  if push then
    { p1 with
      undo := some (cstr p1.text) :: p1.undo
      undocurr := if editing then some 0 else p1.undocurr.map (fun i => i + 1) }
  else p1

/-- The pointer `e->next` of the undo entry at index `i`: `NULL` after the last entry. -/
def undonext (p : Prompt) (i : Nat) : Option Nat :=
  if i + 1 < p.undo.length then some (i + 1) else none

/-- Second half of `undo` and of `redo`: copy the entry `undocurr` into the text. -/
def undocopy (p : Prompt) (i : Nat) : Option Prompt :=
  match p.undo.get? i with
  | some (some t) =>
    some (insert (insert p [] (0 - (p.cursor : Int))) t (strlen t))
  | _ => none

/-- Copy entry from undo list into text (`undo`). -/
def undo (p : Prompt) : Option Prompt :=
  match p.undocurr with
  | some i =>
    match p.undo.get? i with
    | none => none
    | some none => some p
    | some (some t) =>
      let p1 := if strcmp t (cstr p.text) = 0 then { p with undocurr := undonext p i } else p
      match p1.undocurr with
      | some j => (undocopy p1 j).map (fun p2 => { p2 with undocurr := undonext p2 j })
      | none => some p1
  | none => some p

/-- Copy entry from undo list into text (`redo`). -/
def redo (p : Prompt) : Option Prompt :=
  let p1 := match p.undocurr with
    | some (i + 1) => { p with undocurr := some i }
    | _ => p
  match p1.undocurr with
  | some (i + 1) =>
    match p1.undo.get? (i + 1) with
    | some (some t) =>
      let p2 := if strcmp t (cstr p1.text) = 0 then { p1 with undocurr := some i } else p1
      match p2.undocurr with
      | some j => undocopy p2 j
      | none => some p2
    | _ => none
  | some 0 => undocopy p1 0
  | none => some p1

/-! ## CommandHistory -/

/-- Navigate through history (`navhist`): the entry returned (`none` for `NULL`) and
the prompt with the new `histindex`. -/
def navhist (p : Prompt) (direction : Int) : Option (List Nat) × Prompt :=
  let p1 :=
    if direction < 0 then
      if p.histindex > 0 then { p with histindex := p.histindex - 1 } else p
    else
      if p.histindex + 1 < p.histsize then { p with histindex := p.histindex + 1 } else p
  if p1.histindex = p1.histsize then (none, p1)
  else (p1.history.get? p1.histindex, p1)

/-- The loop `while (histindex < histsize) fprintf(histfp, "%s\n", history[histindex++])`
of `savehist` from index `i`, with `n` iterations left: the bytes written. -/
def savehistLoop (history : List (List Nat)) : Nat → Nat → Option (List Nat)
  | 0, _ => some []
  | n + 1, i =>
    match history.get? i with
    | none => none
    | some s => (savehistLoop history n (i + 1)).map (fun rest => s ++ [10] ++ rest)

/-- Save history in history file (`savehist`): the bytes written to the history file,
which `ftruncate` empties first; `histfp` tells whether the file is open
(`prompt->histfp != NULL`). -/
def savehist (env : Env) (histfp : Bool) (p : Prompt) : Option (List Nat) :=
  if histfp = false then some []
  else if p.histsize = 0 then some (cstr p.text ++ [10])
  else
    match p.history.get? (p.histsize - 1) with
    | none => none
    | some last =>
      let diff := strcmp last (cstr p.text)
      let histindex := if diff ≠ 0 ∧ p.histsize = env.histsize then 1 else 0
      (savehistLoop p.history (p.histsize - histindex) histindex).map
        (fun out => out ++ (if diff ≠ 0 then cstr p.text ++ [10] else []))

/-! ## ItemCatalog -/

/-- Allocate item (`allocitem`). -/
def allocitem (text : List Nat) (description output : Option (List Nat))
    (group : Option Group) : Item :=
  { group := group, prevmatch := none, nextmatch := none
    text := cstr text, description := description.map cstr, output := output.map cstr }

/-- Allocate group (`allocgroup`). -/
def allocgroup (prev : Option Group) (name : List Nat) : Group :=
  Group.mk prev (cstr name)

/-- Get list of possible file completions (`getfilelist`), the file items of the
previous call having been freed by `cleanitem`.  The paths stay below `PATH_MAX`
bytes here, so `snprintf` does not cut them. -/
def getfilelist (env : Env) (p : Prompt) : Prompt :=
  let t := cstr p.text
  let path := if deref p.text = 47 ∨ deref p.text = 46 then t else [46, 47] ++ t
  let fitems := match env.readdir path with
    | none => []
    | some entries =>
      (entries.filter (fun d => deref d != 46)).map (fun d =>
        if deref p.text ≠ 0 then allocitem (t ++ [47] ++ d) none none none
        else allocitem d none none none)
  { p with items := p.items.take p.nstatic ++ fitems }

/-! ## MatchEngine -/

/-- First inner loop of `itemmatch`: `while (*s && isspace(*s)) s++`. -/
def skipspaces (s : List Nat) : List Nat := s.dropWhile (fun c => c != 0 && isspace c)

/-- Second inner loop of `itemmatch`: `while (*s && !isspace(*s)) s++`. -/
def skipword (s : List Nat) : List Nat := s.dropWhile (fun c => c != 0 && !isspace c)

/-- The loop of `itemmatch` from pointer `s`; `fuel` bounds the number of iterations,
each of which advances `s` by at least one byte. -/
def itemmatchLoop (cmp : List Nat → List Nat → Nat → Int) (text : List Nat) (textlen : Nat)
    (middle : Bool) : Nat → List Nat → Bool
  | 0, _ => false
  | fuel + 1, s =>
    if deref s = 0 then false
    else if cmp s text textlen = 0 then true
    else if middle then itemmatchLoop cmp text textlen middle fuel s.tail
    else itemmatchLoop cmp text textlen middle fuel (skipword (skipspaces s))

/-- Check whether item matches text (`itemmatch`). -/
def itemmatch (env : Env) (item : Item) (text : List Nat) (textlen : Nat) (middle : Bool) : Bool :=
  itemmatchLoop (fstrncmp env) text textlen middle item.text.length item.text

/-- Assignment `item->prevmatch = v` for the item at index `i`. -/
def setprevmatch (items : List Item) (i : Nat) (v : Option Nat) : List Item :=
  items.modify (fun it => { it with prevmatch := v }) i

/-- Assignment `item->nextmatch = v` for the item at index `i`. -/
def setnextmatch (items : List Item) (i : Nat) (v : Option Nat) : List Item :=
  items.modify (fun it => { it with nextmatch := v }) i

/-- The local variables of `getmatchlist` together with the catalog they point into. -/
structure MatchAcc where
  items : List Item
  retitem : Option Nat
  previtem : Option Nat

/-- Body of the `if` in both loops of `getmatchlist`: append item `i` to the chain. -/
def linkmatch (acc : MatchAcc) (i : Nat) : MatchAcc :=
  let items1 := setprevmatch acc.items i acc.previtem
  let items2 := match acc.previtem with
    | some p => setnextmatch items1 p (some i)
    | none => items1
  { items := items2
    retitem := match acc.retitem with
      | none => some i
      | some r => some r
    previtem := some i }

/-- One iteration of a loop of `getmatchlist`, at the item of index `i`. -/
def matchstep (test : Item → Bool) (a : MatchAcc) (i : Nat) : MatchAcc :=
  match a.items.get? i with
  | some it => if test it then linkmatch a i else a
  | none => a

/-- One loop of `getmatchlist` over the catalog, linking the items that satisfy `test`. -/
def matchpass (test : Item → Bool) (acc : MatchAcc) : MatchAcc :=
  (List.range acc.items.length).foldl (matchstep test) acc

/-- Create list of matching items (`getmatchlist`). -/
def getmatchlist (env : Env) (p : Prompt) : Prompt :=
  let len := strlen p.text
  let text := cstr p.text
  let acc0 : MatchAcc := { items := p.items, retitem := none, previtem := none }
  let acc1 := matchpass (fun it => itemmatch env it text len false) acc0
  let acc2 := matchpass
    (fun it => !itemmatch env it text len false && itemmatch env it text len true) acc1
  let items3 := match acc2.previtem with
    | some l => setnextmatch acc2.items l none
    | none => acc2.items
  { p with items := items3, firstmatch := acc2.retitem, matchlist := acc2.retitem, selitem := none }

/-- The match chain: the items reached from `start` through `nextmatch`, at most `fuel` of them. -/
def chainFrom (items : List Item) : Nat → Option Nat → List Nat
  | 0, _ => []
  | _ + 1, none => []
  | fuel + 1, some i => i :: chainFrom items fuel ((items.get? i).bind (fun it => it.nextmatch))

/-! ## ViewWindow -/

/-- The loop `for (i = 0, item = start; i < maxitems && item; i++, item = item->nextmatch)`
of `navmatchlist`, with `n` iterations left; the result is the final `item`. -/
def walknext (items : List Item) : Nat → Option Nat → Option (Option Nat)
  | 0, item => some item
  | _ + 1, none => some none
  | n + 1, some i =>
    match items.get? i with
    | none => none
    | some it => walknext items n it.nextmatch

/-- The loop `for (i = 0, item = start; i < maxitems && item; i++, item = item->prevmatch)`
of `navmatchlist`, with `n` iterations left; the result is the final `item`. -/
def walkprev (items : List Item) : Nat → Option Nat → Option (Option Nat)
  | 0, item => some item
  | _ + 1, none => some none
  | n + 1, some i =>
    match items.get? i with
    | none => none
    | some it => walkprev items n it.prevmatch

/-- The loop of `navmatchlist` that counts in `selnum` the entries from `matchlist` up to
`selitem->prevmatch` (`target`), with `n` iterations left; the result is the final `selnum`. -/
def countsel (items : List Item) (target : Option Nat) : Nat → Nat → Option Nat → Option Nat
  | 0, selnum, _ => some selnum
  | n + 1, selnum, item =>
    if item = target then some selnum
    else
      match item with
      | none => none
      | some i =>
        match items.get? i with
        | none => none
        | some it => countsel items target n (selnum + 1) it.nextmatch

/-- The final loop of `navmatchlist`, filling `itemarray` from index `i` on with `n`
iterations left; the result is the array and the final `i`. -/
def fillarray (items : List Item) : Nat → Nat → Option Nat → List (Option Nat) →
    Option (List (Option Nat) × Nat)
  | 0, i, _, arr => some (arr, i)
  | _ + 1, i, none, arr => some (arr, i)
  | n + 1, i, some k, arr =>
    match items.get? k with
    | none => none
    | some it => fillarray items n (i + 1) it.nextmatch (arr.set i (some k))

/-- Label `done` of `navmatchlist`: fill `itemarray` and set `nitems`. -/
def navdone (p : Prompt) : Option Prompt :=
  match fillarray p.items p.maxitems 0 p.matchlist p.itemarray with
  | none => none
  | some (arr, n) => some { p with itemarray := arr, nitems := n }

/-- Branch `direction > 0 && prompt->selitem->nextmatch` of `navmatchlist`, where
`nsel` is `prompt->selitem->nextmatch`. -/
def navnext (p : Prompt) (nsel : Nat) : Option Prompt :=
  match p.items.get? nsel with
  | none => none
  | some nselit =>
    match countsel p.items nselit.prevmatch p.maxitems 0 p.matchlist with
    | none => none
    | some selnum =>
      if selnum + 1 ≥ p.maxitems then
        match walknext p.items p.maxitems p.matchlist with
        | none => none
        | some (some item) => navdone { p with selitem := some nsel, matchlist := some item }
        | some none => navdone { p with selitem := some nsel, matchlist := some nsel }
      else navdone { p with selitem := some nsel }

/-- Branch `direction < 0 && prompt->selitem->prevmatch` of `navmatchlist`, where
`psel` is `prompt->selitem->prevmatch`. -/
def navprev (p : Prompt) (psel : Nat) : Option Prompt :=
  match p.matchlist with
  | none => none
  | some ml =>
    match p.items.get? ml with
    | none => none
    | some mlit =>
      if some psel = mlit.prevmatch then
        match walkprev p.items p.maxitems p.matchlist with
        | none => none
        | some (some item) => navdone { p with selitem := some psel, matchlist := some item }
        | some none => navdone { p with selitem := some psel, matchlist := p.firstmatch }
      else navdone { p with selitem := some psel }

/-- Navigate through the list of matching items; and fill item array (`navmatchlist`). -/
def navmatchlist (p : Prompt) (direction : Int) : Option Prompt :=
  if direction ≠ 0 ∧ p.selitem = none then
    navdone { p with selitem := p.matchlist }
  else
    match p.selitem with
    | none => navdone p
    | some sel =>
      match p.items.get? sel with
      | none => none
      | some selit =>
        if direction > 0 ∧ selit.nextmatch ≠ none then selit.nextmatch.bind (navnext p)
        else if direction < 0 ∧ selit.prevmatch ≠ none then selit.prevmatch.bind (navprev p)
        else navdone p

/-- The loop `for (i = 0, item = matchlist; i < n && item->nextmatch; i++, item = item->nextmatch)`
of `getitem`, with `n - i` iterations left; the result is the final `item`, and `none`
stands for the read of `item->nextmatch` through a null `item`. -/
def getitemLoop (items : List Item) : Nat → Option Nat → Option (Option Nat)
  | 0, item => some item
  | _ + 1, none => none
  | n + 1, some k =>
    match items.get? k with
    | none => none
    | some it =>
      match it.nextmatch with
      | none => some (some k)
      | some j => getitemLoop items n (some j)

/-- Whether a value lies in the range of the 32-bit `int`. -/
def inint (v : Int) : Bool := decide (-(2 ^ 31) ≤ v ∧ v < 2 ^ 31)

/-- Get item on a given y position (`getitem`).  The quotient `y / prompt->h` is
converted to `size_t`, and `none` stands for an `int` overflow in
`y -= prompt->h + prompt->separator`, a division by zero or a read through a null
pointer. -/
def getitem (p : Prompt) (y : Int) : Option (Option Nat) :=
  if p.h = 0 then none
  else if inint (p.h + p.separator) = false ∨ inint (y - (p.h + p.separator)) = false then none
  else
    let y1 := y - (p.h + p.separator)
    let y2 := max y1 0
    let n := ((y2.tdiv p.h) % 2 ^ 64).toNat
    if n > p.nitems then some none else getitemLoop p.items n p.matchlist

/-! ## Output -/

/-- Print typed string (`print`): the bytes are appended to standard output. -/
def print (p : Prompt) : Option Prompt :=
  match p.selitem with
  | some sel =>
    match p.items.get? sel with
    | none => none
    | some it =>
      let out1 := match it.group with
        | some g => g.name ++ [9]
        | none => []
      let out2 := match it.output with
        | some o => o ++ [10]
        | none => it.text ++ [10]
      some { p with stdout := p.stdout ++ out1 ++ out2 }
  | none => some { p with stdout := p.stdout ++ cstr p.text ++ [10] }

/-! ## Key presses -/

/-- Status returned by `XmbLookupString`. -/
inductive Status where
  | XBufferOverflow | XLookupNone | XLookupChars | XLookupKeySym | XLookupBoth
  deriving DecidableEq, Repr

/-- What `keypress` gets from the key event through `XmbLookupString` and
`getoperation`: the lookup status, the contents of the static `buf` after the lookup,
the number `len` of bytes looked up, and the operation of the key symbol. -/
structure XKeyEvent where
  status : Status
  buf : List Nat
  len : Nat
  operation : Ctrl

/-- Test `ISMOTION`. -/
def ISMOTION (x : Ctrl) : Bool :=
  x == Ctrl.CTRLBOL || x == Ctrl.CTRLEOL || x == Ctrl.CTRLLEFT
    || x == Ctrl.CTRLRIGHT || x == Ctrl.CTRLWLEFT || x == Ctrl.CTRLWRIGHT

/-- Test `ISSELECTION`. -/
def ISSELECTION (x : Ctrl) : Bool :=
  x == Ctrl.CTRLSELBOL || x == Ctrl.CTRLSELEOL || x == Ctrl.CTRLSELLEFT
    || x == Ctrl.CTRLSELRIGHT || x == Ctrl.CTRLSELWLEFT || x == Ctrl.CTRLSELWRIGHT

/-- Test `ISEDITING`. -/
def ISEDITING (x : Ctrl) : Bool :=
  x == Ctrl.CTRLDELBOL || x == Ctrl.CTRLDELEOL || x == Ctrl.CTRLDELLEFT
    || x == Ctrl.CTRLDELRIGHT || x == Ctrl.CTRLDELWORD || x == Ctrl.INSERT

/-- Test `ISUNDO`. -/
def ISUNDO (x : Ctrl) : Bool :=
  x == Ctrl.CTRLUNDO || x == Ctrl.CTRLREDO

/-- The end of `keypress`, after the `switch` on the operation. -/
def keypressEnd (env : Env) (p : Prompt) (operation : Ctrl) : Option (Press_ret × Prompt) :=
  if ISMOTION operation then
    some (Press_ret.DrawPrompt, { p with select := p.cursor })
  else if ISSELECTION operation then
    some (Press_ret.DrawInput, p)
  else if ISEDITING operation || ISUNDO operation then
    let p1 := if env.fflag && operation != Ctrl.INSERT then getfilelist env p else p
    (navmatchlist (getmatchlist env p1) 0).map (fun p2 => (Press_ret.DrawPrompt, p2))
  else some (Press_ret.DrawPrompt, p)

/-- The code of `keypress` from the label `insert` on. -/
def keypressInsert (env : Env) (p : Prompt) (ev : XKeyEvent) : Option (Press_ret × Prompt) :=
  if iscntrl (deref ev.buf) || deref ev.buf == 0 then some (Press_ret.Nop, p)
  else
    let p1 := if deref ev.buf == 47 && env.fflag then getfilelist env p else p
    keypressEnd env (insert (delselection p1) ev.buf ev.len) Ctrl.INSERT

/-- The `switch` on the operation in `keypress`. -/
def keypressSwitch (env : Env) (p : Prompt) (ev : XKeyEvent) (operation : Ctrl) :
    Option (Press_ret × Prompt) :=
  match operation with
  | Ctrl.CTRLPASTE => some (Press_ret.Nop, p)
  | Ctrl.CTRLCOPY => some (Press_ret.Nop, p)
  | Ctrl.CTRLCANCEL => some (Press_ret.Esc, p)
  | Ctrl.CTRLENTER => (print p).map (fun p1 => (Press_ret.Enter, p1))
  | Ctrl.CTRLPREV | Ctrl.CTRLNEXT =>
    let r :=
      if p.matchlist = none then navmatchlist (getmatchlist env p) 0
      else if operation = Ctrl.CTRLNEXT then navmatchlist p 1
      else navmatchlist p (-1)
    r.bind (fun p1 => keypressEnd env p1 operation)
  | Ctrl.CTRLPGUP | Ctrl.CTRLPGDOWN => some (Press_ret.Nop, p)
  | Ctrl.CTRLSELBOL | Ctrl.CTRLBOL => keypressEnd env { p with cursor := 0 } operation
  | Ctrl.CTRLSELEOL | Ctrl.CTRLEOL =>
    keypressEnd env
      (if p.text.getD p.cursor 0 ≠ 0 then { p with cursor := strlen p.text } else p) operation
  | Ctrl.CTRLUP | Ctrl.CTRLDOWN =>
    let dir : Int := if operation = Ctrl.CTRLUP then -1 else 1
    if p.histsize = 0 then some (Press_ret.Nop, p)
    else
      match navhist p dir with
      | (some s, p1) =>
        keypressEnd env (insert (insert p1 [] (0 - (p1.cursor : Int))) s (strlen s)) operation
      | (none, p1) => keypressEnd env p1 operation
  | Ctrl.CTRLSELLEFT | Ctrl.CTRLLEFT =>
    if p.cursor > 0 then
      keypressEnd env { p with cursor := nextrune p.text p.cursor (-1) } operation
    else some (Press_ret.Nop, p)
  | Ctrl.CTRLSELRIGHT | Ctrl.CTRLRIGHT =>
    if p.text.getD p.cursor 0 ≠ 0 then
      keypressEnd env { p with cursor := nextrune p.text p.cursor 1 } operation
    else some (Press_ret.Nop, p)
  | Ctrl.CTRLSELWLEFT | Ctrl.CTRLWLEFT =>
    keypressEnd env { p with cursor := movewordedge p.text p.cursor (-1) } operation
  | Ctrl.CTRLSELWRIGHT | Ctrl.CTRLWRIGHT =>
    keypressEnd env { p with cursor := movewordedge p.text p.cursor 1 } operation
  | Ctrl.CTRLDELBOL => keypressEnd env (insert p [] (0 - (p.cursor : Int))) operation
  | Ctrl.CTRLDELEOL => keypressEnd env { p with text := p.text.set p.cursor 0 } operation
  | Ctrl.CTRLDELRIGHT | Ctrl.CTRLDELLEFT =>
    if p.cursor ≠ p.select then keypressEnd env (delselection p) operation
    else if operation = Ctrl.CTRLDELRIGHT ∧ p.text.getD p.cursor 0 = 0 then
      some (Press_ret.Nop, p)
    else
      let p1 :=
        if operation = Ctrl.CTRLDELRIGHT then { p with cursor := nextrune p.text p.cursor 1 }
        else p
      if p1.cursor = 0 then some (Press_ret.Nop, p1)
      else
        keypressEnd env
          (insert p1 [] ((nextrune p1.text p1.cursor (-1) : Int) - (p1.cursor : Int))) operation
  | Ctrl.CTRLDELWORD => (delword p).bind (fun p1 => keypressEnd env p1 operation)
  | Ctrl.CTRLUNDO => (undo p).bind (fun p1 => keypressEnd env p1 operation)
  | Ctrl.CTRLREDO => (redo p).bind (fun p1 => keypressEnd env p1 operation)
  | Ctrl.CTRLNOTHING => some (Press_ret.Nop, p)
  | Ctrl.INSERT => keypressInsert env p ev

/-- Handle key press (`keypress`). -/
def keypress (env : Env) (p : Prompt) (ev : XKeyEvent) : Option (Press_ret × Prompt) :=
  match ev.status with
  | Status.XLookupChars => keypressInsert env p ev
  | Status.XLookupKeySym | Status.XLookupBoth =>
    let operation := ev.operation
    if operation = Ctrl.INSERT ∧ (iscntrl (deref ev.buf) ∨ deref ev.buf = 0) then
      some (Press_ret.Nop, p)
    else
      let p1 := if ISUNDO operation && ISEDITING p.prevoperation then addundo p false else p
      let p2 :=
        if ISEDITING operation && operation != p1.prevoperation then addundo p1 true else p1
      keypressSwitch env { p2 with prevoperation := operation } ev operation
  | _ => some (Press_ret.Nop, p)

/-- The branch `ev->y > prompt->h + prompt->separator` of `buttonpress` for the first
button: `selitem` becomes the item under the pointer, which is printed. -/
def buttonpressItem (p : Prompt) (y : Int) : Option (Press_ret × Prompt) :=
  match getitem p y with
  | none => none
  | some none => some (Press_ret.Nop, { p with selitem := none })
  | some (some k) => (print { p with selitem := some k }).map (fun q => (Press_ret.Enter, q))

/-! ## Start-up -/

/-- Size of the input field (`INPUTSIZ`). -/
def INPUTSIZ : Nat := 1024

/-- The bytes that `fgets` stores for one call with room for `n` bytes: up to and
including the first newline. -/
def fgetsLine : Nat → List Nat → List Nat
  | 0, _ => []
  | _ + 1, [] => []
  | n + 1, c :: rest => if c = 10 then [c] else c :: fgetsLine n rest

/-- Read `fgets(buf, size, stream)`: the bytes stored and the rest of the stream, or
`none` at end of file. -/
def fgets (size : Nat) (stream : List Nat) : Option (List Nat × List Nat) :=
  if stream = [] then none
  else some (fgetsLine (size - 1) stream, stream.drop (fgetsLine (size - 1) stream).length)

/-- Position of the first tab in a C string (`strchr(s, 9)`), `none` for `NULL`. -/
def strchrTab (s : List Nat) : Option Nat :=
  if (cstr s).contains 9 then some ((cstr s).takeWhile (fun c => c != 9)).length else none

/-- The body of the loop of `readstdin` for a line `buf` that is not empty. -/
def readline (env : Env) (p : Prompt) (setgroup : Bool) (buf : List Nat) : Prompt × Bool :=
  let line := (cstr buf).takeWhile (fun c => c != 10)
  if env.gflag && setgroup then
    ({ p with groups := some (allocgroup p.groups line) }, false)
  else
    let text := match strchrTab line with
      | some k => line.take k
      | none => line
    let rest1 := (strchrTab line).map (fun k => line.drop (k + 1))
    let description := rest1.map (fun d =>
      match strchrTab d with
      | some k => d.take k
      | none => d)
    let output := rest1.bind (fun d => (strchrTab d).map (fun k => d.drop (k + 1)))
    if deref text = 0 then (p, setgroup)
    else
      ({ p with
          items := p.items ++ [allocitem text description output p.groups]
          nstatic := p.nstatic + 1 }, setgroup)

/-- The loop of `readstdin` over the lines of `stream`, with `fuel` iterations left. -/
def readlines (env : Env) : Nat → List Nat → Prompt → Bool → Prompt
  | 0, _, p, _ => p
  | fuel + 1, stream, p, setgroup =>
    match fgets INPUTSIZ stream with
    | none => p
    | some (buf, rest) =>
      if deref buf ≠ 0 ∧ deref buf = 10 then readlines env fuel rest p true
      else
        let r := readline env p setgroup buf
        readlines env fuel rest r.1 r.2

/-- Create completion items from the stdin (`readstdin`). -/
def readstdin (env : Env) (p : Prompt) (stream : List Nat) : Prompt :=
  let p1 := readlines env (stream.length + 1) stream p true
  { p1 with matchlist := if p1.items.isEmpty then none else some 0 }

/-- The prompt set up by `setpromptinput`, `setpromptundo`, `setpromptitems`,
`setpromptgeom` and `setprompthist`: `garbage` is the content of the freshly
allocated input field after its first byte, `hist` the loaded history. -/
def setprompt (env : Env) (garbage : List Nat) (hist : List (List Nat)) (h separator : Int) :
    Prompt :=
  { text := 0 :: garbage, textsize := INPUTSIZ, cursor := 0, select := 0
    history := hist, histindex := hist.length, histsize := hist.length
    undo := [none], undocurr := none
    groups := none, items := [], nstatic := 0
    firstmatch := none, matchlist := none, selitem := none, hoveritem := none
    itemarray := List.replicate env.number_items none, nitems := 0
    maxitems := env.number_items
    h := h, separator := separator
    prevoperation := Ctrl.CTRLNOTHING, stdout := [] }

/-- The start of `main`: set up the prompt, read stdin and fill the match list. -/
def startup (env : Env) (garbage : List Nat) (hist : List (List Nat)) (h separator : Int)
    (stream : List Nat) : Option Prompt :=
  let p := readstdin env (setprompt env garbage hist h separator) stream
  let p1 := if env.fflag then getfilelist env p else p
  navmatchlist (getmatchlist env p1) 0

/-! ## Specification vocabulary -/

/-- The pointer `item->nextmatch` of the item at index `a`. -/
def nextof (items : List Item) (a : Nat) : Option Nat :=
  (items.get? a).bind (fun it => it.nextmatch)

/-- The pointer `item->prevmatch` of the item at index `a`. -/
def prevof (items : List Item) (a : Nat) : Option Nat :=
  (items.get? a).bind (fun it => it.prevmatch)

/-- An item without its match links: what `getmatchlist` never changes. -/
def unlink (it : Item) : Item := { it with prevmatch := none, nextmatch := none }

/-- The items listed in `L` are distinct items of the catalog, linked to each other
through `prevmatch` and `nextmatch` in the order of `L`, the first one having no
match-predecessor. -/
structure Linked (items : List Item) (L : List Nat) : Prop where
  nodup : L.Nodup
  bound : ∀ a ∈ L, a < items.length
  head : ∀ a, L.head? = some a → prevof items a = none
  link : ∀ k a b, L[k]? = some a → L[k + 1]? = some b →
    nextof items a = some b ∧ prevof items b = some a

/-- The last item listed in `L` has no match-successor. -/
def Closed (items : List Item) (L : List Nat) : Prop :=
  ∀ a, L.getLast? = some a → nextof items a = none

/-- Invariant of the loops of `getmatchlist`: the items linked so far are `L`, in a
catalog that differs from `base` in the match links only. -/
structure MatchInv (base : List Item) (acc : MatchAcc) (L : List Nat) : Prop where
  linked : Linked acc.items L
  ret : acc.retitem = L.head?
  prev : acc.previtem = L.getLast?
  base : acc.items.map unlink = base.map unlink

/-- The test of a loop of `getmatchlist` at the item of index `i` of the catalog. -/
def testAt (base : List Item) (test : Item → Bool) (i : Nat) : Bool :=
  match base.get? i with
  | some it => test it
  | none => false

/-- Test of the first loop of `getmatchlist`: `itemmatch(item, text, len, 0)`. -/
def pass1 (env : Env) (p : Prompt) (it : Item) : Bool :=
  itemmatch env it (cstr p.text) (strlen p.text) false

/-- Test of the second loop of `getmatchlist`:
`!itemmatch(item, text, len, 0) && itemmatch(item, text, len, 1)`. -/
def pass2 (env : Env) (p : Prompt) (it : Item) : Bool :=
  !itemmatch env it (cstr p.text) (strlen p.text) false
    && itemmatch env it (cstr p.text) (strlen p.text) true

/-- The catalog items that pass the first test, in catalog order. -/
def tier1 (env : Env) (p : Prompt) : List Nat :=
  (List.range p.items.length).filter (testAt p.items (pass1 env p))

/-- The catalog items that fail the first test and pass the second, in catalog order. -/
def tier2 (env : Env) (p : Prompt) : List Nat :=
  (List.range p.items.length).filter (testAt p.items (pass2 env p))

/-- The two tiers, one after the other. -/
def matchchain (env : Env) (p : Prompt) : List Nat := tier1 env p ++ tier2 env p

/-- The byte as the comparison function sees it: lower-cased under option `-i`. -/
def casefold (env : Env) (c : Nat) : Nat := if env.iflag then tolower c else c

/-- The step of `navmatchlist` on positions in a chain of `len` entries: from the
position `w` of `matchlist` and the position `s` of `selitem` to the new ones. -/
def navpos (len cap : Nat) (d : Int) (w : Nat) (s : Option Nat) : Nat × Option Nat :=
  match s with
  | none => if d ≠ 0 ∧ w < len then (w, some w) else (w, none)
  | some i =>
    if d > 0 ∧ i + 1 < len then
      (if min cap (i - w) + 1 ≥ cap then (if w + cap < len then w + cap else i + 1) else w,
        some (i + 1))
    else if d < 0 ∧ 0 < i then
      (if i = w then (if cap ≤ w then w - cap else 0) else w, some (i - 1))
    else (w, some i)

/-- The window invariant: the chain `L` is linked in the catalog of `p`, `matchlist` is
its entry of position `w`, and `selitem`, if set, its entry of position `s`, which lies
among the `maxitems` positions from `w` on. -/
structure NavInv (p : Prompt) (L : List Nat) (w : Nat) (s : Option Nat) : Prop where
  linked : Linked p.items L
  closed : Closed p.items L
  first : p.firstmatch = L.head?
  win : p.matchlist = L[w]?
  wlt : L ≠ [] → w < L.length
  sel : p.selitem = s.bind (fun i => L[i]?)
  selwin : ∀ i, s = some i → w ≤ i ∧ i < w + p.maxitems ∧ i < L.length
  cap : 1 ≤ p.maxitems
  arr : p.itemarray.length = p.maxitems

/-- The prompt at label `done` of `navmatchlist` when the new positions are `w` and `s`. -/
def navset (p : Prompt) (L : List Nat) (w : Nat) (s : Option Nat) : Prompt :=
  { p with selitem := s.bind (fun i => L[i]?), matchlist := L[w]? }

/-- Successive calls of `navmatchlist` with the directions listed in `ds`. -/
def navseq (p : Prompt) : List Int → Option Prompt
  | [] => some p
  | d :: ds => (navmatchlist p d).bind (fun q => navseq q ds)

/-- The steps `navpos` for the directions listed in `ds`. -/
def navposseq (len cap : Nat) : List Int → Nat × Option Nat → Nat × Option Nat
  | [], ws => ws
  | d :: ds, ws => navposseq len cap ds (navpos len cap d ws.1 ws.2)

/-- The visible array holds the chain entries from position `w` on, at most `maxitems`
of them. -/
def Filled (p : Prompt) (L : List Nat) (w : Nat) : Prop :=
  p.nitems = min p.maxitems (L.length - w) ∧
    ∀ j, j < p.nitems → p.itemarray[j]? = some L[w + j]?

/-- The input field is a char array of `textsize` bytes that holds a C string, and the
cursor is inside the string. -/
structure BufOK (p : Prompt) : Prop where
  size : p.text.length = p.textsize
  nul : strlen p.text < p.textsize
  small : p.textsize < 2 ^ 63
  cursor : p.cursor ≤ strlen p.text

/-- A configuration without options: no file completion, no grouping, exact comparison,
ten visible items, no history. -/
def envPlain : Env :=
  { fflag := false, gflag := false, iflag := false, number_items := 10, histsize := 0
    readdir := fun _ => none }

/-- The configuration `envPlain` with three visible items. -/
def envThree : Env :=
  { fflag := false, gflag := false, iflag := false, number_items := 3, histsize := 0
    readdir := fun _ => none }

/-- The configuration `envPlain` with grouping of the lines read. -/
def envGroup : Env :=
  { fflag := false, gflag := true, iflag := false, number_items := 10, histsize := 0
    readdir := fun _ => none }

/-- The key event of typing the bytes `buf`. -/
def keyInsert (buf : List Nat) : XKeyEvent :=
  { status := Status.XLookupBoth, buf := buf, len := buf.length, operation := Ctrl.INSERT }

/-- The key event of a key bound to the operation `op`, which looks up no bytes. -/
def keyCtrl (op : Ctrl) : XKeyEvent :=
  { status := Status.XLookupKeySym, buf := [], len := 0, operation := op }

/-- Successive key presses: the prompt after the last one. -/
def presskeys (env : Env) (p : Prompt) : List XKeyEvent → Option Prompt
  | [] => some p
  | ev :: evs => (keypress env p ev).bind (fun r => presskeys env r.2 evs)

/-- The prompt after start-up on the standard input `stream`, in a zero-filled input
field and without history, followed by the key presses `evs`. -/
def session (env : Env) (stream : List Nat) (evs : List XKeyEvent) : Option Prompt :=
  (startup env (List.replicate 1023 0) [] 20 2 stream).bind (fun p => presskeys env p evs)

/-- The texts of the items of the match chain of a prompt. -/
def chaintexts (p : Prompt) : List (List Nat) :=
  (chainFrom p.items p.items.length p.firstmatch).filterMap
    (fun i => (p.items.get? i).map (fun it => it.text))

/-- The bytes of `foo bar`, `xfoo`, `bar foo`, one per line. -/
def stdinFoo : List Nat :=
  [102, 111, 111, 32, 98, 97, 114, 10, 120, 102, 111, 111, 10, 98, 97, 114, 32, 102, 111, 111, 10]

/-- The bytes of the two lines `apple<TAB>A fruit<TAB>APPLE` and `banana`. -/
def stdinApple : List Nat :=
  [97, 112, 112, 108, 101, 9, 65, 32, 102, 114, 117, 105, 116, 9, 65, 80, 80, 76, 69, 10,
   98, 97, 110, 97, 110, 97, 10]

/-- Ten lines of one letter each, `a` to `j`. -/
def stdinTen : List Nat :=
  [97, 10, 98, 10, 99, 10, 100, 10, 101, 10, 102, 10, 103, 10, 104, 10, 105, 10, 106, 10]

/-- The bytes of the two lines `fruit` and `apple<TAB>A fruit<TAB>APPLE`. -/
def stdinGroup : List Nat :=
  [102, 114, 117, 105, 116, 10,
   97, 112, 112, 108, 101, 9, 65, 32, 102, 114, 117, 105, 116, 9, 65, 80, 80, 76, 69, 10]

/-- The prompt set up by `main` before the match list is filled, for the standard
input `stream`. -/
def loaded (env : Env) (stream : List Nat) : Prompt :=
  readstdin env (setprompt env (List.replicate 1023 0) [] 20 2) stream

/-- The prompt after the key presses `evs`, or the loaded prompt if one of them does
not return. -/
def promptAfter (env : Env) (stream : List Nat) (evs : List XKeyEvent) : Prompt :=
  (session env stream evs).getD (loaded env stream)

/-- The prompt after typing `foo` over the catalog `foo bar`, `xfoo`, `bar foo`. -/
def promptFoo : Prompt := promptAfter envPlain stdinFoo [keyInsert [102, 111, 111]]

/-- The prompt loaded with ten one-letter items and three visible items. -/
def promptTen : Prompt := loaded envThree stdinTen

/-- The prompt with a full input field, 1023 bytes `a`, the last of them selected. -/
def promptFull : Prompt :=
  promptAfter envPlain [] [keyInsert (List.replicate 1023 97), keyCtrl Ctrl.CTRLSELLEFT]

/-- The prompt after typing 1023 bytes `a`, moving left, selecting one byte to the left
and deleting to the end of the line: 1021 bytes of text with the cursor at their end, and
select at 1022, beyond the end of the text. -/
def promptKilled : Prompt :=
  promptAfter envPlain []
    [keyInsert (List.replicate 1023 97), keyCtrl Ctrl.CTRLLEFT, keyCtrl Ctrl.CTRLSELLEFT,
      keyCtrl Ctrl.CTRLDELEOL]

/-- A prompt with the one history entry `x`, set up without input. -/
def promptHist : Prompt := setprompt envPlain (List.replicate 1023 0) [[120]] 20 2

/-- The configuration `envPlain` with a history of one entry. -/
def envOne : Env :=
  { fflag := false, gflag := false, iflag := false, number_items := 10, histsize := 1
    readdir := fun _ => none }

/-- The log persisted by `savehist`, as the specification describes it: the stored log
`L` (oldest first) of capacity `H` and the final text `t`. -/
def committed (H : Nat) (L : List (List Nat)) (t : List Nat) : List (List Nat) :=
  if L = [] then [t]
  else if L.getLast? = some t then L
  else if L.length = H then L.tail ++ [t]
  else L ++ [t]

/-- The bytes of a file of the given lines, each followed by a newline. -/
def filebytes (lines : List (List Nat)) : List Nat :=
  (lines.map (fun l => l ++ [10])).flatten

/-- The index that `navhist` moves to. -/
def histstep (p : Prompt) (d : Int) : Nat :=
  if d < 0 then (if p.histindex > 0 then p.histindex - 1 else p.histindex)
  else (if p.histindex + 1 < p.histsize then p.histindex + 1 else p.histindex)

/-- What the undo theorems look at in a prompt: the text, the cursor, the undo list and
the index of its current entry. -/
def undoview (p : Prompt) : List Nat × Nat × List (Option (List Nat)) × Option Nat :=
  (cstr p.text, p.cursor, p.undo, p.undocurr)

/-- The undo list once `addundo` has dropped the entries newer than the current one. -/
def undobase (p : Prompt) : List (Option (List Nat)) :=
  match p.undocurr with
  | some (i + 1) => p.undo.drop (i + 1)
  | _ => p.undo

/-- The prompt after typing `ab`. -/
def promptAb : Prompt := promptAfter envPlain [] [keyInsert [97, 98]]

/-- The undo list, its current entry and the previous operation are those of `p`. -/
def SameUndo (p q : Prompt) : Prop :=
  q.undo = p.undo ∧ q.undocurr = p.undocurr ∧ q.prevoperation = p.prevoperation

/-- The fields of an item line, as the specification describes them: the text is the
bytes before the first tab, the description the bytes between the first and the second
tab, the output the bytes after the second tab. -/
def linefields (line : List Nat) : List Nat × Option (List Nat) × Option (List Nat) :=
  match line.dropWhile (fun c => c != 9) with
  | [] => (line, none, none)
  | _ :: d =>
    match d.dropWhile (fun c => c != 9) with
    | [] => (line.takeWhile (fun c => c != 9), some d, none)
    | _ :: o =>
      (line.takeWhile (fun c => c != 9), some (d.takeWhile (fun c => c != 9)), some o)

/-- Whether line `i` of the input is taken as a group name: grouping is enabled, the line
is not empty, and it is the first line or the line before it is empty. -/
def groupline (gflag : Bool) (lines : List (List Nat)) (i : Nat) : Bool :=
  gflag && lines.getD i [] != [] && (i == 0 || lines.getD (i - 1) [] == [])

/-- The group names among the lines before line `i`, in input order. -/
def groupnames (gflag : Bool) (lines : List (List Nat)) (i : Nat) : List (List Nat) :=
  ((List.range i).filter (groupline gflag lines)).map (fun j => lines.getD j [])

/-- The list of groups once the names `names` are put, one after the other, in front of
the list `prev`: the last name is the first group. -/
def grouplist (prev : Option Group) (names : List (List Nat)) : Option Group :=
  names.foldl (fun g n => some (Group.mk g n)) prev

/-- Whether line `i` of the input yields an item: it is not empty, it is not taken as a
group name, and its text is not empty. -/
def itemline (gflag : Bool) (lines : List (List Nat)) (i : Nat) : Bool :=
  lines.getD i [] != [] && !groupline gflag lines i && (linefields (lines.getD i [])).1 != []

/-- The item of line `i` of the input: its fields, and the groups named before it. -/
def lineitem (gflag : Bool) (prev : Option Group) (lines : List (List Nat)) (i : Nat) : Item :=
  { group := grouplist prev (groupnames gflag lines i), prevmatch := none, nextmatch := none
    text := (linefields (lines.getD i [])).1
    description := (linefields (lines.getD i [])).2.1
    output := (linefields (lines.getD i [])).2.2 }

/-- The catalog of the lines of the input, in input order. -/
def catalog (gflag : Bool) (prev : Option Group) (lines : List (List Nat)) : List Item :=
  ((List.range lines.length).filter (itemline gflag lines)).map (lineitem gflag prev lines)

/-- The three fields of an item. -/
def fieldsof (it : Item) : List Nat × Option (List Nat) × Option (List Nat) :=
  (it.text, it.description, it.output)

/-- The effect of one line, without its newline, on the prompt and on `setgroup` in the
loop of `readstdin`. -/
def linestep (env : Env) (s : Prompt × Bool) (l : List Nat) : Prompt × Bool :=
  if l = [] then (s.1, true) else readline env s.1 s.2 l

/-- A line that `fgets` reads in one piece and in which no byte ends a C string. -/
def Shortline (l : List Nat) : Prop := 0 ∉ l ∧ 10 ∉ l ∧ l.length ≤ 1022

/-- Whether the last of the lines is empty, or there is no line: what `setgroup` records
under option `-g`. -/
def armed (ls : List (List Nat)) : Bool := ls.getD (ls.length - 1) [] == []

/-- The prompt that `main` hands to `readstdin`: a zero-filled input field, no history. -/
def promptStart (env : Env) : Prompt := setprompt env (List.replicate 1023 0) [] 20 2

/-- The two lines `apple<TAB>A fruit<TAB>APPLE` and `banana`. -/
def linesApple : List (List Nat) :=
  [[97, 112, 112, 108, 101, 9, 65, 32, 102, 114, 117, 105, 116, 9, 65, 80, 80, 76, 69],
   [98, 97, 110, 97, 110, 97]]

/-- The lines `fruit`, `apple`, an empty line, `tools` and `saw`. -/
def linesGroups : List (List Nat) :=
  [[102, 114, 117, 105, 116], [97, 112, 112, 108, 101], [],
   [116, 111, 111, 108, 115], [115, 97, 119]]

/-- The prompt after typing `abc` and moving the cursor left once, to position 2. -/
def promptAbc : Prompt :=
  promptAfter envPlain [] [keyInsert [97, 98, 99], keyCtrl Ctrl.CTRLLEFT]

/-- The prompt after typing `ab`, a delete-char-left press and two undo presses: the
current entry of the undo list is its third entry. -/
def promptUndone : Prompt :=
  promptAfter envPlain []
    [keyInsert [97, 98], keyCtrl Ctrl.CTRLDELLEFT, keyCtrl Ctrl.CTRLUNDO, keyCtrl Ctrl.CTRLUNDO]

/-- The six movement operations, each with its selection variant. -/
def motionpairs : List (Ctrl × Ctrl) :=
  [(Ctrl.CTRLBOL, Ctrl.CTRLSELBOL), (Ctrl.CTRLEOL, Ctrl.CTRLSELEOL),
   (Ctrl.CTRLLEFT, Ctrl.CTRLSELLEFT), (Ctrl.CTRLRIGHT, Ctrl.CTRLSELRIGHT),
   (Ctrl.CTRLWLEFT, Ctrl.CTRLSELWLEFT), (Ctrl.CTRLWRIGHT, Ctrl.CTRLSELWRIGHT)]

/-- The positions reached from a chain rebuild: the window starts at a multiple of the
capacity, inside the chain, and the selection, if set, lies in the window. -/
def PosInv (len cap w : Nat) (s : Option Nat) : Prop :=
  cap ∣ w ∧ ∀ i, s = some i → w ≤ i ∧ i < w + cap ∧ i < len

/-- The prompt `q` shows what `p` shows: the same selected item, the same first visible
item and the same visible array `itemarray[0..nitems)`. -/
def SameView (p q : Prompt) : Prop :=
  q.selitem = p.selitem ∧ q.matchlist = p.matchlist ∧ q.nitems = p.nitems ∧
    q.itemarray.take q.nitems = p.itemarray.take p.nitems

/-- Whether a byte is a UTF-8 continuation byte: `(c & 0xc0) == 0x80`. -/
def iscont (c : Nat) : Bool := c &&& 0xc0 == 0x80

/-- The number of continuation bytes in a row from position `n` on. -/
def contrun (text : List Nat) (n : Nat) : Nat := ((text.drop n).takeWhile iscont).length

/-- The text, its size, the cursor and the selection mark are those of `p`. -/
def SameBuf (p q : Prompt) : Prop :=
  q.text = p.text ∧ q.textsize = p.textsize ∧ q.cursor = p.cursor ∧ q.select = p.select

/-- The prompt after typing `a`, `e` with an acute accent (two bytes) and `b`, and moving
the cursor left twice, to position 1. -/
def promptAccent : Prompt :=
  promptAfter envPlain [] [keyInsert [97, 195, 169, 98], keyCtrl Ctrl.CTRLLEFT,
    keyCtrl Ctrl.CTRLLEFT]

/-- The prompt after typing `ab  cd ` (two words, the second followed by a space). -/
def promptWords : Prompt :=
  promptAfter envPlain [] [keyInsert [97, 98, 32, 32, 99, 100, 32]]

/-! ## Theorems: the match chain -/

theorem nextof_setnextmatch (items : List Item) (p : Nat) (v : Option Nat) (a : Nat) :
    nextof (setnextmatch items p v) a =
      if a = p then (if p < items.length then v else none) else nextof items a := by
  unfold nextof setnextmatch
  simp only [List.get?_eq_getElem?, List.getElem?_modify]
  by_cases h : a = p
  · subst h
    by_cases hl : a < items.length
    · simp [hl, List.getElem?_eq_getElem hl]
    · simp [hl, List.getElem?_eq_none (Nat.le_of_not_lt hl)]
  · have h2 : ¬ p = a := fun e => h e.symm
    simp [h, h2]

theorem prevof_setnextmatch (items : List Item) (p : Nat) (v : Option Nat) (a : Nat) :
    prevof (setnextmatch items p v) a = prevof items a := by
  unfold prevof setnextmatch
  simp only [List.get?_eq_getElem?, List.getElem?_modify]
  cases items[a]? <;> simp
  split <;> rfl

theorem prevof_setprevmatch (items : List Item) (p : Nat) (v : Option Nat) (a : Nat) :
    prevof (setprevmatch items p v) a =
      if a = p then (if p < items.length then v else none) else prevof items a := by
  unfold prevof setprevmatch
  simp only [List.get?_eq_getElem?, List.getElem?_modify]
  by_cases h : a = p
  · subst h
    by_cases hl : a < items.length
    · simp [hl, List.getElem?_eq_getElem hl]
    · simp [hl, List.getElem?_eq_none (Nat.le_of_not_lt hl)]
  · have h2 : ¬ p = a := fun e => h e.symm
    simp [h, h2]

theorem nextof_setprevmatch (items : List Item) (p : Nat) (v : Option Nat) (a : Nat) :
    nextof (setprevmatch items p v) a = nextof items a := by
  unfold nextof setprevmatch
  simp only [List.get?_eq_getElem?, List.getElem?_modify]
  cases items[a]? <;> simp
  split <;> rfl

theorem map_unlink_setnextmatch (items : List Item) (p : Nat) (v : Option Nat) :
    (setnextmatch items p v).map unlink = items.map unlink := by
  apply List.ext_getElem?
  intro n
  unfold setnextmatch
  simp only [List.getElem?_map, List.getElem?_modify]
  cases items[n]? <;> simp
  split <;> rfl

theorem map_unlink_setprevmatch (items : List Item) (p : Nat) (v : Option Nat) :
    (setprevmatch items p v).map unlink = items.map unlink := by
  apply List.ext_getElem?
  intro n
  unfold setprevmatch
  simp only [List.getElem?_map, List.getElem?_modify]
  cases items[n]? <;> simp
  split <;> rfl

theorem length_setnextmatch (items : List Item) (p : Nat) (v : Option Nat) :
    (setnextmatch items p v).length = items.length := by
  simp [setnextmatch]

theorem length_setprevmatch (items : List Item) (p : Nat) (v : Option Nat) :
    (setprevmatch items p v).length = items.length := by
  simp [setprevmatch]

theorem nextof_linkmatch (acc : MatchAcc) (i a : Nat) :
    nextof (linkmatch acc i).items a =
      if acc.previtem = some a ∧ a < acc.items.length then some i else nextof acc.items a := by
  unfold linkmatch
  cases hp : acc.previtem with
  | none => simp [nextof_setprevmatch]
  | some p =>
    simp only [nextof_setnextmatch, nextof_setprevmatch, length_setprevmatch, Option.some.injEq]
    by_cases h : a = p
    · subst h
      by_cases hl : a < acc.items.length
      · simp [hl]
      · simp [hl, nextof, List.getElem?_eq_none (Nat.le_of_not_lt hl)]
    · have h2 : ¬ p = a := fun e => h e.symm
      simp [h, h2]

theorem prevof_linkmatch (acc : MatchAcc) (i a : Nat) :
    prevof (linkmatch acc i).items a =
      if a = i then (if i < acc.items.length then acc.previtem else none)
      else prevof acc.items a := by
  unfold linkmatch
  cases hp : acc.previtem with
  | none => simp [prevof_setprevmatch]
  | some p => simp [prevof_setnextmatch, prevof_setprevmatch]

theorem length_linkmatch (acc : MatchAcc) (i : Nat) :
    (linkmatch acc i).items.length = acc.items.length := by
  unfold linkmatch
  cases hp : acc.previtem <;> simp [length_setnextmatch, length_setprevmatch]

theorem map_unlink_linkmatch (acc : MatchAcc) (i : Nat) :
    (linkmatch acc i).items.map unlink = acc.items.map unlink := by
  unfold linkmatch
  cases hp : acc.previtem <;> simp [map_unlink_setnextmatch, map_unlink_setprevmatch]

theorem nodup_index_unique {L : List Nat} (hnd : L.Nodup) {j k a : Nat}
    (hj : L[j]? = some a) (hk : L[k]? = some a) : j = k := by
  obtain ⟨hj1, hj2⟩ := List.getElem?_eq_some_iff.mp hj
  obtain ⟨hk1, hk2⟩ := List.getElem?_eq_some_iff.mp hk
  exact (List.Nodup.getElem_inj_iff hnd).mp (hj2.trans hk2.symm)

theorem linkmatch_inv {base : List Item} {acc : MatchAcc} {L : List Nat} {i : Nat}
    (hinv : MatchInv base acc L) (hi : i ∉ L) (hlt : i < acc.items.length) :
    MatchInv base (linkmatch acc i) (L ++ [i]) := by
  obtain ⟨⟨hnd, hbd, hhead, hlink⟩, hret, hprev, hbase⟩ := hinv
  refine ⟨⟨?_, ?_, ?_, ?_⟩, ?_, ?_, ?_⟩
  · rw [List.nodup_append]
    refine ⟨hnd, List.nodup_singleton i, ?_⟩
    simpa using hi
  · intro a ha
    rw [length_linkmatch]
    rcases List.mem_append.mp ha with h | h
    · exact hbd a h
    · simp at h; omega
  · intro a ha
    rw [prevof_linkmatch]
    cases L with
    | nil =>
      simp at ha
      subst ha
      simp [hlt, hprev]
    | cons x xs =>
      simp at ha
      subst ha
      have : x ≠ i := fun e => hi (by simp [e])
      simp [this]
      exact hhead x (by simp)
  · intro k a b hka hkb
    rw [nextof_linkmatch, prevof_linkmatch]
    rcases Nat.lt_trichotomy (k + 1) L.length with hk | hk | hk
    · have ha : L[k]? = some a := by rwa [List.getElem?_append_left (by omega)] at hka
      have hb : L[k + 1]? = some b := by rwa [List.getElem?_append_left hk] at hkb
      have hbi : b ≠ i := fun e => hi (e ▸ List.getElem?_mem hb)
      have hnl : ¬ (acc.previtem = some a ∧ a < acc.items.length) := by
        rintro ⟨h1, _⟩
        rw [hprev, List.getLast?_eq_getElem?] at h1
        have := nodup_index_unique hnd ha h1
        omega
      simp only [hnl, hbi, if_false]
      exact hlink k a b ha hb
    · have ha : L[k]? = some a := by rwa [List.getElem?_append_left (by omega)] at hka
      have hb : b = i := by
        rw [List.getElem?_append_right (by omega)] at hkb
        simp [hk] at hkb
        exact hkb.symm
      subst hb
      have hl : acc.previtem = some a := by
        rw [hprev, List.getLast?_eq_getElem?]
        have : L.length - 1 = k := by omega
        rw [this]; exact ha
      have hab : a < acc.items.length := hbd a (List.getElem?_mem ha)
      simp [hl, hab, hlt]
    · rw [List.getElem?_eq_none (by simp; omega)] at hkb
      exact absurd hkb (by simp)
  · unfold linkmatch
    simp only
    rw [hret]
    cases L <;> simp
  · unfold linkmatch
    simp
  · rw [map_unlink_linkmatch, hbase]

theorem matchpass_eq (test : Item → Bool) (acc : MatchAcc) :
    matchpass test acc = (List.range acc.items.length).foldl (matchstep test) acc := rfl

theorem foldl_matchstep (test : Item → Bool) (htest : ∀ it, test it = test (unlink it))
    (base : List Item) :
    ∀ (is : List Nat) (acc : MatchAcc) (L : List Nat), MatchInv base acc L → is.Nodup →
      (∀ x ∈ is, testAt base test x = true → x ∉ L) → (∀ x ∈ is, x < base.length) →
      MatchInv base (is.foldl (matchstep test) acc) (L ++ is.filter (testAt base test)) := by
  intro is
  induction is with
  | nil => intro acc L hinv _ _ _; simpa using hinv
  | cons i rest ih =>
    intro acc L hinv hnd hdis hlt
    have hlen : acc.items.length = base.length := by
      have := congrArg List.length hinv.base
      simpa using this
    have hib : i < base.length := hlt i (by simp)
    have hia : i < acc.items.length := by omega
    have hu : unlink acc.items[i] = unlink base[i] := by
      have h1 : (acc.items.map unlink)[i]? = (base.map unlink)[i]? := by rw [hinv.base]
      simpa [List.getElem?_map, List.getElem?_eq_getElem hia, List.getElem?_eq_getElem hib] using h1
    have hstep : matchstep test acc i = if testAt base test i then linkmatch acc i else acc := by
      unfold matchstep testAt
      simp only [List.get?_eq_getElem?, List.getElem?_eq_getElem hia, List.getElem?_eq_getElem hib]
      rw [htest acc.items[i], hu, ← htest]
    rw [List.foldl_cons, hstep]
    have hnd2 : rest.Nodup := (List.nodup_cons.mp hnd).2
    have hnotin : i ∉ rest := (List.nodup_cons.mp hnd).1
    by_cases ht : testAt base test i = true
    · simp only [ht, if_true, List.filter_cons_of_pos]
      have hiL : i ∉ L := hdis i (by simp) ht
      have hinv2 := linkmatch_inv hinv hiL hia
      have := ih (linkmatch acc i) (L ++ [i]) hinv2 hnd2
        (by
          intro x hx hxt
          simp only [List.mem_append, List.mem_singleton, not_or]
          exact ⟨hdis x (by simp [hx]) hxt, fun e => hnotin (e ▸ hx)⟩)
        (fun x hx => hlt x (by simp [hx]))
      simpa using this
    · have ht2 : testAt base test i = false := by simpa using ht
      simp only [ht2, Bool.false_eq_true, if_false]
      rw [List.filter_cons_of_neg (by simp [ht2])]
      exact ih acc L hinv hnd2 (fun x hx => hdis x (by simp [hx])) (fun x hx => hlt x (by simp [hx]))

theorem matchpass_inv (test : Item → Bool) (htest : ∀ it, test it = test (unlink it))
    (base : List Item) (acc : MatchAcc) (L : List Nat) (hinv : MatchInv base acc L)
    (hdis : ∀ x, testAt base test x = true → x ∉ L) :
    MatchInv base (matchpass test acc)
      (L ++ (List.range base.length).filter (testAt base test)) := by
  have hlen : acc.items.length = base.length := by
    have := congrArg List.length hinv.base
    simpa using this
  rw [matchpass_eq, hlen]
  exact foldl_matchstep test htest base _ acc L hinv (List.nodup_range _)
    (fun x _ hx => hdis x hx) (fun x hx => List.mem_range.mp hx)

theorem matchinv_init (items : List Item) : MatchInv items ⟨items, none, none⟩ [] := by
  refine ⟨⟨List.nodup_nil, ?_, ?_, ?_⟩, rfl, rfl, rfl⟩
  · intro a ha; simp at ha
  · intro a ha; simp at ha
  · intro k a b ha; simp at ha

theorem linked_close {items : List Item} {L : List Nat} (h : Linked items L) :
    Linked (match L.getLast? with
      | some l => setnextmatch items l none
      | none => items) L ∧
    Closed (match L.getLast? with
      | some l => setnextmatch items l none
      | none => items) L := by
  cases hl : L.getLast? with
  | none =>
    refine ⟨h, ?_⟩
    intro a ha; rw [hl] at ha; simp at ha
  | some l =>
    simp only
    refine ⟨⟨h.nodup, ?_, ?_, ?_⟩, ?_⟩
    · intro a ha; rw [length_setnextmatch]; exact h.bound a ha
    · intro a ha; rw [prevof_setnextmatch]; exact h.head a ha
    · intro k a b ha hb
      rw [prevof_setnextmatch, nextof_setnextmatch]
      have hne : a ≠ l := by
        intro e
        subst e
        rw [List.getLast?_eq_getElem?] at hl
        have := nodup_index_unique h.nodup ha hl
        have hb2 := (List.getElem?_eq_some_iff.mp hb).1
        omega
      simp only [hne, if_false]
      exact h.link k a b ha hb
    · intro a ha
      rw [hl] at ha
      simp only [Option.some.injEq] at ha
      subst ha
      rw [nextof_setnextmatch]
      simp

theorem pass1_unlink (env : Env) (p : Prompt) (it : Item) :
    pass1 env p it = pass1 env p (unlink it) := rfl

theorem pass2_unlink (env : Env) (p : Prompt) (it : Item) :
    pass2 env p it = pass2 env p (unlink it) := rfl

theorem getmatchlist_linked (env : Env) (p : Prompt) :
    Linked (getmatchlist env p).items (matchchain env p) ∧
    Closed (getmatchlist env p).items (matchchain env p) ∧
    (getmatchlist env p).firstmatch = (matchchain env p).head? ∧
    (getmatchlist env p).matchlist = (matchchain env p).head? ∧
    (getmatchlist env p).selitem = none ∧
    (getmatchlist env p).items.map unlink = p.items.map unlink := by
  have h1 := matchpass_inv (pass1 env p) (pass1_unlink env p) p.items ⟨p.items, none, none⟩ []
    (matchinv_init p.items) (by intro x _; simp)
  have h2 := matchpass_inv (pass2 env p) (pass2_unlink env p) p.items _ _ h1 (by
    intro x hx
    simp only [List.nil_append, List.mem_filter, not_and]
    intro _
    unfold testAt at hx ⊢
    cases hg : p.items.get? x with
    | none => simp
    | some it =>
      rw [hg] at hx
      simp only [pass2, Bool.and_eq_true, Bool.not_eq_true'] at hx
      simp only [pass1]
      simp [hx.1])
  simp only [List.nil_append] at h2
  have h3 := linked_close h2.linked
  rw [← h2.prev] at h3
  refine ⟨h3.1, h3.2, h2.ret, h2.ret, rfl, ?_⟩
  have hb := h2.base
  show List.map unlink (match (matchpass (pass2 env p) (matchpass (pass1 env p) ⟨p.items, none, none⟩)).previtem with
      | some l => setnextmatch _ l none
      | none => _) = _
  split
  · rw [map_unlink_setnextmatch]; exact hb
  · exact hb

theorem nextof_chain {items : List Item} {L : List Nat} (h : Linked items L)
    (hc : Closed items L) {k a : Nat} (ha : L[k]? = some a) : nextof items a = L[k + 1]? := by
  cases hb : L[k + 1]? with
  | some b => exact (h.link k a b ha hb).1
  | none =>
    apply hc
    rw [List.getLast?_eq_getElem?]
    have h1 := (List.getElem?_eq_some_iff.mp ha).1
    have h2 := List.getElem?_eq_none_iff.mp hb
    have : L.length - 1 = k := by omega
    rw [this]; exact ha

theorem prevof_chain {items : List Item} {L : List Nat} (h : Linked items L)
    {k b : Nat} (hb : L[k + 1]? = some b) : prevof items b = L[k]? := by
  have h1 := (List.getElem?_eq_some_iff.mp hb).1
  have hk : k < L.length := by omega
  have ha : L[k]? = some L[k] := List.getElem?_eq_getElem hk
  rw [ha]
  exact (h.link k _ b ha hb).2

theorem chainFrom_drop {items : List Item} {L : List Nat} (h : Linked items L)
    (hc : Closed items L) :
    ∀ (fuel k : Nat), L.length ≤ fuel + k → chainFrom items fuel L[k]? = L.drop k := by
  intro fuel
  induction fuel with
  | zero =>
    intro k hk
    simp only [Nat.zero_add] at hk
    simp [chainFrom, List.drop_eq_nil_of_le hk]
  | succ fuel ih =>
    intro k hk
    cases ha : L[k]? with
    | none =>
      have := List.getElem?_eq_none_iff.mp ha
      simp [chainFrom, List.drop_eq_nil_of_le this]
    | some a =>
      have hlt := (List.getElem?_eq_some_iff.mp ha).1
      have hnx : (items.get? a).bind (fun it => it.nextmatch) = L[k + 1]? := nextof_chain h hc ha
      simp only [chainFrom, hnx]
      rw [ih (k + 1) (by omega)]
      have hak : L[k] = a := (List.getElem?_eq_some_iff.mp ha).2.symm ▸ rfl
      rw [← hak]
      exact (List.drop_eq_getElem_cons hlt).symm

theorem linked_length_le {items : List Item} {L : List Nat} (h : Linked items L) :
    L.length ≤ items.length := by
  have hsub : L ⊆ List.range items.length := fun a ha => List.mem_range.mpr (h.bound a ha)
  have := (List.subperm_of_subset h.nodup hsub).length_le
  simpa using this

theorem chainFrom_linked {items : List Item} {L : List Nat} (h : Linked items L)
    (hc : Closed items L) (fuel : Nat) (hf : items.length ≤ fuel) :
    chainFrom items fuel L.head? = L := by
  have := chainFrom_drop h hc fuel 0 (by have := linked_length_le h; omega)
  rw [List.head?_eq_getElem?]
  simpa using this

theorem tolower_eq_zero {c : Nat} : tolower c = 0 ↔ c = 0 := by
  unfold tolower
  split <;> omega

theorem strncmp_eq_zero_iff : ∀ (n : Nat) (s text : List Nat), text.length = n → 0 ∉ text →
    (strncmp s text n = 0 ↔ s.take n = text) := by
  intro n
  induction n with
  | zero =>
    intro s text hl _
    have : text = [] := List.length_eq_zero.mp hl
    simp [strncmp, this]
  | succ n ih =>
    intro s text hl hz
    cases text with
    | nil => simp at hl
    | cons c t =>
      have hc : c ≠ 0 := fun e => hz (by simp [e])
      have hzt : 0 ∉ t := fun h => hz (by simp [h])
      have hlt : t.length = n := by simpa using hl
      cases s with
      | nil =>
        simp only [strncmp, deref, List.headD_nil, List.headD_cons]
        have h0 : ¬ (0 = c) := fun e => hc e.symm
        simp [h0]
        omega
      | cons d s' =>
        simp only [strncmp, deref, List.headD_cons, List.tail_cons, List.take_succ_cons,
          List.cons.injEq]
        by_cases hdc : d = c
        · subst hdc
          simp only [ne_eq, not_true_eq_false, if_false, hc, true_and]
          exact ih s' t hlt hzt
        · simp only [ne_eq, hdc, not_false_eq_true, if_true, false_and, iff_false]
          omega

theorem strncasecmp_eq_zero_iff : ∀ (n : Nat) (s text : List Nat), text.length = n → 0 ∉ text →
    (strncasecmp s text n = 0 ↔ (s.take n).map tolower = text.map tolower) := by
  intro n
  induction n with
  | zero =>
    intro s text hl _
    have : text = [] := List.length_eq_zero.mp hl
    simp [strncasecmp, this]
  | succ n ih =>
    intro s text hl hz
    cases text with
    | nil => simp at hl
    | cons c t =>
      have hc : c ≠ 0 := fun e => hz (by simp [e])
      have hzt : 0 ∉ t := fun h => hz (by simp [h])
      have hlt : t.length = n := by simpa using hl
      have htc : tolower c ≠ 0 := fun e => hc (tolower_eq_zero.mp e)
      cases s with
      | nil =>
        simp only [strncasecmp, deref, List.headD_nil, List.headD_cons]
        have h0 : tolower 0 = 0 := by decide
        have h1 : ¬ (0 = tolower c) := fun e => htc e.symm
        simp [h0, h1]
        omega
      | cons d s' =>
        simp only [strncasecmp, deref, List.headD_cons, List.tail_cons, List.take_succ_cons,
          List.map_cons, List.cons.injEq]
        by_cases hdc : tolower d = tolower c
        · have hd : d ≠ 0 := by
            intro e
            subst e
            exact htc (by rw [← hdc]; decide)
          simp only [hdc, ne_eq, not_true_eq_false, if_false, hd, true_and]
          exact ih s' t hlt hzt
        · simp only [ne_eq, hdc, not_false_eq_true, if_true, false_and, iff_false]
          omega

theorem fstrncmp_eq_zero_iff (env : Env) (n : Nat) (s text : List Nat) (hl : text.length = n)
    (hz : 0 ∉ text) :
    (fstrncmp env s text n = 0 ↔ (s.take n).map (casefold env) = text.map (casefold env)) := by
  unfold fstrncmp
  cases hi : env.iflag with
  | true =>
    have : casefold env = tolower := by funext c; simp [casefold, hi]
    simp only [if_true, this]
    exact strncasecmp_eq_zero_iff n s text hl hz
  | false =>
    have : casefold env = fun c => c := by funext c; simp [casefold, hi]
    simp only [Bool.false_eq_true, if_false, this, List.map_id']
    exact strncmp_eq_zero_iff n s text hl hz

theorem cstr_no_zero (buf : List Nat) : 0 ∉ cstr buf := by
  intro h
  have := List.mem_takeWhile_imp h
  simp at this

theorem length_dropWhile_le (f : Nat → Bool) (s : List Nat) :
    (s.dropWhile f).length ≤ s.length :=
  (List.dropWhile_sublist f).length_le

theorem dropWhile_eq_drop (f : Nat → Bool) (s : List Nat) :
    s.dropWhile f = s.drop (s.length - (s.dropWhile f).length) := by
  induction s with
  | nil => simp
  | cons c r ih =>
    simp only [List.dropWhile_cons]
    split
    · have hle : (r.dropWhile f).length ≤ r.length := length_dropWhile_le f r
      have : (c :: r).length - (r.dropWhile f).length = (r.length - (r.dropWhile f).length) + 1 := by
        simp; omega
      rw [this, List.drop_succ_cons]
      exact ih
    · simp

theorem skip_length_lt (s : List Nat) (h : deref s ≠ 0) :
    (skipword (skipspaces s)).length < s.length := by
  cases s with
  | nil => simp [deref] at h
  | cons c r =>
    simp only [deref, List.headD_cons] at h
    unfold skipword skipspaces
    by_cases hs : isspace c = true
    · have h1 : (List.dropWhile (fun c => c != 0 && isspace c) (c :: r)) =
          List.dropWhile (fun c => c != 0 && isspace c) r := by
        rw [List.dropWhile_cons]; simp [h, hs]
      rw [h1]
      have a := length_dropWhile_le (fun c => c != 0 && !isspace c)
        (List.dropWhile (fun c => c != 0 && isspace c) r)
      have b := length_dropWhile_le (fun c => c != 0 && isspace c) r
      simp only [List.length_cons]
      omega
    · have h1 : (List.dropWhile (fun c => c != 0 && isspace c) (c :: r)) = c :: r := by
        rw [List.dropWhile_cons]; simp [hs]
      rw [h1]
      have h2 : (List.dropWhile (fun c => c != 0 && !isspace c) (c :: r)) =
          List.dropWhile (fun c => c != 0 && !isspace c) r := by
        rw [List.dropWhile_cons]; simp [h, hs]
      rw [h2]
      have a := length_dropWhile_le (fun c => c != 0 && !isspace c) r
      simp only [List.length_cons]
      omega

theorem skip_eq_drop (s : List Nat) :
    skipword (skipspaces s) = s.drop (s.length - (skipword (skipspaces s)).length) := by
  have h : ∃ j, j ≤ s.length ∧ skipword (skipspaces s) = s.drop j := by
    unfold skipword skipspaces
    have h1 := dropWhile_eq_drop (fun c => c != 0 && isspace c) s
    have h2 := dropWhile_eq_drop (fun c => c != 0 && !isspace c)
      (List.dropWhile (fun c => c != 0 && isspace c) s)
    have a := length_dropWhile_le (fun c => c != 0 && !isspace c)
      (List.dropWhile (fun c => c != 0 && isspace c) s)
    have b := length_dropWhile_le (fun c => c != 0 && isspace c) s
    refine ⟨(s.length - (List.dropWhile (fun c => c != 0 && isspace c) s).length) +
      ((List.dropWhile (fun c => c != 0 && isspace c) s).length -
        (List.dropWhile (fun c => c != 0 && !isspace c)
          (List.dropWhile (fun c => c != 0 && isspace c) s)).length), by omega, ?_⟩
    rw [← List.drop_drop, ← h1]
    exact h2
  obtain ⟨j, hj, he⟩ := h
  rw [he, List.length_drop]
  congr 1
  omega

/-- More fuel than the length of the text does not change the result of the loop. -/
theorem itemmatchLoop_fuel (cmp : List Nat → List Nat → Nat → Int) (text : List Nat) (n : Nat)
    (middle : Bool) : ∀ (f1 f2 : Nat) (s : List Nat), s.length ≤ f1 → s.length ≤ f2 →
    itemmatchLoop cmp text n middle f1 s = itemmatchLoop cmp text n middle f2 s := by
  intro f1
  induction f1 with
  | zero =>
    intro f2 s h1 _
    have : s = [] := List.length_eq_zero.mp (Nat.le_zero.mp h1)
    subst this
    cases f2 <;> simp [itemmatchLoop, deref]
  | succ f1 ih =>
    intro f2 s h1 h2
    cases f2 with
    | zero =>
      have : s = [] := List.length_eq_zero.mp (Nat.le_zero.mp h2)
      subst this
      simp [itemmatchLoop, deref]
    | succ f2 =>
      simp only [itemmatchLoop]
      by_cases hd : deref s = 0
      · simp [hd]
      · have hlt := skip_length_lt s hd
        have htl : s.tail.length < s.length := by
          cases s with
          | nil => simp [deref] at hd
          | cons c r => simp
        simp only [hd, if_false]
        split
        · rfl
        · split
          · exact ih f2 _ (by omega) (by omega)
          · exact ih f2 _ (by omega) (by omega)

theorem itemmatchLoop_middle_iff (cmp : List Nat → List Nat → Nat → Int) (text : List Nat)
    (n : Nat) : ∀ (fuel : Nat) (s : List Nat), s.length ≤ fuel → 0 ∉ s →
    (itemmatchLoop cmp text n true fuel s = true ↔
      ∃ off, off < s.length ∧ cmp (s.drop off) text n = 0) := by
  intro fuel
  induction fuel with
  | zero =>
    intro s h _
    have : s = [] := List.length_eq_zero.mp (Nat.le_zero.mp h)
    subst this
    simp [itemmatchLoop]
  | succ fuel ih =>
    intro s h hz
    cases s with
    | nil => simp [itemmatchLoop, deref]
    | cons c r =>
      have hc : c ≠ 0 := fun e => hz (by simp [e])
      have hzr : 0 ∉ r := fun h => hz (by simp [h])
      simp only [itemmatchLoop, deref, List.headD_cons, hc, if_false, List.tail_cons, if_true]
      by_cases h0 : cmp (c :: r) text n = 0
      · simp only [h0, if_true, true_iff]
        exact ⟨0, by simp, by simpa using h0⟩
      · simp only [h0, if_false]
        rw [ih r (by simpa using h) hzr]
        constructor
        · rintro ⟨off, ho, hcmp⟩
          exact ⟨off + 1, by simpa using ho, by simpa using hcmp⟩
        · rintro ⟨off, ho, hcmp⟩
          cases off with
          | zero => exact absurd (by simpa using hcmp) h0
          | succ o => exact ⟨o, by simpa using ho, by simpa using hcmp⟩

theorem itemmatchLoop_word_imp (cmp : List Nat → List Nat → Nat → Int) (text : List Nat)
    (n : Nat) : ∀ (fuel : Nat) (s : List Nat),
    itemmatchLoop cmp text n false fuel s = true →
      ∃ off, off < s.length ∧ cmp (s.drop off) text n = 0 := by
  intro fuel
  induction fuel with
  | zero => intro s h; simp [itemmatchLoop] at h
  | succ fuel ih =>
    intro s h
    simp only [itemmatchLoop] at h
    by_cases hd : deref s = 0
    · simp [hd] at h
    · simp only [hd, if_false] at h
      have hne : 0 < s.length := by
        cases s with
        | nil => simp [deref] at hd
        | cons c r => simp
      by_cases h0 : cmp s text n = 0
      · exact ⟨0, hne, by simpa using h0⟩
      · simp only [h0, if_false, Bool.false_eq_true] at h
        obtain ⟨off, ho, hcmp⟩ := ih _ h
        have hlt := skip_length_lt s hd
        have he := skip_eq_drop s
        refine ⟨(s.length - (skipword (skipspaces s)).length) + off, by omega, ?_⟩
        rw [← List.drop_drop, ← he]
        exact hcmp

theorem itemmatch_word_imp_middle (env : Env) (it : Item) (text : List Nat) (n : Nat)
    (hz : 0 ∉ it.text) (h : itemmatch env it text n false = true) :
    itemmatch env it text n true = true := by
  unfold itemmatch at *
  rw [itemmatchLoop_middle_iff _ _ _ _ _ (Nat.le_refl _) hz]
  exact itemmatchLoop_word_imp _ _ _ _ _ h

theorem getmatchlist_chain (env : Env) (p : Prompt) (k : Nat) :
    chainFrom (getmatchlist env p).items (p.items.length + k) (getmatchlist env p).firstmatch
      = matchchain env p := by
  obtain ⟨hl, hc, hf, _, _, hb⟩ := getmatchlist_linked env p
  rw [hf]
  apply chainFrom_linked hl hc
  have := congrArg List.length hb
  simp only [List.length_map] at this
  omega

theorem itemmatch_middle_iff (env : Env) (p : Prompt) (it : Item) (hz : 0 ∉ it.text) :
    itemmatch env it (cstr p.text) (strlen p.text) true = true ↔
      ∃ off, off < it.text.length ∧
        ((it.text.drop off).take (strlen p.text)).map (casefold env)
          = (cstr p.text).map (casefold env) := by
  unfold itemmatch
  rw [itemmatchLoop_middle_iff _ _ _ _ _ (Nat.le_refl _) hz]
  constructor
  · rintro ⟨off, ho, h⟩
    exact ⟨off, ho, (fstrncmp_eq_zero_iff env _ _ _ rfl (cstr_no_zero _)).mp h⟩
  · rintro ⟨off, ho, h⟩
    exact ⟨off, ho, (fstrncmp_eq_zero_iff env _ _ _ rfl (cstr_no_zero _)).mpr h⟩

theorem mem_matchchain_iff (env : Env) (p : Prompt) (i : Nat) :
    i ∈ matchchain env p ↔
      ∃ it, p.items[i]? = some it ∧ (pass1 env p it = true ∨ pass2 env p it = true) := by
  unfold matchchain tier1 tier2 testAt
  simp only [List.mem_append, List.mem_filter, List.mem_range, List.get?_eq_getElem?]
  constructor
  · rintro (⟨hi, h⟩ | ⟨hi, h⟩)
    · rw [List.getElem?_eq_getElem hi] at h ⊢
      exact ⟨_, rfl, Or.inl h⟩
    · rw [List.getElem?_eq_getElem hi] at h ⊢
      exact ⟨_, rfl, Or.inr h⟩
  · rintro ⟨it, hit, h⟩
    have hi := (List.getElem?_eq_some_iff.mp hit).1
    rw [hit]
    rcases h with h | h
    · exact Or.inl ⟨hi, h⟩
    · exact Or.inr ⟨hi, h⟩

/-- C2 (match chain tier invariant): for every catalog and buffer text, the chain that
`getmatchlist` builds, followed from `firstmatch` through `nextmatch` (with any fuel of
at least the size of the catalog), is the list of the catalog items for which
`itemmatch` with `middle = 0` holds, in catalog order, followed by the catalog items for
which it fails and `itemmatch` with `middle = 1` holds, in catalog order; no item occurs
twice, the first entry has no match-predecessor, the last has no match-successor, and
the items are otherwise unchanged. -/
theorem getmatchlist_chain_tiers (env : Env) (p : Prompt) (k : Nat) :
    chainFrom (getmatchlist env p).items (p.items.length + k) (getmatchlist env p).firstmatch
      = tier1 env p ++ tier2 env p ∧
    (tier1 env p ++ tier2 env p).Nodup ∧
    (∀ a, (tier1 env p ++ tier2 env p).head? = some a →
      prevof (getmatchlist env p).items a = none) ∧
    (∀ a, (tier1 env p ++ tier2 env p).getLast? = some a →
      nextof (getmatchlist env p).items a = none) ∧
    (getmatchlist env p).items.map unlink = p.items.map unlink := by
  obtain ⟨hl, hc, _, _, _, hb⟩ := getmatchlist_linked env p
  exact ⟨getmatchlist_chain env p k, hl.nodup, hl.head, hc, hb⟩

/-- C3 (match chain membership): for every catalog of C strings, every buffer text and
both comparison functions, the item of index `i` is in the match chain if and only if
the buffer text occurs in the text of the item, as the comparison function sees the
bytes, as a contiguous run starting at an offset below the length of the item text; and
every item matched by the first pass is matched as a substring as well. -/
theorem matchchain_membership (env : Env) (p : Prompt) (hz : ∀ it ∈ p.items, 0 ∉ it.text)
    (i k : Nat) :
    (i ∈ chainFrom (getmatchlist env p).items (p.items.length + k)
          (getmatchlist env p).firstmatch ↔
      ∃ it, p.items[i]? = some it ∧ ∃ off, off < it.text.length ∧
        ((it.text.drop off).take (strlen p.text)).map (casefold env)
          = (cstr p.text).map (casefold env)) ∧
    (∀ it ∈ p.items, itemmatch env it (cstr p.text) (strlen p.text) false = true →
      itemmatch env it (cstr p.text) (strlen p.text) true = true) := by
  refine ⟨?_, fun it hit h => itemmatch_word_imp_middle env it _ _ (hz it hit) h⟩
  rw [getmatchlist_chain, mem_matchchain_iff]
  constructor
  · rintro ⟨it, hit, h⟩
    have hmem : it ∈ p.items := List.getElem?_mem hit
    refine ⟨it, hit, (itemmatch_middle_iff env p it (hz it hmem)).mp ?_⟩
    rcases h with h | h
    · exact itemmatch_word_imp_middle env it _ _ (hz it hmem) h
    · simp only [pass2, Bool.and_eq_true] at h
      exact h.2
  · rintro ⟨it, hit, h⟩
    have hmem : it ∈ p.items := List.getElem?_mem hit
    have hm := (itemmatch_middle_iff env p it (hz it hmem)).mpr h
    refine ⟨it, hit, ?_⟩
    by_cases h1 : pass1 env p it = true
    · exact Or.inl h1
    · right
      simp only [pass1, Bool.not_eq_true] at h1
      simp [pass2, h1, hm]

theorem linked_get {items : List Item} {L : List Nat} (h : Linked items L) {k a : Nat}
    (ha : L[k]? = some a) : ∃ it, items.get? a = some it := by
  have := h.bound a (List.getElem?_mem ha)
  exact ⟨items[a], by simp [List.getElem?_eq_getElem this]⟩

theorem prevof_chain_pos {items : List Item} {L : List Nat} (h : Linked items L)
    {k a : Nat} (ha : L[k]? = some a) :
    prevof items a = if k = 0 then none else L[k - 1]? := by
  cases k with
  | zero =>
    simp only [if_true]
    apply h.head
    rw [List.head?_eq_getElem?]; exact ha
  | succ k =>
    simp only [Nat.add_one_ne_zero, if_false, Nat.add_sub_cancel]
    exact prevof_chain h ha

theorem walknext_none (items : List Item) (n : Nat) : walknext items n none = some none := by
  cases n <;> rfl

theorem walkprev_none (items : List Item) (n : Nat) : walkprev items n none = some none := by
  cases n <;> rfl

theorem walknext_chain {items : List Item} {L : List Nat} (h : Linked items L)
    (hc : Closed items L) : ∀ (n k : Nat), walknext items n L[k]? = some L[k + n]? := by
  intro n
  induction n with
  | zero => intro k; simp [walknext]
  | succ n ih =>
    intro k
    cases ha : L[k]? with
    | none =>
      have := List.getElem?_eq_none_iff.mp ha
      rw [walknext_none, List.getElem?_eq_none (by omega)]
    | some a =>
      obtain ⟨it, hit⟩ := linked_get h ha
      have hn := nextof_chain h hc ha
      simp only [nextof, hit, Option.some_bind] at hn
      simp only [walknext, hit, hn]
      rw [ih (k + 1)]
      congr 2
      omega

theorem walkprev_chain {items : List Item} {L : List Nat} (h : Linked items L) :
    ∀ (n k : Nat), k < L.length →
      walkprev items n L[k]? = some (if n ≤ k then L[k - n]? else none) := by
  intro n
  induction n with
  | zero => intro k _; simp [walkprev]
  | succ n ih =>
    intro k hk
    have ha : L[k]? = some L[k] := List.getElem?_eq_getElem hk
    obtain ⟨it, hit⟩ := linked_get h ha
    have hp := prevof_chain_pos h ha
    simp only [prevof, hit, Option.some_bind] at hp
    rw [ha]
    simp only [walkprev, hit, hp]
    cases k with
    | zero => simp [walkprev_none]
    | succ k =>
      simp only [Nat.add_one_ne_zero, if_false, Nat.add_sub_cancel]
      rw [ih k (by omega)]
      by_cases hnk : n ≤ k
      · simp [hnk]
      · simp [hnk]

theorem countsel_chain {items : List Item} {L : List Nat} (h : Linked items L)
    (hc : Closed items L) (t : Nat) (ht : t < L.length) :
    ∀ (n sn q : Nat), q ≤ t →
      countsel items L[t]? n sn L[q]? = some (sn + min n (t - q)) := by
  intro n
  induction n with
  | zero => intro sn q _; simp [countsel]
  | succ n ih =>
    intro sn q hq
    have hqa : L[q]? = some L[q] := List.getElem?_eq_getElem (by omega)
    have hta : L[t]? = some L[t] := List.getElem?_eq_getElem ht
    by_cases hqt : q = t
    · subst hqt
      simp [countsel]
    · have hne : some L[q] ≠ L[t]? := by
        intro e
        rw [hta] at e
        exact hqt (nodup_index_unique h.nodup (hqa.trans e) hta)
      obtain ⟨it, hit⟩ := linked_get h hqa
      have hn := nextof_chain h hc hqa
      simp only [nextof, hit, Option.some_bind] at hn
      rw [hqa]
      simp only [countsel, hne, if_false, hit, hn]
      rw [ih (sn + 1) (q + 1) (by omega)]
      congr 1
      omega

theorem fillarray_chain {items : List Item} {L : List Nat} (h : Linked items L)
    (hc : Closed items L) :
    ∀ (n i0 q : Nat) (arr : List (Option Nat)), i0 + n ≤ arr.length →
      ∃ arr', fillarray items n i0 L[q]? arr = some (arr', i0 + min n (L.length - q)) ∧
        arr'.length = arr.length ∧
        (∀ j, j < min n (L.length - q) → arr'[i0 + j]? = some L[q + j]?) ∧
        (∀ j, j < i0 → arr'[j]? = arr[j]?) := by
  intro n
  induction n with
  | zero =>
    intro i0 q arr _
    exact ⟨arr, by simp [fillarray], rfl, by simp, fun _ _ => rfl⟩
  | succ n ih =>
    intro i0 q arr hlen
    cases ha : L[q]? with
    | none =>
      have := List.getElem?_eq_none_iff.mp ha
      refine ⟨arr, ?_, rfl, ?_, fun _ _ => rfl⟩
      · simp only [fillarray]
        congr 2
        omega
      · intro j hj
        omega
    | some a =>
      have hq := (List.getElem?_eq_some_iff.mp ha).1
      obtain ⟨it, hit⟩ := linked_get h ha
      have hn := nextof_chain h hc ha
      simp only [nextof, hit, Option.some_bind] at hn
      obtain ⟨arr', he, hl, hj, hlow⟩ := ih (i0 + 1) (q + 1) (arr.set i0 (some a))
        (by simp; omega)
      refine ⟨arr', ?_, ?_, ?_, ?_⟩
      · simp only [fillarray, hit, hn, he]
        congr 2
        omega
      · simpa using hl
      · intro j hjlt
        cases j with
        | zero =>
          rw [Nat.add_zero, Nat.add_zero, hlow i0 (by omega)]
          rw [List.getElem?_set_self (by omega), ha]
        | succ j =>
          have := hj j (by omega)
          rw [show i0 + (j + 1) = i0 + 1 + j by omega, show q + (j + 1) = q + 1 + j by omega]
          exact this
      · intro j hjlt
        rw [hlow j (by omega)]
        exact List.getElem?_set_ne (by omega)

theorem chainFrom_take {items : List Item} {L : List Nat} (h : Linked items L)
    (hc : Closed items L) :
    ∀ (fuel k : Nat), chainFrom items fuel L[k]? = (L.drop k).take fuel := by
  intro fuel
  induction fuel with
  | zero => intro k; simp [chainFrom]
  | succ fuel ih =>
    intro k
    cases ha : L[k]? with
    | none =>
      have := List.getElem?_eq_none_iff.mp ha
      simp [chainFrom, List.drop_eq_nil_of_le this]
    | some a =>
      have hlt := (List.getElem?_eq_some_iff.mp ha).1
      have hnx : (items.get? a).bind (fun it => it.nextmatch) = L[k + 1]? := nextof_chain h hc ha
      simp only [chainFrom, hnx]
      rw [ih (k + 1)]
      have hak : L[k] = a := (List.getElem?_eq_some_iff.mp ha).2.symm ▸ rfl
      rw [← hak, List.drop_eq_getElem_cons hlt, List.take_succ_cons]

/-! ## Theorems: the view window -/

theorem navnext_eq {p : Prompt} {L : List Nat} {w i : Nat} (hl : Linked p.items L)
    (hc : Closed p.items L) (hwin : p.matchlist = L[w]?) (hwi : w ≤ i)
    (hi : i + 1 < L.length) :
    navnext p L[i + 1] =
      navdone (navset p L
        (if min p.maxitems (i - w) + 1 ≥ p.maxitems then
          (if w + p.maxitems < L.length then w + p.maxitems else i + 1) else w)
        (some (i + 1))) := by
  have hib : L[i + 1]? = some L[i + 1] := List.getElem?_eq_getElem hi
  obtain ⟨nselit, hnselit⟩ := linked_get hl hib
  have hnp := prevof_chain hl hib
  simp only [prevof, hnselit, Option.some_bind] at hnp
  have hcount := countsel_chain hl hc i (by omega) p.maxitems 0 w hwi
  have hwalk := walknext_chain hl hc p.maxitems w
  unfold navnext
  simp only [hnselit, hnp, hwin, hcount, Nat.zero_add, hwalk]
  by_cases hpage : min p.maxitems (i - w) + 1 ≥ p.maxitems
  · simp only [hpage, if_true]
    by_cases hrem : w + p.maxitems < L.length
    · simp only [hrem, if_true, navset, Option.some_bind, hib, List.getElem?_eq_getElem hrem]
    · rw [List.getElem?_eq_none (by omega)]
      simp only [hrem, if_false, navset, Option.some_bind, hib]
  · simp only [hpage, if_false, navset, Option.some_bind, hib]

theorem navprev_eq {p : Prompt} {L : List Nat} {w i : Nat} (hl : Linked p.items L)
    (hfirst : p.firstmatch = L.head?) (hwin : p.matchlist = L[w]?) (hwl : w < L.length)
    (hi : i + 1 < L.length) :
    navprev p L[i] =
      navdone (navset p L
        (if i + 1 = w then (if p.maxitems ≤ w then w - p.maxitems else 0) else w)
        (some i)) := by
  have hia : L[i]? = some L[i] := List.getElem?_eq_getElem (by omega)
  have hwa : L[w]? = some L[w] := List.getElem?_eq_getElem hwl
  obtain ⟨mlit, hmlit⟩ := linked_get hl hwa
  have hmp := prevof_chain_pos hl hwa
  simp only [prevof, hmlit, Option.some_bind] at hmp
  have hwalk := walkprev_chain hl p.maxitems w hwl
  unfold navprev
  rw [hwin, hwa]
  simp only [hmlit, hmp]
  rw [← hwa, hwalk]
  by_cases hiw : i + 1 = w
  · subst hiw
    simp only [Nat.add_one_ne_zero, if_false, Nat.add_sub_cancel, hia, if_true]
    by_cases hcw : p.maxitems ≤ i + 1
    · simp only [hcw, if_true, navset, Option.some_bind, hia]
      rw [List.getElem?_eq_getElem (by omega)]
    · simp only [hcw, if_false, navset, Option.some_bind, hia]
      rw [hfirst, List.head?_eq_getElem?]
  · have hne : ¬ (some L[i] = if w = 0 then none else L[w - 1]?) := by
      intro e
      by_cases hw0 : w = 0
      · simp [hw0] at e
      · simp only [hw0, if_false] at e
        have := nodup_index_unique hl.nodup hia e.symm
        omega
    simp only [hne, if_false, hiw, navset, Option.some_bind, hia]

theorem navmatchlist_eq {p : Prompt} {L : List Nat} {w : Nat} {s : Option Nat}
    (h : NavInv p L w s) (d : Int) :
    navmatchlist p d =
      navdone (navset p L (navpos L.length p.maxitems d w s).1
        (navpos L.length p.maxitems d w s).2) := by
  obtain ⟨hl, hc, hfirst, hwin, hwlt, hsel, hselwin, hcap, harr⟩ := h
  cases s with
  | none =>
    simp only [Option.none_bind] at hsel
    by_cases hd : d = 0
    · subst hd
      simp only [navmatchlist, navpos, navset, hsel, ne_eq, not_true_eq_false, false_and,
        if_false, Option.none_bind]
      rw [← hwin, ← hsel]
    · by_cases hw : w < L.length
      · simp only [navmatchlist, navpos, navset, hsel, ne_eq, hd, not_false_eq_true,
          and_self, if_true, hw, Option.some_bind]
        rw [← hwin]
      · simp only [navmatchlist, navpos, navset, hsel, ne_eq, hd, not_false_eq_true,
          and_self, if_true, hw, and_false, if_false, Option.none_bind]
        rw [hwin, List.getElem?_eq_none (by omega)]
  | some i =>
    obtain ⟨hwi, hiw, hil⟩ := hselwin i rfl
    have hLne : L ≠ [] := by intro e; subst e; simp at hil
    have hwl := hwlt hLne
    have hia : L[i]? = some L[i] := List.getElem?_eq_getElem hil
    simp only [Option.some_bind, hia] at hsel
    obtain ⟨selit, hselit⟩ := linked_get hl hia
    have hnx := nextof_chain hl hc hia
    have hpv := prevof_chain_pos hl hia
    simp only [nextof, prevof, hselit, Option.some_bind] at hnx hpv
    unfold navmatchlist
    simp only [hsel, reduceCtorEq, and_false, if_false, hselit]
    by_cases hnext : d > 0 ∧ i + 1 < L.length
    · have hib : L[i + 1]? = some L[i + 1] := List.getElem?_eq_getElem hnext.2
      rw [hnx, hib]
      simp only [hnext.1, ne_eq, not_false_eq_true, and_self, if_true, reduceCtorEq,
        Option.some_bind]
      rw [navnext_eq hl hc hwin hwi hnext.2]
      simp only [navpos, hnext, and_self, if_true]
    · have hnn : ¬ (d > 0 ∧ selit.nextmatch ≠ none) := by
        rintro ⟨h1, h2⟩
        apply hnext
        refine ⟨h1, ?_⟩
        rw [hnx] at h2
        by_contra hcon
        exact h2 (List.getElem?_eq_none (by omega))
      simp only [hnn, if_false]
      by_cases hprev : d < 0 ∧ 0 < i
      · obtain ⟨j, rfl⟩ : ∃ j, i = j + 1 := ⟨i - 1, by omega⟩
        have hib : L[j]? = some L[j] := List.getElem?_eq_getElem (by omega)
        simp only [Nat.add_one_ne_zero, if_false, Nat.add_sub_cancel] at hpv
        have hdn : ¬ d > 0 := by omega
        rw [hpv, hib]
        simp only [hprev.1, ne_eq, not_false_eq_true, and_self, if_true, reduceCtorEq,
          Option.some_bind]
        rw [navprev_eq hl hfirst hwin hwl hil]
        simp only [navpos, hdn, false_and, if_false, hprev, and_self, if_true,
          Nat.add_sub_cancel]
      · have hpn : ¬ (d < 0 ∧ selit.prevmatch ≠ none) := by
          rintro ⟨h1, h2⟩
          apply hprev
          refine ⟨h1, ?_⟩
          rw [hpv] at h2
          by_contra hcon
          have : i = 0 := by omega
          exact h2 (by simp [this])
        simp only [hpn, if_false]
        have hnp : navpos L.length p.maxitems d w (some i) = (w, some i) := by
          simp only [navpos, hnext, if_false, hprev]
        rw [hnp]
        simp only [navset, Option.some_bind, hia]
        rw [← hwin, ← hsel]

theorem navset_inv {p : Prompt} {L : List Nat} {w : Nat} {s : Option Nat}
    (h : NavInv p L w s) (d : Int) :
    NavInv (navset p L (navpos L.length p.maxitems d w s).1
        (navpos L.length p.maxitems d w s).2) L
      (navpos L.length p.maxitems d w s).1 (navpos L.length p.maxitems d w s).2 := by
  obtain ⟨hl, hc, hfirst, hwin, hwlt, hsel, hselwin, hcap, harr⟩ := h
  refine ⟨hl, hc, hfirst, rfl, ?_, rfl, ?_, hcap, harr⟩
  · intro hne
    have hw := hwlt hne
    cases s with
    | none => simp only [navpos]; split_ifs <;> exact hw
    | some i =>
      obtain ⟨hwi, hiw, hil⟩ := hselwin i rfl
      simp only [navpos]
      split_ifs <;> simp only <;> omega
  · intro i' hi'
    show _ ∧ _ < _ + p.maxitems ∧ _
    cases s with
    | none =>
      simp only [navpos] at hi' ⊢
      split_ifs at hi' ⊢ with h1
      simp only [Option.some.injEq] at hi'
      omega
    | some i =>
      obtain ⟨hwi, hiw, hil⟩ := hselwin i rfl
      simp only [navpos] at hi' ⊢
      split_ifs at hi' ⊢ <;> simp only [Option.some.injEq] at hi' <;> omega

theorem navdone_inv {p : Prompt} {L : List Nat} {w : Nat} {s : Option Nat}
    (h : NavInv p L w s) :
    ∃ q, navdone p = some q ∧ NavInv q L w s ∧
      q = { p with itemarray := q.itemarray, nitems := min p.maxitems (L.length - w) } ∧
      ∀ j, j < min p.maxitems (L.length - w) → q.itemarray[j]? = some L[w + j]? := by
  obtain ⟨hl, hc, hfirst, hwin, hwlt, hsel, hselwin, hcap, harr⟩ := h
  obtain ⟨arr, he, hlen, hj, _⟩ := fillarray_chain hl hc p.maxitems 0 w p.itemarray (by omega)
  refine ⟨{ p with itemarray := arr, nitems := min p.maxitems (L.length - w) }, ?_, ?_, rfl, ?_⟩
  · unfold navdone
    rw [hwin, he]
    simp
  · exact ⟨hl, hc, hfirst, hwin, hwlt, hsel, hselwin, hcap, by simpa [harr] using hlen⟩
  · intro j hjlt
    have := hj j hjlt
    simpa using this

/-- Under the window invariant `navmatchlist` returns, and its result is the step
`navpos` on positions followed by the refill of the visible array. -/
theorem navmatchlist_inv {p : Prompt} {L : List Nat} {w : Nat} {s : Option Nat}
    (h : NavInv p L w s) (d : Int) :
    ∃ q, navmatchlist p d = some q ∧
      NavInv q L (navpos L.length p.maxitems d w s).1 (navpos L.length p.maxitems d w s).2 ∧
      q = { navset p L (navpos L.length p.maxitems d w s).1
              (navpos L.length p.maxitems d w s).2 with
            itemarray := q.itemarray
            nitems := min p.maxitems (L.length - (navpos L.length p.maxitems d w s).1) } ∧
      ∀ j, j < min p.maxitems (L.length - (navpos L.length p.maxitems d w s).1) →
        q.itemarray[j]? = some L[(navpos L.length p.maxitems d w s).1 + j]? := by
  rw [navmatchlist_eq h d]
  exact navdone_inv (navset_inv h d)

theorem getmatchlist_navinv (env : Env) (p : Prompt) (hcap : 1 ≤ p.maxitems)
    (harr : p.itemarray.length = p.maxitems) :
    NavInv (getmatchlist env p) (matchchain env p) 0 none := by
  obtain ⟨hl, hc, hf, hm, hs, _⟩ := getmatchlist_linked env p
  refine ⟨hl, hc, hf, ?_, ?_, hs, ?_, hcap, harr⟩
  · rw [hm, List.head?_eq_getElem?]
  · intro hne
    exact List.length_pos.mpr hne
  · intro i hi; simp at hi

theorem navseq_inv : ∀ (ds : List Int) (p : Prompt) (L : List Nat) (w : Nat) (s : Option Nat),
    NavInv p L w s → (s = none ∨ Filled p L w) →
    ∃ q, navseq p ds = some q ∧
      NavInv q L (navposseq L.length p.maxitems ds (w, s)).1
        (navposseq L.length p.maxitems ds (w, s)).2 ∧
      q.maxitems = p.maxitems ∧ q.items = p.items ∧
      ((navposseq L.length p.maxitems ds (w, s)).2 = none ∨
        Filled q L (navposseq L.length p.maxitems ds (w, s)).1) := by
  intro ds
  induction ds with
  | nil =>
    intro p L w s h hf
    exact ⟨p, rfl, h, rfl, rfl, hf⟩
  | cons d ds ih =>
    intro p L w s h _
    obtain ⟨q, hq, hinv, hqe, hfill⟩ := navmatchlist_inv h d
    have hmax : q.maxitems = p.maxitems := by rw [hqe]; rfl
    have hitems : q.items = p.items := by rw [hqe]; rfl
    have hnit : q.nitems = min p.maxitems (L.length - (navpos L.length p.maxitems d w s).1) := by
      rw [hqe]
    have hfilled : Filled q L (navpos L.length p.maxitems d w s).1 := by
      refine ⟨by rw [hnit, hmax], ?_⟩
      intro j hj
      rw [hnit] at hj
      exact hfill j hj
    obtain ⟨r, hr, hrinv, hrmax, hritems, hrf⟩ := ih q L _ _ hinv (Or.inr hfilled)
    refine ⟨r, ?_, ?_, ?_, ?_, ?_⟩
    · simp only [navseq, hq, Option.some_bind, hr]
    · simpa only [navposseq, hmax] using hrinv
    · rw [hrmax, hmax]
    · rw [hritems, hitems]
    · simpa only [navposseq, hmax] using hrf

theorem selitem_visible {q : Prompt} {L : List Nat} {w : Nat} {s : Option Nat}
    (h : NavInv q L w s) (hf : s = none ∨ Filled q L w) (a : Nat) (ha : q.selitem = some a) :
    a ∈ chainFrom q.items q.maxitems q.matchlist ∧ some a ∈ q.itemarray.take q.nitems := by
  cases s with
  | none =>
    have := h.sel
    rw [ha] at this
    simp at this
  | some i =>
    obtain ⟨hwi, hiw, hil⟩ := h.selwin i rfl
    have hsel := h.sel
    simp only [Option.some_bind, ha] at hsel
    have hfilled : Filled q L w := by
      rcases hf with hf | hf
      · simp at hf
      · exact hf
    constructor
    · rw [h.win, chainFrom_take h.linked h.closed]
      apply List.getElem?_mem (n := i - w)
      rw [List.getElem?_take, List.getElem?_drop]
      have : i - w < q.maxitems := by omega
      simp only [this, if_true]
      rw [show w + (i - w) = i by omega]
      exact hsel.symm
    · apply List.getElem?_mem (n := i - w)
      have hlt : i - w < q.nitems := by rw [hfilled.1]; omega
      rw [List.getElem?_take]
      simp only [hlt, if_true]
      rw [hfilled.2 (i - w) hlt, show w + (i - w) = i by omega, ← hsel]

/-- C5 (selection-in-window invariant): in every state reached from a chain rebuild
(`getmatchlist`) by any sequence of `navmatchlist` calls, of any direction, with a
capacity of at least 1, every call returns, and if `selitem` is set then it is one of
the first `maxitems` chain entries starting at `matchlist` and an element of the
visible array `itemarray[0..nitems)`. -/
theorem selitem_in_window (env : Env) (p : Prompt) (hcap : 1 ≤ p.maxitems)
    (harr : p.itemarray.length = p.maxitems) (ds : List Int) :
    ∃ q, navseq (getmatchlist env p) ds = some q ∧
      ∀ a, q.selitem = some a →
        a ∈ chainFrom q.items q.maxitems q.matchlist ∧
        some a ∈ q.itemarray.take q.nitems := by
  obtain ⟨q, hq, hinv, _, _, hf⟩ :=
    navseq_inv ds (getmatchlist env p) (matchchain env p) 0 none
      (getmatchlist_navinv env p hcap harr) (Or.inl rfl)
  exact ⟨q, hq, fun a ha => selitem_visible hinv hf a ha⟩

/-- C4, amended (pagination full-page jump): with capacity 3 and a match chain of 10
items, starting from a fresh rebuild, three calls of `navmatchlist` with direction next
leave `matchlist` at match 0, with match 2 selected; the fourth call moves `matchlist`
to match 3, the newly selected item. -/
theorem next_four_times_pages (env : Env) (p : Prompt) (hcap : p.maxitems = 3)
    (harr : p.itemarray.length = 3) (hten : (matchchain env p).length = 10) :
    (∃ q, navseq (getmatchlist env p) [1, 1, 1] = some q ∧
      q.matchlist = (matchchain env p)[0]? ∧ q.selitem = (matchchain env p)[2]?) ∧
    (∃ q, navseq (getmatchlist env p) [1, 1, 1, 1] = some q ∧
      q.matchlist = (matchchain env p)[3]? ∧ q.selitem = (matchchain env p)[3]?) := by
  have hinv := getmatchlist_navinv env p (by omega) (by omega)
  have hm : (getmatchlist env p).maxitems = 3 := hcap
  constructor
  · obtain ⟨q, hq, hqinv, _⟩ := navseq_inv [1, 1, 1] _ _ 0 none hinv (Or.inl rfl)
    rw [hten, hm] at hqinv
    have e : navposseq 10 3 [1, 1, 1] (0, none) = (0, some 2) := by decide
    rw [e] at hqinv
    exact ⟨q, hq, hqinv.win, hqinv.sel⟩
  · obtain ⟨q, hq, hqinv, _⟩ := navseq_inv [1, 1, 1, 1] _ _ 0 none hinv (Or.inl rfl)
    rw [hten, hm] at hqinv
    have e : navposseq 10 3 [1, 1, 1, 1] (0, none) = (3, some 3) := by decide
    rw [e] at hqinv
    exact ⟨q, hq, hqinv.win, hqinv.sel⟩

/-! ## Theorems: the text buffer -/

theorem cstr_append_nul (a r : List Nat) (ha : 0 ∉ a) : cstr (a ++ 0 :: r) = a := by
  unfold cstr
  induction a with
  | nil => simp
  | cons c t ih =>
    have hc : c ≠ 0 := fun e => ha (by simp [e])
    have ht : 0 ∉ t := fun h => ha (by simp [h])
    simp [List.takeWhile_cons, hc, ih ht]

theorem cstr_split (buf : List Nat) (h : strlen buf < buf.length) :
    buf = cstr buf ++ 0 :: buf.drop (strlen buf + 1) := by
  unfold strlen cstr at *
  induction buf with
  | nil => simp at h
  | cons c t ih =>
    by_cases hc : c = 0
    · subst hc; simp
    · have h2 : (List.takeWhile (fun c => c != 0) t).length < t.length := by
        simp [List.takeWhile_cons, hc] at h
        exact h
      have := ih h2
      simp only [List.takeWhile_cons, bne_iff_ne, ne_eq, hc, not_false_eq_true, decide_True,
        if_true, List.length_cons, List.cons_append, List.drop_succ_cons, List.cons.injEq,
        true_and]
      exact this

theorem cstr_take_le (buf : List Nat) (k : Nat) (hk : k ≤ strlen buf) :
    buf.take k = (cstr buf).take k := by
  unfold strlen cstr at *
  induction buf generalizing k with
  | nil => simp
  | cons c t ih =>
    cases k with
    | zero => simp
    | succ k =>
      by_cases hc : c = 0
      · subst hc; simp at hk
      · simp only [List.takeWhile_cons, bne_iff_ne, ne_eq, hc, not_false_eq_true, decide_True,
          if_true, List.length_cons, Nat.add_le_add_iff_right] at hk ⊢
        simp only [List.take_succ_cons, List.cons.injEq, true_and]
        exact ih k hk

theorem take_no_zero (buf : List Nat) (k : Nat) : 0 ∉ (cstr buf).take k :=
  fun h => cstr_no_zero buf (List.mem_of_mem_take h)

theorem drop_no_zero (buf : List Nat) (k : Nat) : 0 ∉ (cstr buf).drop k :=
  fun h => cstr_no_zero buf (List.mem_of_mem_drop h)

theorem drop_append_exact (A B : List Nat) (k : Nat) (h : A.length = k) :
    (A ++ B).drop k = B := by
  subst h; simp

/-- The text of the input field after an accepted `insert` of `n > 0` bytes. -/
theorem insert_pos_text (p : Prompt) (str : List Nat) (n : Nat) (hok : BufOK p) (hn : 0 < n)
    (hfit : strlen p.text + n ≤ p.textsize - 1) :
    insert p str (n : Int) =
      { p with
        text := (cstr p.text).take p.cursor ++ str.take n ++
          ((cstr p.text).drop p.cursor ++ 0 :: (p.text.drop (strlen p.text + 1)).take
            (p.textsize - 1 - strlen p.text - n))
        cursor := p.cursor + n
        select := p.cursor + n } := by
  obtain ⟨hsize, hnul, hsmall, hcur⟩ := hok
  have h63 : (2 : Int) ^ 63 < 2 ^ 64 := by norm_num
  have hcond : ¬ (((strlen p.text : Int) + (n : Int)) % 2 ^ 64 > ((p.textsize : Int) - 1) % 2 ^ 64) := by
    rw [Int.emod_eq_of_lt (by omega) (by omega), Int.emod_eq_of_lt (by omega) (by omega)]
    omega
  have hdst : ((((p.cursor : Int) + (n : Int)) % 2 ^ 64).toNat) = p.cursor + n := by
    rw [Int.emod_eq_of_lt (by omega) (by omega)]
    omega
  have hlen : ((((p.textsize : Int) - (p.cursor : Int) - max (n : Int) 0) % 2 ^ 64).toNat)
      = p.textsize - p.cursor - n := by
    have : max (n : Int) 0 = n := by omega
    rw [this, Int.emod_eq_of_lt (by omega) (by omega)]
    omega
  have hnpos : (n : Int) > 0 := by omega
  unfold insert
  simp only [hcond, if_false, hdst, hlen, hnpos, if_true, Int.toNat_ofNat]
  clear hcond hdst hlen hnpos h63
  congr 1
  unfold memcpy memmove
  have hsplit := cstr_split p.text (by omega)
  have hcl : (cstr p.text).length = strlen p.text := rfl
  have hfit2 : strlen p.text + n + 1 ≤ p.textsize := by omega
  have hA : p.text.length ≤ p.cursor + n + (p.textsize - p.cursor - n) := by omega
  have hl1 : (List.take (p.cursor + n) p.text).length = p.cursor + n := by
    rw [List.length_take]; omega
  have hB : p.cursor ≤ (List.take (p.cursor + n) p.text).length := by omega
  have hC : (List.take (p.cursor + n) p.text).length ≤ p.cursor + n := by omega
  have hD : p.cursor ≤ (cstr p.text).length := by rw [hcl]; exact hcur
  have hE : ((cstr p.text).drop p.cursor).length ≤ p.textsize - p.cursor - n := by
    rw [List.length_drop, hcl]; omega
  rw [List.drop_eq_nil_of_le hA, List.append_nil, List.take_append_of_le_length hB,
    List.take_take, Nat.min_eq_left (Nat.le_add_right _ _),
    drop_append_exact _ _ _ hl1, cstr_take_le p.text p.cursor hcur]
  congr 1
  conv => lhs; rw [hsplit]
  rw [List.drop_append_of_le_length hD, List.take_append_eq_append_take,
    List.take_of_length_le hE]
  congr 1
  rw [List.length_drop, hcl]
  have : p.textsize - p.cursor - n - (strlen p.text - p.cursor)
      = (p.textsize - 1 - strlen p.text - n) + 1 := by omega
  rw [this, List.take_succ_cons]

theorem cstr_length_append (a r : List Nat) (ha : 0 ∉ a) : strlen (a ++ 0 :: r) = a.length := by
  unfold strlen
  rw [cstr_append_nul a r ha]

theorem no_zero_append {a b : List Nat} (ha : 0 ∉ a) (hb : 0 ∉ b) : 0 ∉ a ++ b := by
  intro h
  rcases List.mem_append.mp h with h | h
  · exact ha h
  · exact hb h

/-- An `insert` of `n > 0` bytes that does not fit changes nothing. -/
theorem insert_reject (p : Prompt) (str : List Nat) (n : Nat) (hnul : strlen p.text < p.textsize)
    (hsmall : p.textsize < 2 ^ 63) (hn63 : n < 2 ^ 63)
    (hover : p.textsize - 1 < strlen p.text + n) : insert p str (n : Int) = p := by
  have hcond : (((strlen p.text : Int) + (n : Int)) % 2 ^ 64 > ((p.textsize : Int) - 1) % 2 ^ 64) := by
    rw [Int.emod_eq_of_lt (by omega) (by omega), Int.emod_eq_of_lt (by omega) (by omega)]
    omega
  unfold insert
  simp only [hcond, if_true]

/-- C8 (insert capacity limit): for every well-formed buffer state with the cursor
inside the text and every string of `n > 0` bytes without a NUL, `insert` changes
nothing (text, cursor and select included) when `strlen(text) + n` exceeds
`textsize - 1`, and otherwise yields the text `text[0:cursor] ++ str[0:n] ++
text[cursor:]`, of length `strlen(text) + n`, with cursor and select at `cursor + n`;
so the length of the text does not exceed `textsize - 1` after the insert. -/
theorem insert_capacity (p : Prompt) (str : List Nat) (n : Nat) (hok : BufOK p) (hn : 0 < n)
    (hn63 : n < 2 ^ 63) (hstr : n ≤ str.length) (hz : 0 ∉ str.take n) :
    (p.textsize - 1 < strlen p.text + n → insert p str (n : Int) = p) ∧
    (strlen p.text + n ≤ p.textsize - 1 →
      cstr (insert p str (n : Int)).text =
        (cstr p.text).take p.cursor ++ str.take n ++ (cstr p.text).drop p.cursor ∧
      strlen (insert p str (n : Int)).text = strlen p.text + n ∧
      (insert p str (n : Int)).cursor = p.cursor + n ∧
      (insert p str (n : Int)).select = p.cursor + n) ∧
    strlen (insert p str (n : Int)).text ≤ p.textsize - 1 := by
  have hfitcase : strlen p.text + n ≤ p.textsize - 1 →
      cstr (insert p str (n : Int)).text =
        (cstr p.text).take p.cursor ++ str.take n ++ (cstr p.text).drop p.cursor ∧
      strlen (insert p str (n : Int)).text = strlen p.text + n ∧
      (insert p str (n : Int)).cursor = p.cursor + n ∧
      (insert p str (n : Int)).select = p.cursor + n := by
    intro hfit
    rw [insert_pos_text p str n hok hn hfit]
    have hc : cstr ((cstr p.text).take p.cursor ++ str.take n ++
          ((cstr p.text).drop p.cursor ++ 0 :: (p.text.drop (strlen p.text + 1)).take
            (p.textsize - 1 - strlen p.text - n)))
        = (cstr p.text).take p.cursor ++ str.take n ++ (cstr p.text).drop p.cursor := by
      rw [← List.append_assoc]
      exact cstr_append_nul _ _
        (no_zero_append (no_zero_append (take_no_zero _ _) hz) (drop_no_zero _ _))
    have hlen2 : (cstr ((cstr p.text).take p.cursor ++ str.take n ++
          ((cstr p.text).drop p.cursor ++ 0 :: (p.text.drop (strlen p.text + 1)).take
            (p.textsize - 1 - strlen p.text - n)))).length = strlen p.text + n := by
      rw [hc]
      simp only [List.length_append, List.length_take, List.length_drop]
      have h1 := hok.cursor
      have h2 : (cstr p.text).length = strlen p.text := rfl
      omega
    exact ⟨hc, hlen2, rfl, rfl⟩
  refine ⟨fun hover => insert_reject p str n hok.nul hok.small hn63 hover, hfitcase, ?_⟩
  by_cases hfit : strlen p.text + n ≤ p.textsize - 1
  · rw [(hfitcase hfit).2.1]; exact hfit
  · rw [insert_reject p str n hok.nul hok.small hn63 (by omega)]
    have := hok.nul
    omega

theorem cstr_drop_le (buf : List Nat) (k : Nat) (hk : k ≤ strlen buf)
    (hn : strlen buf < buf.length) :
    buf.drop k = (cstr buf).drop k ++ 0 :: buf.drop (strlen buf + 1) := by
  have hcl : (cstr buf).length = strlen buf := rfl
  have hk2 : k ≤ (cstr buf).length := by rw [hcl]; exact hk
  conv => lhs; rw [cstr_split buf hn]
  rw [List.drop_append_of_le_length hk2]

/-- The text of the input field after `delselection`. -/
theorem delselection_text (p : Prompt) (hok : BufOK p) (hsel : p.select ≤ strlen p.text) :
    cstr (delselection p).text =
        (cstr p.text).take (min p.cursor p.select) ++ (cstr p.text).drop (max p.cursor p.select) ∧
      (delselection p).text.length = p.textsize ∧
      (delselection p).cursor = min p.cursor p.select ∧
      (delselection p).select = min p.cursor p.select ∧
      (delselection p).textsize = p.textsize := by
  obtain ⟨hsize, hnul, hsmall, hcur⟩ := hok
  have hcl : (cstr p.text).length = strlen p.text := rfl
  unfold delselection
  by_cases he : p.select = p.cursor
  · rw [if_pos he, he]
    simp [hsize]
  · simp only [he, if_false]
    have hmin : min p.cursor p.select ≤ strlen p.text := by omega
    have hmax : max p.cursor p.select ≤ strlen p.text := by omega
    have hmm : min p.cursor p.select ≤ max p.cursor p.select := by omega
    have hdrop := cstr_drop_le p.text (max p.cursor p.select) hmax (by omega)
    have hlen : strlen (p.text.drop (max p.cursor p.select))
        = strlen p.text - max p.cursor p.select := by
      rw [hdrop, cstr_length_append _ _ (drop_no_zero _ _), List.length_drop, hcl]
    have htake : List.take (strlen p.text - max p.cursor p.select + 1)
          (p.text.drop (max p.cursor p.select))
        = (cstr p.text).drop (max p.cursor p.select) ++ [0] := by
      rw [hdrop, List.take_append_eq_append_take,
        List.take_of_length_le (by rw [List.length_drop, hcl]; omega)]
      congr 1
      rw [List.length_drop, hcl]
      have : strlen p.text - max p.cursor p.select + 1 - (strlen p.text - max p.cursor p.select)
          = 0 + 1 := by omega
      rw [this, List.take_succ_cons, List.take_zero]
    refine ⟨?_, ?_, trivial, trivial, trivial⟩
    · show cstr (memmove _ _ _ _) = _
      unfold memmove
      rw [hlen, htake, cstr_take_le p.text _ hmin, List.append_assoc, List.append_assoc]
      have : [0] ++ List.drop (min p.cursor p.select + (strlen p.text - max p.cursor p.select + 1))
            p.text
          = 0 :: List.drop (min p.cursor p.select + (strlen p.text - max p.cursor p.select + 1))
            p.text := rfl
      rw [this, ← List.append_assoc]
      exact cstr_append_nul _ _ (no_zero_append (take_no_zero _ _) (drop_no_zero _ _))
    · show (memmove _ _ _ _).length = _
      unfold memmove
      rw [hlen, htake]
      simp only [List.length_append, List.length_take, List.length_drop, List.length_singleton,
        hcl, hsize]
      omega

/-- A char array that holds a NUL has its C string end inside the array. -/
theorem strlen_lt_of_mem (buf : List Nat) (h : 0 ∈ buf) : strlen buf < buf.length := by
  unfold strlen cstr
  induction buf with
  | nil => simp at h
  | cons c t ih =>
    by_cases hc : c = 0
    · subst hc; simp
    · have ht : 0 ∈ t := by
        rcases List.mem_cons.mp h with h | h
        · exact absurd h.symm hc
        · exact h
      have := ih ht
      simp [List.takeWhile_cons, hc]
      omega

theorem mem_drop_of_le_strlen (buf : List Nat) (k : Nat) (hk : k ≤ strlen buf)
    (hn : strlen buf < buf.length) : 0 ∈ buf.drop k := by
  rw [cstr_drop_le buf k hk hn]
  simp

/-- The C string stored at an offset inside the text is the rest of the text. -/
theorem cstr_drop_eq (buf : List Nat) (k : Nat) (hk : k ≤ strlen buf)
    (hn : strlen buf < buf.length) : cstr (buf.drop k) = (cstr buf).drop k := by
  rw [cstr_drop_le buf k hk hn]
  exact cstr_append_nul _ _ (drop_no_zero _ _)

theorem take_strlen_succ (D : List Nat) (hD : strlen D < D.length) :
    D.take (strlen D + 1) = cstr D ++ [0] := by
  have hcl : (cstr D).length = strlen D := rfl
  have hs : D.take (strlen D + 1)
      = (cstr D ++ 0 :: D.drop (strlen D + 1)).take (strlen D + 1) := by
    rw [← cstr_split D hD]
  rw [hs, List.take_append_eq_append_take, List.take_of_length_le (by rw [hcl]; omega), hcl]
  congr 1
  have : strlen D + 1 - strlen D = 0 + 1 := by omega
  rw [this, List.take_succ_cons, List.take_zero]

/-- The text of the input field after `delselection`, for a select offset anywhere in
the char array before a NUL: the bytes before the lower of cursor and select, followed
by the C string stored at the higher of the two. -/
theorem delselection_stale (p : Prompt) (hok : BufOK p) (hnul : 0 ∈ p.text.drop p.select) :
    cstr (delselection p).text =
        (cstr p.text).take (min p.cursor p.select) ++
          cstr (p.text.drop (max p.cursor p.select)) ∧
      (delselection p).text.length = p.textsize ∧
      strlen (delselection p).text < p.textsize ∧
      (delselection p).cursor = min p.cursor p.select ∧
      (delselection p).select = min p.cursor p.select ∧
      (delselection p).textsize = p.textsize := by
  obtain ⟨hsize, hnulp, hsmall, hcur⟩ := hok
  have hcl : (cstr p.text).length = strlen p.text := rfl
  have hnl : strlen p.text < p.text.length := by rw [hsize]; exact hnulp
  unfold delselection
  by_cases he : p.select = p.cursor
  · rw [if_pos he, he, Nat.min_self, Nat.max_self, cstr_drop_eq p.text p.cursor hcur hnl,
      List.take_append_drop]
    exact ⟨rfl, hsize, hnulp, rfl, rfl, rfl⟩
  · simp only [he, if_false]
    have hmin : min p.cursor p.select ≤ strlen p.text := by omega
    have hmm : min p.cursor p.select ≤ max p.cursor p.select := by omega
    have hmem : 0 ∈ p.text.drop (max p.cursor p.select) := by
      by_cases hcs : p.cursor ≤ p.select
      · rw [Nat.max_eq_right hcs]; exact hnul
      · rw [Nat.max_eq_left (by omega)]
        exact mem_drop_of_le_strlen p.text p.cursor hcur hnl
    have hD := strlen_lt_of_mem _ hmem
    have htake := take_strlen_succ _ hD
    have hDl : (p.text.drop (max p.cursor p.select)).length
        = p.textsize - max p.cursor p.select := by
      rw [List.length_drop, hsize]
    have hcl2 : (cstr (p.text.drop (max p.cursor p.select))).length
        = strlen (p.text.drop (max p.cursor p.select)) := rfl
    have htext : cstr (memmove p.text (min p.cursor p.select) (max p.cursor p.select)
          (strlen (p.text.drop (max p.cursor p.select)) + 1))
        = (cstr p.text).take (min p.cursor p.select) ++
          cstr (p.text.drop (max p.cursor p.select)) := by
      unfold memmove
      rw [htake, cstr_take_le p.text _ hmin, List.append_assoc, List.append_assoc]
      have : [0] ++ List.drop (min p.cursor p.select +
              (strlen (p.text.drop (max p.cursor p.select)) + 1)) p.text
          = 0 :: List.drop (min p.cursor p.select +
              (strlen (p.text.drop (max p.cursor p.select)) + 1)) p.text := rfl
      rw [this, ← List.append_assoc]
      exact cstr_append_nul _ _ (no_zero_append (take_no_zero _ _) (cstr_no_zero _))
    rw [hDl] at hD
    refine ⟨htext, ?_, ?_, trivial, trivial, trivial⟩
    · show (memmove _ _ _ _).length = _
      unfold memmove
      rw [htake]
      simp only [List.length_append, List.length_take, List.length_drop, List.length_singleton,
        hcl2, hsize]
      omega
    · show (cstr (memmove _ _ _ _)).length < _
      rw [htext]
      simp only [List.length_append, List.length_take, hcl, hcl2]
      omega

/-! ## Theorems: key presses -/

theorem fillarray_some {items : List Item} {L : List Nat} (h : Linked items L)
    (hc : Closed items L) :
    ∀ (n i0 q : Nat) (arr : List (Option Nat)),
      ∃ r, fillarray items n i0 L[q]? arr = some r := by
  intro n
  induction n with
  | zero => intro i0 q arr; exact ⟨_, rfl⟩
  | succ n ih =>
    intro i0 q arr
    cases ha : L[q]? with
    | none => exact ⟨_, rfl⟩
    | some a =>
      obtain ⟨it, hit⟩ := linked_get h ha
      have hn := nextof_chain h hc ha
      simp only [nextof, hit, Option.some_bind] at hn
      obtain ⟨r, hr⟩ := ih (i0 + 1) (q + 1) (arr.set i0 (some a))
      exact ⟨r, by simp only [fillarray, hit, hn, hr]⟩

/-- After a rebuild of the match chain the refill of the visible array returns, and
the two calls change nothing but the match links and the view window. -/
theorem navmatchlist_rebuild (env : Env) (p : Prompt) :
    ∃ q, navmatchlist (getmatchlist env p) 0 = some q ∧
      q = { p with
            items := q.items, firstmatch := q.firstmatch, matchlist := q.matchlist
            selitem := none, itemarray := q.itemarray, nitems := q.nitems } := by
  obtain ⟨hl, hc, _, hm, hs, _⟩ := getmatchlist_linked env p
  have hnav : navmatchlist (getmatchlist env p) 0 = navdone (getmatchlist env p) := by
    unfold navmatchlist
    simp only [ne_eq, not_true_eq_false, false_and, if_false, hs]
  rw [hnav]
  unfold navdone
  rw [hm, List.head?_eq_getElem?]
  obtain ⟨r, hr⟩ := fillarray_some hl hc (getmatchlist env p).maxitems 0 0
    (getmatchlist env p).itemarray
  rw [hr]
  exact ⟨_, rfl, rfl⟩

theorem keypressEnd_editing (env : Env) (p : Prompt) :
    keypressEnd env p Ctrl.INSERT =
      (navmatchlist (getmatchlist env p) 0).map (fun p2 => (Press_ret.DrawPrompt, p2)) := by
  unfold keypressEnd
  have h1 : ISMOTION Ctrl.INSERT = false := by decide
  have h2 : ISSELECTION Ctrl.INSERT = false := by decide
  have h3 : ISEDITING Ctrl.INSERT = true := by decide
  simp [h1, h2, h3]

theorem delselection_congr {p q : Prompt} (ht : q.text = p.text) (hc : q.cursor = p.cursor)
    (hs : q.select = p.select) :
    (delselection q).text = (delselection p).text ∧
      (delselection q).cursor = (delselection p).cursor ∧
      (delselection q).select = (delselection p).select := by
  unfold delselection
  rw [ht, hc, hs]
  split <;> simp [ht, hc, hs]

theorem bufok_congr {p q : Prompt} (ht : q.text = p.text) (hz : q.textsize = p.textsize)
    (hc : q.cursor = p.cursor) (h : BufOK p) : BufOK q := by
  obtain ⟨h1, h2, h3, h4⟩ := h
  exact ⟨by rw [ht, hz]; exact h1, by rw [ht, hz]; exact h2, by rw [hz]; exact h3,
    by rw [ht, hc]; exact h4⟩

/-- What `addundo` changes is the undo list and its current entry. -/
theorem addundo_eq (p : Prompt) (editing : Bool) :
    addundo p editing =
      { p with undo := (addundo p editing).undo, undocurr := (addundo p editing).undocurr } := by
  unfold addundo
  rcases hc : p.undocurr with _ | (_ | i) <;> simp only [] <;> split <;> rfl

/-- The code from the label `insert` on, when the bytes do not fit once `delselection`
has run: the text is the one `delselection` leaves. -/
theorem keypressInsert_rejected (env : Env) (p : Prompt) (ev : XKeyEvent) (hok : BufOK p)
    (hnul : 0 ∈ p.text.drop p.select)
    (hbuf : iscntrl (deref ev.buf) = false ∧ deref ev.buf ≠ 0) (hlen : ev.len < 2 ^ 63)
    (hover : p.textsize - 1 < strlen (delselection p).text + ev.len) :
    ∃ r q, keypressInsert env p ev = some (r, q) ∧
      cstr q.text = (cstr p.text).take (min p.cursor p.select) ++
        cstr (p.text.drop (max p.cursor p.select)) := by
  unfold keypressInsert
  have hb : (iscntrl (deref ev.buf) || deref ev.buf == 0) = false := by
    simp [hbuf.1, hbuf.2]
  simp only [hb, Bool.false_eq_true, if_false]
  generalize hp1 : (if (deref ev.buf == 47 && env.fflag) = true then getfilelist env p else p) = p1
  have ht : p1.text = p.text := by rw [← hp1]; split <;> rfl
  have hz : p1.textsize = p.textsize := by rw [← hp1]; split <;> rfl
  have hc : p1.cursor = p.cursor := by rw [← hp1]; split <;> rfl
  have hs : p1.select = p.select := by rw [← hp1]; split <;> rfl
  have hok1 : BufOK p1 := bufok_congr ht hz hc hok
  have hd := delselection_stale p1 hok1 (by rw [hs, ht]; exact hnul)
  have hdc := delselection_congr ht hc hs
  have hdlen : strlen (delselection p1).text < (delselection p1).textsize := by
    rw [hd.2.2.2.2.2]
    exact hd.2.2.1
  have hrej : insert (delselection p1) ev.buf (ev.len : Int) = delselection p1 := by
    apply insert_reject _ _ _ hdlen
    · rw [hd.2.2.2.2.2, hz]; exact hok.small
    · exact hlen
    · rw [hd.2.2.2.2.2, hz, hdc.1]; exact hover
  rw [hrej, keypressEnd_editing]
  obtain ⟨q, hq, hqe⟩ := navmatchlist_rebuild env (delselection p1)
  refine ⟨Press_ret.DrawPrompt, q, by rw [hq]; rfl, ?_⟩
  have hqt : q.text = (delselection p1).text := by rw [hqe]
  rw [hqt, hd.1, ht, hc, hs]

/-- C9, amended (oversized insert-text command): for every well-formed buffer state
whose char array holds a NUL at or after `select` (so that `strlen(text + maxpos)` in
`delselection` stays inside the array), with or without a selection, and every typed
text of bytes that are no control characters, if the text does not fit within
`textsize - 1` bytes once `delselection` has run, then `keypress` returns and the buffer
text is `text[0:min(cursor, select)]` followed by the C string stored at
`text + max(cursor, select)`.  With `select` within the text this is the text before the
key press without the selected range; with `select` beyond the end of the text it is the
text up to the cursor followed by the bytes stored in the array from `select` on; it is
the text before the key press when nothing was selected. -/
theorem oversized_insert_after_delselection (env : Env) (p : Prompt) (ev : XKeyEvent)
    (hok : BufOK p) (hnul : 0 ∈ p.text.drop p.select)
    (hev : ev.status = Status.XLookupChars ∨
      ((ev.status = Status.XLookupKeySym ∨ ev.status = Status.XLookupBoth) ∧
        ev.operation = Ctrl.INSERT))
    (hbuf : iscntrl (deref ev.buf) = false ∧ deref ev.buf ≠ 0) (hlen : ev.len < 2 ^ 63)
    (hover : p.textsize - 1 < strlen (delselection p).text + ev.len) :
    ∃ r q, keypress env p ev = some (r, q) ∧
      cstr q.text = (cstr p.text).take (min p.cursor p.select) ++
        cstr (p.text.drop (max p.cursor p.select)) ∧
      (p.select ≤ strlen p.text →
        cstr q.text = (cstr p.text).take (min p.cursor p.select) ++
          (cstr p.text).drop (max p.cursor p.select)) ∧
      (strlen p.text < p.select →
        cstr q.text = (cstr p.text).take p.cursor ++ cstr (p.text.drop p.select)) ∧
      (p.cursor = p.select → cstr q.text = cstr p.text) := by
  have hmain : ∃ r q, keypress env p ev = some (r, q) ∧
      cstr q.text = (cstr p.text).take (min p.cursor p.select) ++
        cstr (p.text.drop (max p.cursor p.select)) := by
    rcases hev with hev | ⟨hst, hop⟩
    · unfold keypress
      rw [hev]
      exact keypressInsert_rejected env p ev hok hnul hbuf hlen hover
    · have hnc : ¬ (iscntrl (deref ev.buf) = true ∨ deref ev.buf = 0) := by
        rintro (h | h)
        · rw [hbuf.1] at h; exact absurd h (by decide)
        · exact hbuf.2 h
      have hu : ISUNDO Ctrl.INSERT = false := by decide
      generalize hp2 : ({ (if (ISEDITING Ctrl.INSERT && Ctrl.INSERT != p.prevoperation) = true
          then addundo p true else p) with prevoperation := Ctrl.INSERT } : Prompt) = p2
      have hkp : keypress env p ev = keypressInsert env p2 ev := by
        unfold keypress
        rcases hst with hst | hst <;>
        · rw [hst]
          simp only [hop, true_and, hnc, if_false, hu, Bool.false_and, Bool.false_eq_true]
          rw [hp2]
          rfl
      have hfld : p2.text = p.text ∧ p2.textsize = p.textsize ∧ p2.cursor = p.cursor ∧
          p2.select = p.select := by
        rw [← hp2]
        by_cases hcond : (ISEDITING Ctrl.INSERT && Ctrl.INSERT != p.prevoperation) = true
        · rw [if_pos hcond, addundo_eq]
          exact ⟨rfl, rfl, rfl, rfl⟩
        · rw [if_neg hcond]
          exact ⟨rfl, rfl, rfl, rfl⟩
      obtain ⟨ht, hz, hc, hs⟩ := hfld
      have hdc := delselection_congr ht hc hs
      obtain ⟨r, q, hk, hq⟩ := keypressInsert_rejected env p2 ev (bufok_congr ht hz hc hok)
        (by rw [hs, ht]; exact hnul) hbuf hlen (by rw [hz, hdc.1]; exact hover)
      exact ⟨r, q, by rw [hkp]; exact hk, by rw [hq, ht, hc, hs]⟩
  obtain ⟨r, q, hk, hq⟩ := hmain
  have hcur := hok.cursor
  have hnl : strlen p.text < p.text.length := by rw [hok.size]; exact hok.nul
  refine ⟨r, q, hk, hq, ?_, ?_, ?_⟩
  · intro hsel
    rw [hq, cstr_drop_eq p.text _ (by omega) hnl]
  · intro hsel
    rw [hq, Nat.min_eq_left (by omega), Nat.max_eq_right (by omega)]
  · intro hcs
    rw [hq, ← hcs, Nat.min_self, Nat.max_self, cstr_drop_eq p.text _ hcur hnl,
      List.take_append_drop]

/-! ## Theorems: output and scenarios -/

/-- C6 (output protocol): for every state, `print` appends to standard output the group
name, a TAB, the output of the item if present, else its text, and a newline when an
item is selected and has a group; the output if present, else the text, and a newline
when an item is selected and has no group; and the buffer text and a newline when no
item is selected. Nothing else of the state changes. -/
theorem print_protocol (p : Prompt) :
    (∀ sel it g, p.selitem = some sel → p.items.get? sel = some it → it.group = some g →
      print p = some { p with
        stdout := p.stdout ++ (g.name ++ [9] ++ (it.output.getD it.text ++ [10])) }) ∧
    (∀ sel it, p.selitem = some sel → p.items.get? sel = some it → it.group = none →
      print p = some { p with stdout := p.stdout ++ (it.output.getD it.text ++ [10]) }) ∧
    (p.selitem = none →
      print p = some { p with stdout := p.stdout ++ (cstr p.text ++ [10]) }) := by
  refine ⟨?_, ?_, ?_⟩
  · intro sel it g hs hi hg
    unfold print
    rw [hs]
    simp only [hi, hg]
    cases it.output <;> simp
  · intro sel it hs hi hg
    unfold print
    rw [hs]
    simp only [hi, hg]
    cases it.output <;> simp
  · intro hs
    unfold print
    rw [hs]
    simp

set_option maxRecDepth 100000 in
/-- Witness of C6: a selected item with a group and an output, a selected item with
neither, and no selection. -/
theorem print_protocol_witness :
    print (promptAfter envGroup stdinGroup [keyCtrl Ctrl.CTRLNEXT]) =
      some { promptAfter envGroup stdinGroup [keyCtrl Ctrl.CTRLNEXT] with
        stdout := [] ++ ([102, 114, 117, 105, 116] ++ [9] ++ ([65, 80, 80, 76, 69] ++ [10])) } ∧
    print (promptAfter envPlain stdinApple [keyCtrl Ctrl.CTRLNEXT, keyCtrl Ctrl.CTRLNEXT]) =
      some { promptAfter envPlain stdinApple [keyCtrl Ctrl.CTRLNEXT, keyCtrl Ctrl.CTRLNEXT] with
        stdout := [] ++ ([98, 97, 110, 97, 110, 97] ++ [10]) } ∧
    print (promptAfter envPlain stdinApple [keyInsert [97]]) =
      some { promptAfter envPlain stdinApple [keyInsert [97]] with
        stdout := [] ++ ([97] ++ [10]) } :=
  ⟨(print_protocol (promptAfter envGroup stdinGroup [keyCtrl Ctrl.CTRLNEXT])).1 0
      (allocitem [97, 112, 112, 108, 101] (some [65, 32, 102, 114, 117, 105, 116])
        (some [65, 80, 80, 76, 69]) (some (allocgroup none [102, 114, 117, 105, 116])))
      (allocgroup none [102, 114, 117, 105, 116]) (by decide) rfl rfl,
   (print_protocol
      (promptAfter envPlain stdinApple [keyCtrl Ctrl.CTRLNEXT, keyCtrl Ctrl.CTRLNEXT])).2.1 1
      { allocitem [98, 97, 110, 97, 110, 97] none none none with prevmatch := some 0 }
      (by decide) rfl rfl,
   (print_protocol (promptAfter envPlain stdinApple [keyInsert [97]])).2.2 (by decide)⟩

set_option maxRecDepth 100000 in
/-- C1, the code at the input of the claim: over the catalog `foo bar`, `xfoo`,
`bar foo` and the typed text `foo`, the match chain is `foo bar`, `xfoo`, `bar foo`,
because `itemmatch` with `middle = 0` does not match `bar foo`, whose second word has
`foo` as a byte-prefix. -/
theorem itemmatch_misses_later_word :
    (session envPlain stdinFoo [keyInsert [102, 111, 111]]).map chaintexts =
      some [[102, 111, 111, 32, 98, 97, 114], [120, 102, 111, 111],
        [98, 97, 114, 32, 102, 111, 111]] ∧
    itemmatch envPlain (allocitem [98, 97, 114, 32, 102, 111, 111] none none none)
      [102, 111, 111] 3 false = false ∧
    itemmatch envPlain (allocitem [98, 97, 114, 32, 102, 111, 111] none none none)
      [32, 102, 111, 111] 4 false = true := by
  decide

set_option maxRecDepth 100000 in
/-- Witness of C3: the item `xfoo` of the catalog `foo bar`, `xfoo`, `bar foo` and the
typed text `foo`. -/
theorem matchchain_membership_witness :
    (∀ it ∈ promptFoo.items, 0 ∉ it.text) ∧
    ((1 ∈ chainFrom (getmatchlist envPlain promptFoo).items (promptFoo.items.length + 0)
          (getmatchlist envPlain promptFoo).firstmatch ↔
      ∃ it, promptFoo.items[1]? = some it ∧ ∃ off, off < it.text.length ∧
        ((it.text.drop off).take (strlen promptFoo.text)).map (casefold envPlain)
          = (cstr promptFoo.text).map (casefold envPlain)) ∧
    (∀ it ∈ promptFoo.items,
      itemmatch envPlain it (cstr promptFoo.text) (strlen promptFoo.text) false = true →
      itemmatch envPlain it (cstr promptFoo.text) (strlen promptFoo.text) true = true)) :=
  ⟨by decide, matchchain_membership envPlain promptFoo (by decide) 1 0⟩

set_option maxRecDepth 100000 in
/-- C4, counterexample: with three visible items and a match chain of ten items, from
the fresh rebuild at start-up (no selection, `matchlist` at match 0), three calls of
`navmatchlist` with direction next leave `matchlist` at match 0, not at match 3. -/
theorem next_thrice_keeps_window :
    (session envThree stdinTen []).map
      (fun p => (p.maxitems, p.selitem, p.matchlist,
        chainFrom p.items p.items.length p.firstmatch))
      = some (3, none, some 0, [0, 1, 2, 3, 4, 5, 6, 7, 8, 9]) ∧
    ((session envThree stdinTen []).bind (fun p => navseq p [1, 1, 1])).map
      (fun q => q.matchlist) = some (some 0) ∧
    ((session envThree stdinTen []).bind (fun p => navseq p [1, 1, 1])).map
      (fun q => q.matchlist) ≠ some (some 3) := by
  decide

set_option maxRecDepth 100000 in
/-- Witness of C4 as amended: ten one-letter items, three visible items. -/
theorem next_four_times_pages_witness :
    promptTen.maxitems = 3 ∧ promptTen.itemarray.length = 3 ∧
    (matchchain envThree promptTen).length = 10 ∧
    ((∃ q, navseq (getmatchlist envThree promptTen) [1, 1, 1] = some q ∧
      q.matchlist = (matchchain envThree promptTen)[0]? ∧
      q.selitem = (matchchain envThree promptTen)[2]?) ∧
    (∃ q, navseq (getmatchlist envThree promptTen) [1, 1, 1, 1] = some q ∧
      q.matchlist = (matchchain envThree promptTen)[3]? ∧
      q.selitem = (matchchain envThree promptTen)[3]?)) :=
  ⟨by decide, by decide, by decide,
    next_four_times_pages envThree promptTen (by decide) (by decide) (by decide)⟩

set_option maxRecDepth 100000 in
/-- Witness of C5: ten one-letter items, three visible items, four calls with
direction next and one with direction previous. -/
theorem selitem_in_window_witness :
    1 ≤ promptTen.maxitems ∧ promptTen.itemarray.length = promptTen.maxitems ∧
    ∃ q, navseq (getmatchlist envThree promptTen) [1, 1, 1, 1, -1] = some q ∧
      ∀ a, q.selitem = some a →
        a ∈ chainFrom q.items q.maxitems q.matchlist ∧
        some a ∈ q.itemarray.take q.nitems :=
  ⟨by decide, by decide,
    selitem_in_window envThree promptTen (by decide) (by decide) [1, 1, 1, 1, -1]⟩

set_option maxRecDepth 100000 in
/-- C7 (end-to-end scenario): after loading the two lines `apple<TAB>A fruit<TAB>APPLE`
and `banana`, grouping off, and typing `a`, the match chain is `apple`, `banana`;
confirming then prints `a` and a newline; pressing next once and confirming prints
`APPLE` and a newline. -/
theorem apple_banana_scenario :
    (session envPlain stdinApple [keyInsert [97]]).map chaintexts =
      some [[97, 112, 112, 108, 101], [98, 97, 110, 97, 110, 97]] ∧
    ((session envPlain stdinApple [keyInsert [97]]).bind
        (fun p => keypress envPlain p (keyCtrl Ctrl.CTRLENTER))).map
      (fun r => (r.1, r.2.stdout)) = some (Press_ret.Enter, [97, 10]) ∧
    ((session envPlain stdinApple [keyInsert [97], keyCtrl Ctrl.CTRLNEXT]).bind
        (fun p => keypress envPlain p (keyCtrl Ctrl.CTRLENTER))).map
      (fun r => (r.1, r.2.stdout)) = some (Press_ret.Enter, [65, 80, 80, 76, 69, 10]) := by
  decide

set_option maxRecDepth 100000 in
/-- Witness of C8: one byte `!` inserted after the typed text `foo`. -/
theorem insert_capacity_witness :
    BufOK promptFoo ∧ 0 < 1 ∧ 1 < 2 ^ 63 ∧ 1 ≤ [33].length ∧ 0 ∉ [33].take 1 ∧
    ((promptFoo.textsize - 1 < strlen promptFoo.text + 1 →
      insert promptFoo [33] ((1 : Nat) : Int) = promptFoo) ∧
    (strlen promptFoo.text + 1 ≤ promptFoo.textsize - 1 →
      cstr (insert promptFoo [33] ((1 : Nat) : Int)).text =
        (cstr promptFoo.text).take promptFoo.cursor ++ [33].take 1 ++
          (cstr promptFoo.text).drop promptFoo.cursor ∧
      strlen (insert promptFoo [33] ((1 : Nat) : Int)).text = strlen promptFoo.text + 1 ∧
      (insert promptFoo [33] ((1 : Nat) : Int)).cursor = promptFoo.cursor + 1 ∧
      (insert promptFoo [33] ((1 : Nat) : Int)).select = promptFoo.cursor + 1) ∧
    strlen (insert promptFoo [33] ((1 : Nat) : Int)).text ≤ promptFoo.textsize - 1) :=
  ⟨⟨by decide, by decide, by decide, by decide⟩, by decide, by decide, by decide, by decide,
    insert_capacity promptFoo [33] 1 ⟨by decide, by decide, by decide, by decide⟩
      (by decide) (by decide) (by decide) (by decide)⟩

set_option maxRecDepth 1000000 in
/-- C9, counterexample: in a full input field of 1023 bytes with the last byte selected,
typing a character of two bytes cannot fit, also once the selection is deleted, and
yet the text changes: the selected byte is gone. -/
theorem oversized_insert_changes_text :
    promptFull.textsize - 1 < strlen promptFull.text + 2 ∧
    promptFull.textsize - 1 < strlen (delselection promptFull).text + 2 ∧
    (promptFull.cursor, promptFull.select, strlen promptFull.text) = (1022, 1023, 1023) ∧
    (keypress envPlain promptFull (keyInsert [195, 169])).map
      (fun r => cstr r.2.text) = some (List.replicate 1022 97) ∧
    (keypress envPlain promptFull (keyInsert [195, 169])).map
      (fun r => cstr r.2.text) ≠ some (cstr promptFull.text) := by
  decide

set_option maxRecDepth 1000000 in
/-- C9, the state after delete-to-EOL with `select` beyond the end of the text: the
text is 1021 bytes, cursor 1021 and select 1022, the array holds the stale byte `a` at
1022; typing a character of two bytes cannot fit, the insert is rejected, and the text
is one byte longer than before, 1022 bytes. -/
theorem oversized_insert_copies_stale_byte :
    (promptKilled.cursor, promptKilled.select, strlen promptKilled.text) = (1021, 1022, 1021) ∧
    promptKilled.text.drop 1021 = [0, 97, 0] ∧
    cstr promptKilled.text = List.replicate 1021 97 ∧
    (keypress envPlain promptKilled (keyInsert [195, 169])).map
      (fun r => cstr r.2.text) = some (List.replicate 1022 97) :=
  ⟨by decide, by decide, by decide, by decide⟩

set_option maxRecDepth 1000000 in
/-- Witness of C9 as amended: the state after delete-to-EOL with `select` beyond the end
of the text. -/
theorem oversized_insert_after_delselection_witness :
    BufOK promptKilled ∧ 0 ∈ promptKilled.text.drop promptKilled.select ∧
    (iscntrl (deref (keyInsert [195, 169]).buf) = false ∧
      deref (keyInsert [195, 169]).buf ≠ 0) ∧
    (keyInsert [195, 169]).len < 2 ^ 63 ∧
    promptKilled.textsize - 1 <
      strlen (delselection promptKilled).text + (keyInsert [195, 169]).len ∧
    ∃ r q, keypress envPlain promptKilled (keyInsert [195, 169]) = some (r, q) ∧
      cstr q.text = (cstr promptKilled.text).take (min promptKilled.cursor promptKilled.select) ++
        cstr (promptKilled.text.drop (max promptKilled.cursor promptKilled.select)) ∧
      (promptKilled.select ≤ strlen promptKilled.text →
        cstr q.text =
          (cstr promptKilled.text).take (min promptKilled.cursor promptKilled.select) ++
            (cstr promptKilled.text).drop (max promptKilled.cursor promptKilled.select)) ∧
      (strlen promptKilled.text < promptKilled.select →
        cstr q.text = (cstr promptKilled.text).take promptKilled.cursor ++
          cstr (promptKilled.text.drop promptKilled.select)) ∧
      (promptKilled.cursor = promptKilled.select → cstr q.text = cstr promptKilled.text) :=
  ⟨⟨by decide, by decide, by decide, by decide⟩, by decide, by decide, by decide, by decide,
    oversized_insert_after_delselection envPlain promptKilled (keyInsert [195, 169])
      ⟨by decide, by decide, by decide, by decide⟩ (by decide)
      (Or.inr ⟨Or.inr rfl, rfl⟩) (by decide) (by decide) (by decide)⟩

set_option maxRecDepth 100000 in
/-- C10, the code at a failing input: with the text `ab` typed, cursor and select at
its end, select-to-beginning-of-line followed by delete-to-end-of-line leaves the empty
text with `select = 2`, beyond the length of the text. -/
theorem deleol_leaves_select_past_end :
    (session envPlain [] [keyInsert [97, 98]]).map
      (fun p => (cstr p.text, p.cursor, p.select)) = some ([97, 98], 2, 2) ∧
    (session envPlain [] [keyInsert [97, 98], keyCtrl Ctrl.CTRLSELBOL]).map
      (fun p => (cstr p.text, p.cursor, p.select)) = some ([97, 98], 0, 2) ∧
    (session envPlain [] [keyInsert [97, 98], keyCtrl Ctrl.CTRLSELBOL,
        keyCtrl Ctrl.CTRLDELEOL]).map
      (fun p => (cstr p.text, strlen p.text, p.cursor, p.select)) = some ([], 0, 0, 2) := by
  decide

/-! ## Theorems: command history -/

theorem strncmp_self_zero : ∀ (n : Nat) (a : List Nat), strncmp a a n = 0 := by
  intro n
  induction n with
  | zero => intro a; simp [strncmp]
  | succ n ih =>
    intro a
    simp only [strncmp, ne_eq, not_true_eq_false, if_false]
    split
    · rfl
    · exact ih _

theorem strncmp_long_eq : ∀ (a b : List Nat) (n : Nat), 0 ∉ a → 0 ∉ b →
    a.length < n → b.length < n → strncmp a b n = 0 → a = b := by
  intro a
  induction a with
  | nil =>
    intro b n _ hb _ hbn h
    cases b with
    | nil => rfl
    | cons d t =>
      have hd : d ≠ 0 := fun e => hb (by simp [e])
      cases n with
      | zero => simp at hbn
      | succ n =>
        simp only [strncmp, deref, List.headD_nil, List.headD_cons] at h
        have h0 : ¬ (0 = d) := fun e => hd e.symm
        simp only [ne_eq, h0, not_false_eq_true, if_true] at h
        omega
  | cons c s ih =>
    intro b n ha hb han hbn h
    have hc : c ≠ 0 := fun e => ha (by simp [e])
    have hs : 0 ∉ s := fun h => ha (by simp [h])
    cases n with
    | zero => simp at han
    | succ n =>
      cases b with
      | nil =>
        simp only [strncmp, deref, List.headD_nil, List.headD_cons] at h
        simp only [ne_eq, hc, not_false_eq_true, if_true] at h
        omega
      | cons d t =>
        have ht : 0 ∉ t := fun h => hb (by simp [h])
        simp only [strncmp, deref, List.headD_cons, List.tail_cons] at h
        by_cases hcd : c = d
        · subst hcd
          simp only [ne_eq, not_true_eq_false, if_false, hc] at h
          rw [ih t n hs ht (by simpa using han) (by simpa using hbn) h]
        · simp only [ne_eq, hcd, not_false_eq_true, if_true] at h
          omega

/-- For C strings `strcmp` is zero exactly on equal strings. -/
theorem strcmp_eq_zero_iff (a b : List Nat) (ha : 0 ∉ a) (hb : 0 ∉ b) :
    strcmp a b = 0 ↔ a = b := by
  unfold strcmp
  constructor
  · intro h
    exact strncmp_long_eq a b _ ha hb (by omega) (by omega) h
  · intro h
    subst h
    exact strncmp_self_zero _ _

theorem navhist_def (p : Prompt) (d : Int) :
    navhist p d =
      (if histstep p d = p.histsize then none else p.history.get? (histstep p d),
        { p with histindex := histstep p d }) := by
  unfold navhist histstep
  by_cases hd : d < 0
  · by_cases h0 : p.histindex > 0
    · simp only [hd, h0, if_true]
      split <;> rfl
    · simp only [hd, h0, if_true, if_false]
      split <;> rfl
  · by_cases h0 : p.histindex + 1 < p.histsize
    · simp only [hd, h0, if_true, if_false]
      split <;> rfl
    · simp only [hd, h0, if_false]
      split <;> rfl

/-- C16 (amended): for a history log of histsize entries and an index i in [0, histsize],
navhist with direction previous sets the index to i - 1 with floor 0, navhist with
direction next sets it to i + 1 only if i + 1 < histsize and leaves it alone otherwise, and
every call returns the entry at the resulting index, none exactly when the resulting index
equals histsize, changing nothing but the index. -/
theorem navhist_index (p : Prompt) (hlen : p.history.length = p.histsize)
    (hi : p.histindex ≤ p.histsize) :
    (navhist p (-1)).2.histindex = p.histindex - 1 ∧
    (navhist p 1).2.histindex =
      (if p.histindex + 1 < p.histsize then p.histindex + 1 else p.histindex) ∧
    (∀ d : Int, (navhist p d).1 = p.history.get? (navhist p d).2.histindex ∧
      ((navhist p d).1 = none ↔ (navhist p d).2.histindex = p.histsize) ∧
      (navhist p d).2 = { p with histindex := (navhist p d).2.histindex }) := by
  refine ⟨?_, ?_, ?_⟩
  · rw [navhist_def]
    show histstep p (-1) = _
    unfold histstep
    have hneg : ((-1 : Int) < 0) := by decide
    simp only [hneg, if_true]
    split <;> omega
  · rw [navhist_def]
    show histstep p 1 = _
    unfold histstep
    have hpos : ¬ ((1 : Int) < 0) := by decide
    simp only [hpos, if_false]
  · intro d
    rw [navhist_def]
    have hle : histstep p d ≤ p.histsize := by
      unfold histstep
      split <;> split <;> omega
    refine ⟨?_, ?_, rfl⟩
    · show (if _ then _ else _) = p.history.get? (histstep p d)
      split
      · rename_i h
        rw [h, ← hlen]
        simp
      · rfl
    · show (if _ then _ else _) = none ↔ histstep p d = p.histsize
      constructor
      · intro h
        by_contra hne
        rw [if_neg hne] at h
        have hlt : histstep p d < p.history.length := by omega
        simp [List.getElem?_eq_getElem hlt] at h
      · intro h
        rw [if_pos h]

set_option maxRecDepth 100000 in
/-- C16 (counterexample): in a log of one entry, after one step to the previous entry
(index 0) a step to the next entry leaves the index at 0 and returns the entry again,
while min (i + 1) histsize is 1, the index of a fresh buffer. -/
theorem navhist_next_stops_at_newest :
    (promptHist.history.length, promptHist.histsize, promptHist.histindex) = (1, 1, 1) ∧
    (navhist promptHist (-1)).2.histindex = 0 ∧
    (navhist (navhist promptHist (-1)).2 1).2.histindex = 0 ∧
    (navhist (navhist promptHist (-1)).2 1).1 = some [120] ∧
    min ((navhist promptHist (-1)).2.histindex + 1) promptHist.histsize = 1 := by
  decide

set_option maxRecDepth 100000 in
/-- C16 (witness): the amended statement at a prompt with a log of one entry. -/
theorem navhist_index_witness :
    promptHist.history.length = promptHist.histsize ∧
    promptHist.histindex ≤ promptHist.histsize ∧
    ((navhist promptHist (-1)).2.histindex = promptHist.histindex - 1 ∧
    (navhist promptHist 1).2.histindex =
      (if promptHist.histindex + 1 < promptHist.histsize then promptHist.histindex + 1
        else promptHist.histindex) ∧
    (∀ d : Int, (navhist promptHist d).1
        = promptHist.history.get? (navhist promptHist d).2.histindex ∧
      ((navhist promptHist d).1 = none ↔
        (navhist promptHist d).2.histindex = promptHist.histsize) ∧
      (navhist promptHist d).2
        = { promptHist with histindex := (navhist promptHist d).2.histindex })) :=
  ⟨by decide, by decide, navhist_index promptHist (by decide) (by decide)⟩

/-- C17: when the history log is empty, navhist with direction previous returns none, and
the key press of the history-up operation returns without redrawing and leaves the buffer
text, cursor and select as they were. -/
theorem history_empty_up (env : Env) (p : Prompt) (ev : XKeyEvent) (hs : p.histsize = 0)
    (hi : p.histindex ≤ p.histsize)
    (hst : ev.status = Status.XLookupKeySym ∨ ev.status = Status.XLookupBoth)
    (hop : ev.operation = Ctrl.CTRLUP) :
    (navhist p (-1)).1 = none ∧
    keypress env p ev = some (Press_ret.Nop, { p with prevoperation := Ctrl.CTRLUP }) ∧
    ∀ r q, keypress env p ev = some (r, q) →
      q.text = p.text ∧ q.cursor = p.cursor ∧ q.select = p.select := by
  have hk : keypress env p ev = some (Press_ret.Nop, { p with prevoperation := Ctrl.CTRLUP }) := by
    unfold keypress
    have hu : ISUNDO Ctrl.CTRLUP = false := by decide
    have he : ISEDITING Ctrl.CTRLUP = false := by decide
    rcases hst with hst | hst <;>
    · rw [hst]
      simp only [hop, reduceCtorEq, false_and, if_false, hu, he, Bool.false_and,
        Bool.false_eq_true]
      unfold keypressSwitch
      simp only [hs, if_true]
  refine ⟨?_, hk, ?_⟩
  · rw [navhist_def]
    have : histstep p (-1) = p.histsize := by
      unfold histstep
      split <;> split <;> omega
    show (if _ then _ else _) = none
    rw [if_pos this]
  · intro r q h
    rw [hk] at h
    simp only [Option.some.injEq, Prod.mk.injEq] at h
    rw [← h.2]
    exact ⟨rfl, rfl, rfl⟩

/-- C17 (witness): the statement at the prompt loaded without history, for the key bound
to the history-up operation. -/
theorem history_empty_up_witness :
    (loaded envPlain stdinFoo).histsize = 0 ∧
    (loaded envPlain stdinFoo).histindex ≤ (loaded envPlain stdinFoo).histsize ∧
    ((navhist (loaded envPlain stdinFoo) (-1)).1 = none ∧
    keypress envPlain (loaded envPlain stdinFoo) (keyCtrl Ctrl.CTRLUP)
      = some (Press_ret.Nop,
          { loaded envPlain stdinFoo with prevoperation := Ctrl.CTRLUP }) ∧
    ∀ r q, keypress envPlain (loaded envPlain stdinFoo) (keyCtrl Ctrl.CTRLUP) = some (r, q) →
      q.text = (loaded envPlain stdinFoo).text ∧ q.cursor = (loaded envPlain stdinFoo).cursor ∧
        q.select = (loaded envPlain stdinFoo).select) :=
  ⟨rfl, Nat.le_refl _,
    history_empty_up envPlain (loaded envPlain stdinFoo) (keyCtrl Ctrl.CTRLUP) rfl
      (Nat.le_refl _) (Or.inl rfl) rfl⟩

theorem filebytes_cons (x : List Nat) (xs : List (List Nat)) :
    filebytes (x :: xs) = x ++ [10] ++ filebytes xs := by
  simp [filebytes]

theorem filebytes_append (a b : List (List Nat)) :
    filebytes (a ++ b) = filebytes a ++ filebytes b := by
  simp [filebytes]

theorem savehistLoop_drop (history : List (List Nat)) :
    ∀ (n i : Nat), i + n = history.length →
      savehistLoop history n i = some (filebytes (history.drop i)) := by
  intro n
  induction n with
  | zero =>
    intro i hi
    have hle : history.length ≤ i := by omega
    rw [List.drop_eq_nil_of_le hle]
    rfl
  | succ n ih =>
    intro i hi
    have hlt : i < history.length := by omega
    have hg : history.get? i = some history[i] := by
      simp [List.getElem?_eq_getElem hlt]
    have hd : history.drop i = history[i] :: history.drop (i + 1) :=
      List.drop_eq_getElem_cons hlt
    rw [hd, filebytes_cons]
    simp only [savehistLoop, hg, ih (i + 1) (by omega), Option.map_some']

/-- C18: for a stored log L of at most H entries (H at least 1) and the final text t,
savehist writes, one per line, t alone when L is empty, L when t equals the newest entry
of L, and otherwise L followed by t, without the oldest entry of L exactly when L has H
entries; so the written log has at most H entries, keeps the surviving entries in order
and ends with t when t differs from the newest entry. -/
theorem savehist_commit (env : Env) (p : Prompt) (hlen : p.history.length = p.histsize)
    (hz : ∀ e ∈ p.history, 0 ∉ e) (hH : 1 ≤ env.histsize) (hle : p.histsize ≤ env.histsize) :
    savehist env true p = some (filebytes (committed env.histsize p.history (cstr p.text))) ∧
    (committed env.histsize p.history (cstr p.text)).length ≤ env.histsize ∧
    (p.history.getLast? ≠ some (cstr p.text) →
      (committed env.histsize p.history (cstr p.text)).getLast? = some (cstr p.text)) ∧
    (∃ k, k ≤ 1 ∧ (k = 1 ↔ (p.history.length = env.histsize ∧
        p.history.getLast? ≠ some (cstr p.text))) ∧
      committed env.histsize p.history (cstr p.text) =
        p.history.drop k ++
          (if p.history.getLast? = some (cstr p.text) then [] else [cstr p.text])) := by
  by_cases hempty : p.history = []
  · have hs0 : p.histsize = 0 := by rw [← hlen, hempty]; rfl
    refine ⟨?_, ?_, ?_, ?_⟩
    · unfold savehist
      simp [hs0, committed, hempty, filebytes]
    · simp [committed, hempty]; omega
    · intro _; simp [committed, hempty]
    · refine ⟨0, by omega, ?_, ?_⟩
      · constructor
        · intro h; omega
        · rintro ⟨h, _⟩
          rw [hempty] at h
          simp at h
          omega
      · simp [committed, hempty]
  · have hpos : 0 < p.history.length := List.length_pos.mpr hempty
    have hs0 : p.histsize ≠ 0 := by omega
    have hlastidx : p.history.get? (p.histsize - 1) = p.history.getLast? := by
      rw [List.getLast?_eq_getElem?, ← hlen]
      simp
    obtain ⟨last, hlast⟩ : ∃ last, p.history.getLast? = some last := by
      cases h : p.history.getLast? with
      | none => simp [List.getLast?_eq_none_iff] at h; exact absurd h hempty
      | some l => exact ⟨l, rfl⟩
    have hlz : 0 ∉ last := hz last (List.mem_of_getLast?_eq_some hlast)
    have hcmp := strcmp_eq_zero_iff last (cstr p.text) hlz (cstr_no_zero _)
    by_cases heq : last = cstr p.text
    · have hd : strcmp last (cstr p.text) = 0 := hcmp.mpr heq
      have hcom : committed env.histsize p.history (cstr p.text) = p.history := by
        simp [committed, hempty, hlast, heq]
      rw [hcom]
      refine ⟨?_, by omega, ?_, ?_⟩
      · have hidx : (if strcmp last (cstr p.text) ≠ 0 ∧ p.histsize = env.histsize
            then 1 else 0) = 0 := by rw [if_neg (fun h => h.1 hd)]
        have hloop := savehistLoop_drop p.history p.histsize 0 (by omega)
        unfold savehist
        simp only [Bool.true_eq_false, if_false, hs0, hlastidx, hlast, false_and, Nat.sub_zero,
          hloop, hd, ne_eq, not_true_eq_false, Option.map_some', List.drop_zero,
          List.append_nil]
      · intro h; rw [hlast, heq] at h; exact absurd rfl h
      · refine ⟨0, by omega, ?_, ?_⟩
        · constructor
          · intro h; omega
          · rintro ⟨_, h⟩
            rw [hlast, heq] at h
            exact absurd rfl h
        · simp [hlast, heq]
    · have hd : strcmp last (cstr p.text) ≠ 0 := fun h => heq (hcmp.mp h)
      have hne : p.history.getLast? ≠ some (cstr p.text) := by
        rw [hlast]; intro h; exact heq (Option.some.inj h)
      by_cases hfull : p.histsize = env.histsize
      · have hcom : committed env.histsize p.history (cstr p.text)
            = p.history.tail ++ [cstr p.text] := by
          simp [committed, hempty, hne, hlen, hfull]
        rw [hcom]
        refine ⟨?_, ?_, ?_, ?_⟩
        · have hidx : (if strcmp last (cstr p.text) ≠ 0 ∧ p.histsize = env.histsize
              then 1 else 0) = 1 := by rw [if_pos ⟨hd, hfull⟩]
          have hloop := savehistLoop_drop p.history (p.histsize - 1) 1 (by omega)
          unfold savehist
          simp only [Bool.true_eq_false, if_false, hs0, hlastidx, hlast, eq_true hfull, true_and,
            hloop, hd, ne_eq, not_false_eq_true, if_true, Option.map_some']
          rw [filebytes_append, filebytes_cons, List.drop_one]
          simp [filebytes]
        · simp; omega
        · intro _; simp
        · refine ⟨1, by omega, ?_, ?_⟩
          · constructor
            · intro _; exact ⟨by omega, hne⟩
            · intro _; rfl
          · simp [hne]
      · have hcom : committed env.histsize p.history (cstr p.text)
            = p.history ++ [cstr p.text] := by
          simp [committed, hempty, hne, hlen, hfull]
        rw [hcom]
        refine ⟨?_, ?_, ?_, ?_⟩
        · have hidx : (if strcmp last (cstr p.text) ≠ 0 ∧ p.histsize = env.histsize
              then 1 else 0) = 0 := by rw [if_neg (fun h => hfull h.2)]
          have hloop := savehistLoop_drop p.history p.histsize 0 (by omega)
          unfold savehist
          simp only [Bool.true_eq_false, if_false, hs0, hlastidx, hlast, eq_false hfull,
            and_false, Nat.sub_zero,
            hloop, hd, ne_eq, not_false_eq_true, if_true, Option.map_some', List.drop_zero]
          rw [filebytes_append, filebytes_cons]
          simp [filebytes]
        · simp; omega
        · intro _; simp
        · refine ⟨0, by omega, ?_, ?_⟩
          · constructor
            · intro h; omega
            · rintro ⟨h, _⟩; omega
          · simp [hne]

set_option maxRecDepth 100000 in
/-- C18 (witness): the statement at a log of one entry with capacity one and an empty
final text, where the entry is dropped. -/
theorem savehist_commit_witness :
    promptHist.history.length = promptHist.histsize ∧
    (∀ e ∈ promptHist.history, 0 ∉ e) ∧ 1 ≤ envOne.histsize ∧
    promptHist.histsize ≤ envOne.histsize ∧
    (savehist envOne true promptHist
      = some (filebytes (committed envOne.histsize promptHist.history (cstr promptHist.text))) ∧
    (committed envOne.histsize promptHist.history (cstr promptHist.text)).length
      ≤ envOne.histsize ∧
    (promptHist.history.getLast? ≠ some (cstr promptHist.text) →
      (committed envOne.histsize promptHist.history (cstr promptHist.text)).getLast?
        = some (cstr promptHist.text)) ∧
    (∃ k, k ≤ 1 ∧ (k = 1 ↔ (promptHist.history.length = envOne.histsize ∧
        promptHist.history.getLast? ≠ some (cstr promptHist.text))) ∧
      committed envOne.histsize promptHist.history (cstr promptHist.text) =
        promptHist.history.drop k ++
          (if promptHist.history.getLast? = some (cstr promptHist.text) then []
            else [cstr promptHist.text]))) :=
  ⟨by decide, by decide, by decide, by decide,
    savehist_commit envOne promptHist (by decide) (by decide) (by decide) (by decide)⟩

/-! ## Theorems: insert and delete -/

/-- The text of the input field after an `insert` of `-k` bytes, which deletes the `k`
bytes before the cursor. -/
theorem insert_neg_text (p : Prompt) (str : List Nat) (k : Nat) (hok : BufOK p)
    (hk : k ≤ p.cursor) :
    insert p str (-(k : Int)) =
      { p with
        text := (cstr p.text).take (p.cursor - k) ++
          ((cstr p.text).drop p.cursor ++ 0 :: p.text.drop (strlen p.text + 1)) ++
          p.text.drop (p.textsize - k)
        cursor := p.cursor - k
        select := p.cursor - k } := by
  obtain ⟨hsize, hnul, hsmall, hcur⟩ := hok
  have h63 : (2 : Int) ^ 63 < 2 ^ 64 := by norm_num
  have hcond : ¬ (((strlen p.text : Int) + (-(k : Int))) % 2 ^ 64
      > ((p.textsize : Int) - 1) % 2 ^ 64) := by
    rw [Int.emod_eq_of_lt (by omega) (by omega), Int.emod_eq_of_lt (by omega) (by omega)]
    omega
  have hdst : ((((p.cursor : Int) + (-(k : Int))) % 2 ^ 64).toNat) = p.cursor - k := by
    rw [Int.emod_eq_of_lt (by omega) (by omega)]
    omega
  have hlen : ((((p.textsize : Int) - (p.cursor : Int) - max (-(k : Int)) 0) % 2 ^ 64).toNat)
      = p.textsize - p.cursor := by
    have : max (-(k : Int)) 0 = 0 := by omega
    rw [this, Int.emod_eq_of_lt (by omega) (by omega)]
    omega
  have hnpos : ¬ (-(k : Int) > 0) := by omega
  unfold insert
  simp only [hcond, if_false, hdst, hlen, hnpos]
  clear hcond hdst hlen hnpos h63
  congr 1
  unfold memmove
  have hcl : (cstr p.text).length = strlen p.text := rfl
  have h1 : p.cursor - k ≤ strlen p.text := by omega
  have h2 : (p.text.drop p.cursor).length ≤ p.textsize - p.cursor := by
    rw [List.length_drop]; omega
  have h3 : p.cursor - k + (p.textsize - p.cursor) = p.textsize - k := by omega
  rw [cstr_take_le p.text (p.cursor - k) h1, List.take_of_length_le h2,
    cstr_drop_le p.text p.cursor hcur (by omega), h3]

/-- An `insert` of `-k` bytes deletes the `k` bytes before the cursor and keeps the
input field well formed. -/
theorem insert_neg_ok (p : Prompt) (str : List Nat) (k : Nat) (hok : BufOK p)
    (hk : k ≤ p.cursor) :
    BufOK (insert p str (-(k : Int))) ∧
    cstr (insert p str (-(k : Int))).text
      = (cstr p.text).take (p.cursor - k) ++ (cstr p.text).drop p.cursor ∧
    (insert p str (-(k : Int))).cursor = p.cursor - k ∧
    (insert p str (-(k : Int))).select = p.cursor - k ∧
    (insert p str (-(k : Int))).textsize = p.textsize := by
  rw [insert_neg_text p str k hok hk]
  obtain ⟨hsize, hnul, hsmall, hcur⟩ := hok
  have hcl : (cstr p.text).length = strlen p.text := rfl
  have hc : cstr ((cstr p.text).take (p.cursor - k) ++
          ((cstr p.text).drop p.cursor ++ 0 :: p.text.drop (strlen p.text + 1)) ++
          p.text.drop (p.textsize - k))
      = (cstr p.text).take (p.cursor - k) ++ (cstr p.text).drop p.cursor := by
    have : (cstr p.text).take (p.cursor - k) ++
          ((cstr p.text).drop p.cursor ++ 0 :: p.text.drop (strlen p.text + 1)) ++
          p.text.drop (p.textsize - k)
        = ((cstr p.text).take (p.cursor - k) ++ (cstr p.text).drop p.cursor) ++
          0 :: (p.text.drop (strlen p.text + 1) ++ p.text.drop (p.textsize - k)) := by
      simp
    rw [this]
    exact cstr_append_nul _ _ (no_zero_append (take_no_zero _ _) (drop_no_zero _ _))
  have hl : (cstr ((cstr p.text).take (p.cursor - k) ++
          ((cstr p.text).drop p.cursor ++ 0 :: p.text.drop (strlen p.text + 1)) ++
          p.text.drop (p.textsize - k))).length = strlen p.text - k := by
    rw [hc]
    simp only [List.length_append, List.length_take, List.length_drop]
    omega
  refine ⟨⟨?_, ?_, hsmall, ?_⟩, hc, rfl, rfl, rfl⟩
  · show (_ ++ _ ++ _ : List Nat).length = p.textsize
    simp only [List.length_append, List.length_take, List.length_drop, List.length_cons]
    omega
  · have h : strlen p.text - k < p.textsize := by omega
    exact lt_of_eq_of_lt hl h
  · have h : p.cursor - k ≤ strlen p.text - k := by omega
    exact le_of_le_of_eq h hl.symm

/-- An accepted `insert` of `n` bytes without a NUL puts them at the cursor and keeps
the input field well formed. -/
theorem insert_pos_ok (p : Prompt) (str : List Nat) (n : Nat) (hok : BufOK p)
    (hstr : n ≤ str.length) (hz : 0 ∉ str.take n)
    (hfit : strlen p.text + n ≤ p.textsize - 1) :
    BufOK (insert p str (n : Int)) ∧
    cstr (insert p str (n : Int)).text
      = (cstr p.text).take p.cursor ++ str.take n ++ (cstr p.text).drop p.cursor ∧
    (insert p str (n : Int)).cursor = p.cursor + n ∧
    (insert p str (n : Int)).select = p.cursor + n ∧
    (insert p str (n : Int)).textsize = p.textsize := by
  rcases Nat.eq_zero_or_pos n with h0 | hn
  · subst h0
    have h := insert_neg_ok p str 0 hok (Nat.zero_le _)
    simpa using h
  · rw [insert_pos_text p str n hok hn hfit]
    have hcl : (cstr p.text).length = strlen p.text := rfl
    have hc : cstr ((cstr p.text).take p.cursor ++ str.take n ++
          ((cstr p.text).drop p.cursor ++ 0 :: (p.text.drop (strlen p.text + 1)).take
            (p.textsize - 1 - strlen p.text - n)))
        = (cstr p.text).take p.cursor ++ str.take n ++ (cstr p.text).drop p.cursor := by
      rw [← List.append_assoc]
      exact cstr_append_nul _ _
        (no_zero_append (no_zero_append (take_no_zero _ _) hz) (drop_no_zero _ _))
    obtain ⟨hsize, hnul, hsmall, hcur⟩ := hok
    have hl : (cstr ((cstr p.text).take p.cursor ++ str.take n ++
          ((cstr p.text).drop p.cursor ++ 0 :: (p.text.drop (strlen p.text + 1)).take
            (p.textsize - 1 - strlen p.text - n)))).length = strlen p.text + n := by
      rw [hc]
      simp only [List.length_append, List.length_take, List.length_drop]
      omega
    refine ⟨⟨?_, ?_, hsmall, ?_⟩, hc, rfl, rfl, rfl⟩
    · show (_ ++ _ ++ _ : List Nat).length = p.textsize
      simp only [List.length_append, List.length_take, List.length_drop, List.length_cons]
      omega
    · have h : strlen p.text + n < p.textsize := by omega
      exact lt_of_eq_of_lt hl h
    · have h : p.cursor + n ≤ strlen p.text + n := by omega
      exact le_of_le_of_eq h hl.symm

/-- C11 (insert/delete inverse): for every well-formed buffer state with the cursor inside
the text and every text `t` of `n` bytes (none of them NUL) with
`strlen(text) + n <= textsize - 1`, `insert(t, n)` followed by `insert(NULL, -n)` yields
the original text, with the cursor back where it was. -/
theorem insert_then_delete (p : Prompt) (t : List Nat) (n : Nat) (hok : BufOK p)
    (hlen : t.length = n) (hz : 0 ∉ t) (hfit : strlen p.text + n ≤ p.textsize - 1) :
    cstr (insert (insert p t (n : Int)) [] (-(n : Int))).text = cstr p.text ∧
    (insert (insert p t (n : Int)) [] (-(n : Int))).cursor = p.cursor := by
  have htk : t.take n = t := List.take_of_length_le (by omega)
  obtain ⟨hok1, ht1, hc1, _, _⟩ :=
    insert_pos_ok p t n hok (by omega) (by rw [htk]; exact hz) hfit
  obtain ⟨_, ht2, hc2, _, _⟩ :=
    insert_neg_ok (insert p t (n : Int)) [] n hok1 (by omega)
  have hcl : (cstr p.text).length = strlen p.text := rfl
  have hcur := hok.cursor
  have hA : ((cstr p.text).take p.cursor).length = p.cursor := by
    rw [List.length_take]; omega
  refine ⟨?_, by omega⟩
  rw [ht2, ht1, hc1, htk, Nat.add_sub_cancel, List.append_assoc]
  rw [List.take_append_of_le_length (by omega), List.take_of_length_le (by omega)]
  have hB : ((cstr p.text).take p.cursor ++ t).length = p.cursor + n := by
    rw [List.length_append, hA, hlen]
  rw [← List.append_assoc, drop_append_exact _ _ _ hB, List.take_append_drop]

set_option maxRecDepth 100000 in
/-- C11 (witness): the two bytes `!?` inserted after the typed text `foo` and deleted
again. -/
theorem insert_then_delete_witness :
    BufOK promptFoo ∧ [33, 63].length = 2 ∧ 0 ∉ [33, 63] ∧
    strlen promptFoo.text + 2 ≤ promptFoo.textsize - 1 ∧
    (cstr (insert (insert promptFoo [33, 63] ((2 : Nat) : Int)) [] (-((2 : Nat) : Int))).text
      = cstr promptFoo.text ∧
    (insert (insert promptFoo [33, 63] ((2 : Nat) : Int)) [] (-((2 : Nat) : Int))).cursor
      = promptFoo.cursor) :=
  ⟨⟨by decide, by decide, by decide, by decide⟩, by decide, by decide, by decide,
    insert_then_delete promptFoo [33, 63] 2 ⟨by decide, by decide, by decide, by decide⟩
      (by decide) (by decide) (by decide)⟩

/-! ## Theorems: undo and redo -/

set_option maxRecDepth 100000 in
/-- C12: from the initial state, the two edit operations delete-char-left and
delete-char-right (of different classes, neither of which finds a byte to delete) leave
the empty text with one snapshot of it above the sentinel, and the first of the two undo
presses does not return: `undo` steps from that snapshot to the sentinel and reads its
absent text.  A sequence of edits that change the text (type `ab`, delete-char-left, type
`c`) is undone by three undo presses and redone by three redo presses. -/
theorem undo_round_trip_idle_edits :
    (session envPlain [] [keyCtrl Ctrl.CTRLDELLEFT, keyCtrl Ctrl.CTRLDELRIGHT]).map undoview
      = some ([], 0, [some [], none], some 0) ∧
    session envPlain [] [keyCtrl Ctrl.CTRLDELLEFT, keyCtrl Ctrl.CTRLDELRIGHT,
      keyCtrl Ctrl.CTRLUNDO] = none ∧
    session envPlain [] [keyCtrl Ctrl.CTRLDELLEFT, keyCtrl Ctrl.CTRLDELRIGHT,
      keyCtrl Ctrl.CTRLUNDO, keyCtrl Ctrl.CTRLUNDO] = none ∧
    (session envPlain [] [keyInsert [97, 98], keyCtrl Ctrl.CTRLDELLEFT, keyInsert [99]]).map
      (fun p => cstr p.text) = some [97, 99] ∧
    (session envPlain [] [keyInsert [97, 98], keyCtrl Ctrl.CTRLDELLEFT, keyInsert [99],
      keyCtrl Ctrl.CTRLUNDO, keyCtrl Ctrl.CTRLUNDO, keyCtrl Ctrl.CTRLUNDO]).map
      (fun p => cstr p.text) = some [] ∧
    (session envPlain [] [keyInsert [97, 98], keyCtrl Ctrl.CTRLDELLEFT, keyInsert [99],
      keyCtrl Ctrl.CTRLUNDO, keyCtrl Ctrl.CTRLUNDO, keyCtrl Ctrl.CTRLUNDO,
      keyCtrl Ctrl.CTRLREDO, keyCtrl Ctrl.CTRLREDO, keyCtrl Ctrl.CTRLREDO]).map
      (fun p => cstr p.text) = some [97, 99] :=
  ⟨by decide, Option.isNone_iff_eq_none.mp (by decide),
    Option.isNone_iff_eq_none.mp (by decide), by decide, by decide, by decide⟩

set_option maxRecDepth 100000 in
/-- C13 (counterexample): after typing `ab` and a delete-char-right press, which finds no
byte to delete at the end of the text, the text is `ab` and the newest snapshot is `ab`
too; a run of one or of two delete-char-left presses then deletes text and adds no
snapshot to the undo history, which keeps its three entries. -/
theorem delete_run_adds_no_snapshot :
    (session envPlain [] [keyInsert [97, 98], keyCtrl Ctrl.CTRLDELRIGHT]).map
      undoview = some ([97, 98], 2, [some [97, 98], some [], none], some 0) ∧
    (session envPlain [] [keyInsert [97, 98], keyCtrl Ctrl.CTRLDELRIGHT,
      keyCtrl Ctrl.CTRLDELLEFT]).map
      undoview = some ([97], 1, [some [97, 98], some [], none], some 0) ∧
    (session envPlain [] [keyInsert [97, 98], keyCtrl Ctrl.CTRLDELRIGHT,
      keyCtrl Ctrl.CTRLDELLEFT, keyCtrl Ctrl.CTRLDELLEFT]).map
      undoview = some ([], 0, [some [97, 98], some [], none], some 0) :=
  ⟨by decide, by decide, by decide⟩

set_option maxRecDepth 100000 in
/-- C14: with the text `abc` and the cursor moved left twice, to position 1, an undo press
loads the snapshot of the empty text and leaves the text `bc`: only the byte before the
cursor is deleted.  With the one history entry `x`, the text `abc` and the cursor at
position 2, the history-up press leaves the text `xc`. -/
theorem load_keeps_text_after_cursor :
    (session envPlain [] [keyInsert [97, 98, 99], keyCtrl Ctrl.CTRLLEFT,
      keyCtrl Ctrl.CTRLLEFT]).map undoview = some ([97, 98, 99], 1, [some [], none], some 0) ∧
    (session envPlain [] [keyInsert [97, 98, 99], keyCtrl Ctrl.CTRLLEFT,
      keyCtrl Ctrl.CTRLLEFT, keyCtrl Ctrl.CTRLUNDO]).map undoview
      = some ([98, 99], 0, [some [], none], some 1) ∧
    ((startup envPlain (List.replicate 1023 0) [[120]] 20 2 []).bind
      (fun p => presskeys envPlain p
        [keyInsert [97, 98, 99], keyCtrl Ctrl.CTRLLEFT])).map
      (fun p => (cstr p.text, p.cursor)) = some ([97, 98, 99], 2) ∧
    ((startup envPlain (List.replicate 1023 0) [[120]] 20 2 []).bind
      (fun p => presskeys envPlain p
        [keyInsert [97, 98, 99], keyCtrl Ctrl.CTRLLEFT, keyCtrl Ctrl.CTRLUP])).map
      (fun p => (cstr p.text, p.cursor)) = some ([120, 99], 1) :=
  ⟨by decide, by decide, by decide, by decide⟩

set_option maxRecDepth 100000 in
/-- C15: from the initial state, a delete-char-left press on the empty text pushes a
snapshot of the empty text above the sentinel and makes it the current entry; in the
state reached the current snapshot equals the text and only the sentinel is older, and
`undo`, like the undo key press, does not return: it steps to the sentinel and then
reads its absent text. -/
theorem undo_reads_sentinel :
    (session envPlain [] [keyCtrl Ctrl.CTRLDELLEFT]).map undoview
      = some ([], 0, [some [], none], some 0) ∧
    (session envPlain [] [keyCtrl Ctrl.CTRLDELLEFT]).bind undo = none ∧
    session envPlain [] [keyCtrl Ctrl.CTRLDELLEFT, keyCtrl Ctrl.CTRLUNDO] = none :=
  ⟨by decide, Option.isNone_iff_eq_none.mp (by decide),
    Option.isNone_iff_eq_none.mp (by decide)⟩

theorem sameundo_refl (p : Prompt) : SameUndo p p := ⟨rfl, rfl, rfl⟩

theorem sameundo_trans {p q r : Prompt} (h1 : SameUndo p q) (h2 : SameUndo q r) :
    SameUndo p r :=
  ⟨h2.1.trans h1.1, h2.2.1.trans h1.2.1, h2.2.2.trans h1.2.2⟩

theorem insert_sameundo (p : Prompt) (str : List Nat) (n : Int) :
    SameUndo p (insert p str n) := by
  unfold insert
  split
  · exact sameundo_refl p
  · exact ⟨rfl, rfl, rfl⟩

theorem delselection_sameundo (p : Prompt) : SameUndo p (delselection p) := by
  unfold delselection
  split
  · exact sameundo_refl p
  · exact ⟨rfl, rfl, rfl⟩

theorem getfilelist_sameundo (env : Env) (p : Prompt) : SameUndo p (getfilelist env p) :=
  ⟨rfl, rfl, rfl⟩

theorem rebuild_sameundo (env : Env) (p : Prompt) :
    ∃ q, navmatchlist (getmatchlist env p) 0 = some q ∧ SameUndo p q := by
  obtain ⟨q, hq, he⟩ := navmatchlist_rebuild env p
  refine ⟨q, hq, ?_, ?_, ?_⟩
  · rw [he]
  · rw [he]
  · rw [he]

/-- The end of `keypress` returns and leaves the undo list alone. -/
theorem keypressEnd_sameundo (env : Env) (p : Prompt) (op : Ctrl) :
    ∃ r q, keypressEnd env p op = some (r, q) ∧ SameUndo p q := by
  unfold keypressEnd
  split
  · exact ⟨_, _, rfl, rfl, rfl, rfl⟩
  · split
    · exact ⟨_, _, rfl, sameundo_refl p⟩
    · split
      · split
        · obtain ⟨q, hq, hs⟩ := rebuild_sameundo env (getfilelist env p)
          exact ⟨Press_ret.DrawPrompt, q, by simp only [hq, Option.map_some'],
            sameundo_trans (getfilelist_sameundo env p) hs⟩
        · obtain ⟨q, hq, hs⟩ := rebuild_sameundo env p
          exact ⟨Press_ret.DrawPrompt, q, by simp only [hq, Option.map_some'], hs⟩
      · exact ⟨_, _, rfl, sameundo_refl p⟩

/-- The branch of `keypress` for the two character deletions returns and leaves the undo
list alone. -/
theorem keypressSwitch_delchar (env : Env) (p : Prompt) (ev : XKeyEvent) (op : Ctrl)
    (hop : op = Ctrl.CTRLDELLEFT ∨ op = Ctrl.CTRLDELRIGHT) :
    ∃ r q, keypressSwitch env p ev op = some (r, q) ∧ SameUndo p q := by
  have hbranch : keypressSwitch env p ev op =
      (if p.cursor ≠ p.select then keypressEnd env (delselection p) op
      else if op = Ctrl.CTRLDELRIGHT ∧ p.text.getD p.cursor 0 = 0 then
        some (Press_ret.Nop, p)
      else
        let p1 :=
          if op = Ctrl.CTRLDELRIGHT then { p with cursor := nextrune p.text p.cursor 1 }
          else p
        if p1.cursor = 0 then some (Press_ret.Nop, p1)
        else
          keypressEnd env
            (insert p1 [] ((nextrune p1.text p1.cursor (-1) : Int) - (p1.cursor : Int))) op) := by
    rcases hop with h | h <;> subst h <;> rfl
  have tail : ∀ p1 : Prompt, SameUndo p p1 →
      ∃ r q, (if p1.cursor = 0 then some (Press_ret.Nop, p1)
        else
          keypressEnd env
            (insert p1 [] ((nextrune p1.text p1.cursor (-1) : Int) - (p1.cursor : Int))) op)
        = some (r, q) ∧ SameUndo p q := by
    intro p1 hp1
    split
    · exact ⟨_, _, rfl, hp1⟩
    · obtain ⟨r, q, hq, hs⟩ := keypressEnd_sameundo env
        (insert p1 [] ((nextrune p1.text p1.cursor (-1) : Int) - (p1.cursor : Int))) op
      exact ⟨r, q, hq, sameundo_trans (sameundo_trans hp1 (insert_sameundo _ _ _)) hs⟩
  rw [hbranch]
  split
  · obtain ⟨r, q, hq, hs⟩ := keypressEnd_sameundo env (delselection p) op
    exact ⟨r, q, hq, sameundo_trans (delselection_sameundo p) hs⟩
  · split
    · exact ⟨_, _, rfl, sameundo_refl p⟩
    · have hp1 : SameUndo p (if op = Ctrl.CTRLDELRIGHT then
          { p with cursor := nextrune p.text p.cursor 1 } else p) := by
        split
        · exact ⟨rfl, rfl, rfl⟩
        · exact sameundo_refl p
      exact tail _ hp1

/-- One key press of a character deletion: it returns, and it calls `addundo` exactly
when the previous operation was another one. -/
theorem keypress_delchar (env : Env) (p : Prompt) (ev : XKeyEvent) (op : Ctrl)
    (hop : op = Ctrl.CTRLDELLEFT ∨ op = Ctrl.CTRLDELRIGHT) (hev : ev.operation = op)
    (hst : ev.status = Status.XLookupKeySym ∨ ev.status = Status.XLookupBoth) :
    ∃ r q, keypress env p ev = some (r, q) ∧ q.prevoperation = op ∧
      q.undo = (if p.prevoperation = op then p else addundo p true).undo ∧
      q.undocurr = (if p.prevoperation = op then p else addundo p true).undocurr := by
  have hk : keypress env p ev =
      keypressSwitch env
        { (if p.prevoperation = op then p else addundo p true) with prevoperation := op }
        ev op := by
    unfold keypress
    have hu : ISUNDO op = false := by rcases hop with h | h <;> subst h <;> decide
    have he : ISEDITING op = true := by rcases hop with h | h <;> subst h <;> decide
    have hi : ¬ (op = Ctrl.INSERT) := by rcases hop with h | h <;> subst h <;> decide
    rcases hst with hst | hst <;>
    · rw [hst]
      simp only [hev, hi, false_and, if_false, hu, he, Bool.false_and, Bool.true_and,
        Bool.false_eq_true]
      by_cases hprev : p.prevoperation = op
      · simp [hprev]
      · have hne : (op != p.prevoperation) = true := by
          simp only [bne_iff_ne, ne_eq]
          exact fun h => hprev h.symm
        simp [hprev, hne]
  rw [hk]
  obtain ⟨r, q, hq, hs⟩ := keypressSwitch_delchar env
    { (if p.prevoperation = op then p else addundo p true) with prevoperation := op } ev op hop
  exact ⟨r, q, hq, hs.2.2, hs.1, hs.2.1⟩

/-- A run of key presses of one character deletion, after a press of the same operation:
the presses return and leave the undo list alone. -/
theorem presskeys_delchar (env : Env) (op : Ctrl)
    (hop : op = Ctrl.CTRLDELLEFT ∨ op = Ctrl.CTRLDELRIGHT) :
    ∀ (evs : List XKeyEvent) (p : Prompt),
      (∀ ev ∈ evs, ev.operation = op ∧
        (ev.status = Status.XLookupKeySym ∨ ev.status = Status.XLookupBoth)) →
      p.prevoperation = op →
      ∃ q, presskeys env p evs = some q ∧ q.undo = p.undo ∧ q.undocurr = p.undocurr := by
  intro evs
  induction evs with
  | nil => intro p _ _; exact ⟨p, rfl, rfl, rfl⟩
  | cons ev rest ih =>
    intro p hevs hprev
    have h1 := hevs ev (List.mem_cons_self _ _)
    obtain ⟨r, q1, hq1, hp1, hu1, hc1⟩ := keypress_delchar env p ev op hop h1.1 h1.2
    rw [if_pos hprev] at hu1 hc1
    obtain ⟨q, hq, hu, hc⟩ := ih q1 (fun e he => hevs e (List.mem_cons_of_mem _ he)) hp1
    refine ⟨q, ?_, hu.trans hu1, hc.trans hc1⟩
    simp only [presskeys, hq1, Option.some_bind, hq]

/-- The undo list after `addundo`: at most one snapshot on top of `undobase`. -/
theorem addundo_undo (p : Prompt) (editing : Bool) (hz : ∀ e ∈ p.undo, 0 ∉ e.getD []) :
    (addundo p editing).undo =
      if (undobase p).head? = some (some (cstr p.text)) then undobase p
      else some (cstr p.text) :: undobase p := by
  have key : ∀ (p1 : Prompt), p1.undo = undobase p → p1.text = p.text →
      (if (match p1.undo.head? with
          | some (some t) => decide (strcmp t (cstr p1.text) ≠ 0)
          | _ => true) = true then
        { p1 with
          undo := some (cstr p1.text) :: p1.undo
          undocurr := if editing then some 0 else p1.undocurr.map (fun i => i + 1) }
      else p1).undo =
      if (undobase p).head? = some (some (cstr p.text)) then undobase p
      else some (cstr p.text) :: undobase p := by
    intro p1 hu ht
    have hzb : ∀ e ∈ undobase p, 0 ∉ e.getD [] := by
      intro e he
      apply hz e
      unfold undobase at he
      split at he
      · exact List.mem_of_mem_drop he
      · exact he
    rw [hu, ht]
    cases hh : (undobase p).head? with
    | none => simp
    | some e =>
      cases e with
      | none => simp
      | some t =>
        have htz : 0 ∉ t := hzb (some t) (List.mem_of_mem_head? hh)
        have hcmp := strcmp_eq_zero_iff t (cstr p.text) htz (cstr_no_zero _)
        by_cases heq : t = cstr p.text
        · have h0 : strcmp t (cstr p.text) = 0 := hcmp.mpr heq
          subst heq
          simp [h0, hu]
        · have h0 : strcmp t (cstr p.text) ≠ 0 := fun h => heq (hcmp.mp h)
          simp [h0, heq, hu]
  unfold addundo
  rcases hc : p.undocurr with _ | (_ | i)
  · exact key p (by unfold undobase; rw [hc]) rfl
  · exact key p (by unfold undobase; rw [hc]) rfl
  · exact key { p with undo := p.undo.drop (i + 1), undocurr := some 0 }
      (by unfold undobase; rw [hc]) rfl

/-- C13 (amended): a run of N >= 1 consecutive key presses of one character-deletion
operation (all delete-char-left, or all delete-char-right) returns and pushes at most one
snapshot, whatever N is.  After a press of another operation the entries newer than the
current one are dropped and the text before the run is pushed on the remaining ones, unless
it equals the newest of them, in which case nothing is pushed; after a press of the same
operation the undo history is left as it is. -/
theorem delete_run_one_snapshot (env : Env) (p : Prompt) (op : Ctrl) (evs : List XKeyEvent)
    (hop : op = Ctrl.CTRLDELLEFT ∨ op = Ctrl.CTRLDELRIGHT)
    (hevs : ∀ ev ∈ evs, ev.operation = op ∧
      (ev.status = Status.XLookupKeySym ∨ ev.status = Status.XLookupBoth))
    (hne : evs ≠ []) (hz : ∀ e ∈ p.undo, 0 ∉ e.getD []) :
    ∃ q, presskeys env p evs = some q ∧
      (p.prevoperation = op → q.undo = p.undo) ∧
      (p.prevoperation ≠ op →
        q.undo = if (undobase p).head? = some (some (cstr p.text)) then undobase p
          else some (cstr p.text) :: undobase p) := by
  cases evs with
  | nil => exact absurd rfl hne
  | cons ev rest =>
    have h1 := hevs ev (List.mem_cons_self _ _)
    obtain ⟨r, q1, hq1, hp1, hu1, _⟩ := keypress_delchar env p ev op hop h1.1 h1.2
    obtain ⟨q, hq, hu, _⟩ := presskeys_delchar env op hop rest q1
      (fun e he => hevs e (List.mem_cons_of_mem _ he)) hp1
    refine ⟨q, ?_, ?_, ?_⟩
    · simp only [presskeys, hq1, Option.some_bind, hq]
    · intro hprev
      rw [hu, hu1, if_pos hprev]
    · intro hprev
      rw [hu, hu1, if_neg hprev, addundo_undo p true hz]

set_option maxRecDepth 100000 in
/-- C13 (witness): two delete-char-left presses after typing `ab`. -/
theorem delete_run_one_snapshot_witness :
    (Ctrl.CTRLDELLEFT = Ctrl.CTRLDELLEFT ∨ Ctrl.CTRLDELLEFT = Ctrl.CTRLDELRIGHT) ∧
    (∀ ev ∈ [keyCtrl Ctrl.CTRLDELLEFT, keyCtrl Ctrl.CTRLDELLEFT],
      ev.operation = Ctrl.CTRLDELLEFT ∧
      (ev.status = Status.XLookupKeySym ∨ ev.status = Status.XLookupBoth)) ∧
    [keyCtrl Ctrl.CTRLDELLEFT, keyCtrl Ctrl.CTRLDELLEFT] ≠ [] ∧
    (∀ e ∈ promptAb.undo, 0 ∉ e.getD []) ∧
    ∃ q, presskeys envPlain promptAb [keyCtrl Ctrl.CTRLDELLEFT, keyCtrl Ctrl.CTRLDELLEFT]
        = some q ∧
      (promptAb.prevoperation = Ctrl.CTRLDELLEFT → q.undo = promptAb.undo) ∧
      (promptAb.prevoperation ≠ Ctrl.CTRLDELLEFT →
        q.undo = if (undobase promptAb).head? = some (some (cstr promptAb.text))
          then undobase promptAb
          else some (cstr promptAb.text) :: undobase promptAb) :=
  ⟨Or.inl rfl, by decide, by simp, by decide,
    delete_run_one_snapshot envPlain promptAb Ctrl.CTRLDELLEFT
      [keyCtrl Ctrl.CTRLDELLEFT, keyCtrl Ctrl.CTRLDELLEFT] (Or.inl rfl) (by decide) (by simp)
      (by decide)⟩

/-! ## Theorems: reading the items -/

theorem cstr_of_no_zero (l : List Nat) (h : 0 ∉ l) : cstr l = l := by
  unfold cstr
  rw [List.takeWhile_eq_self_iff]
  intro x hx
  simp only [bne_iff_ne, ne_eq]
  intro h0
  exact h (h0 ▸ hx)

theorem takeWhile_of_not_mem (c : Nat) (l : List Nat) (h : c ∉ l) :
    l.takeWhile (fun x => x != c) = l := by
  rw [List.takeWhile_eq_self_iff]
  intro x hx
  simp only [bne_iff_ne, ne_eq]
  intro h0
  exact h (h0 ▸ hx)

theorem takeWhile_append_sep (c : Nat) (a r : List Nat) (h : c ∉ a) :
    (a ++ c :: r).takeWhile (fun x => x != c) = a := by
  induction a with
  | nil => simp
  | cons x t ih =>
    have hx : x ≠ c := fun e => h (by simp [e])
    have ht : c ∉ t := fun hm => h (by simp [hm])
    simp [List.takeWhile_cons, hx, ih ht]

theorem dropWhile_append_sep (c : Nat) (a r : List Nat) (h : c ∉ a) :
    (a ++ c :: r).dropWhile (fun x => x != c) = c :: r := by
  induction a with
  | nil => simp
  | cons x t ih =>
    have hx : x ≠ c := fun e => h (by simp [e])
    have ht : c ∉ t := fun hm => h (by simp [hm])
    simp [List.dropWhile_cons, hx, ih ht]

theorem dropWhile_of_not_mem (c : Nat) (l : List Nat) (h : c ∉ l) :
    l.dropWhile (fun x => x != c) = [] := by
  rw [List.dropWhile_eq_nil_iff]
  intro x hx
  simp only [bne_iff_ne, ne_eq]
  intro h0
  exact h (h0 ▸ hx)

/-- A list splits at the first occurrence of a byte it contains. -/
theorem split_at_first (c : Nat) (l : List Nat) (h : c ∈ l) :
    ∃ a r, l = a ++ c :: r ∧ c ∉ a := by
  induction l with
  | nil => simp at h
  | cons x t ih =>
    by_cases hx : x = c
    · exact ⟨[], t, by simp [hx], by simp⟩
    · have ht : c ∈ t := by
        rcases List.mem_cons.mp h with h1 | h1
        · exact absurd h1.symm hx
        · exact h1
      obtain ⟨a, r, hl, ha⟩ := ih ht
      refine ⟨x :: a, r, by simp [hl], ?_⟩
      intro hm
      rcases List.mem_cons.mp hm with h1 | h1
      · exact hx h1.symm
      · exact ha h1

theorem strchrTab_none (s : List Nat) (h0 : 0 ∉ s) (h9 : 9 ∉ s) : strchrTab s = none := by
  unfold strchrTab
  rw [cstr_of_no_zero s h0]
  simp [h9]

theorem strchrTab_some (a r : List Nat) (h0 : 0 ∉ a ++ 9 :: r) (h9 : 9 ∉ a) :
    strchrTab (a ++ 9 :: r) = some a.length := by
  unfold strchrTab
  rw [cstr_of_no_zero _ h0, takeWhile_append_sep 9 a r h9]
  simp

/-- The fields of a line in its three shapes: no tab, one tab, two tabs or more. -/
theorem linefields_shapes (a b c : List Nat) (ha : 9 ∉ a) (hb : 9 ∉ b) :
    linefields a = (a, none, none) ∧
    linefields (a ++ 9 :: b) = (a, some b, none) ∧
    linefields (a ++ 9 :: (b ++ 9 :: c)) = (a, some b, some c) := by
  refine ⟨?_, ?_, ?_⟩
  · unfold linefields
    rw [dropWhile_of_not_mem 9 a ha]
  · unfold linefields
    rw [dropWhile_append_sep 9 a b ha]
    simp only []
    rw [dropWhile_of_not_mem 9 b hb, takeWhile_append_sep 9 a b ha]
  · unfold linefields
    rw [dropWhile_append_sep 9 a _ ha]
    simp only []
    rw [dropWhile_append_sep 9 b c hb, takeWhile_append_sep 9 a _ ha,
      takeWhile_append_sep 9 b c hb]

theorem deref_eq_zero_iff (a : List Nat) (h0 : 0 ∉ a) : deref a = 0 ↔ a = [] := by
  cases a with
  | nil => simp [deref]
  | cons x t =>
    have hx : x ≠ 0 := fun e => h0 (by simp [e])
    simp [deref, hx]

theorem take_append_sep (a r : List Nat) (c : Nat) : (a ++ c :: r).take a.length = a := by
  simp

theorem drop_append_sep (a r : List Nat) (c : Nat) : (a ++ c :: r).drop (a.length + 1) = r := by
  induction a with
  | nil => simp
  | cons x t ih => simp

/-- The body of the loop of `readstdin` on a line without NUL that is not empty: a group
name if `gflag` and `setgroup` are set, and an item with the fields of the line, unless
its text is empty, otherwise. -/
theorem readline_short (env : Env) (p : Prompt) (sg : Bool) (l : List Nat) (h0 : 0 ∉ l)
    (h10 : 10 ∉ l) :
    readline env p sg l =
      if (env.gflag && sg) = true then
        ({ p with groups := some (Group.mk p.groups l) }, false)
      else if (linefields l).1 = [] then (p, sg)
      else
        ({ p with
            items := p.items ++
              [{ group := p.groups, prevmatch := none, nextmatch := none
                 text := (linefields l).1, description := (linefields l).2.1
                 output := (linefields l).2.2 }]
            nstatic := p.nstatic + 1 }, sg) := by
  have hline : (cstr l).takeWhile (fun c => c != 10) = l := by
    rw [cstr_of_no_zero l h0, takeWhile_of_not_mem 10 l h10]
  unfold readline
  simp only [hline]
  split
  · unfold allocgroup
    rw [cstr_of_no_zero l h0]
  · by_cases h9 : 9 ∈ l
    · obtain ⟨a, r, hl, ha⟩ := split_at_first 9 l h9
      subst hl
      have h0a : 0 ∉ a := fun h => h0 (by simp [h])
      have h0r : 0 ∉ r := fun h => h0 (by simp [h])
      rw [strchrTab_some a r h0 ha]
      simp only [Option.map_some', Option.some_bind, take_append_sep, drop_append_sep]
      by_cases h9r : 9 ∈ r
      · obtain ⟨b, c, hr, hb⟩ := split_at_first 9 r h9r
        subst hr
        have h0b : 0 ∉ b := fun h => h0r (by simp [h])
        have h0c : 0 ∉ c := fun h => h0r (by simp [h])
        rw [strchrTab_some b c h0r hb, (linefields_shapes a b c ha hb).2.2]
        simp only [Option.map_some', take_append_sep, drop_append_sep]
        by_cases hae : a = []
        · have hd : deref a = 0 := (deref_eq_zero_iff a h0a).mpr hae
          simp only [hd, if_true, hae]
          rfl
        · have hd : ¬ deref a = 0 := fun h => hae ((deref_eq_zero_iff a h0a).mp h)
          simp only [hd, if_false, hae]
          unfold allocitem
          simp only [Option.map_some', cstr_of_no_zero a h0a, cstr_of_no_zero b h0b,
            cstr_of_no_zero c h0c]
      · rw [strchrTab_none r h0r h9r, (linefields_shapes a r [] ha h9r).2.1]
        simp only [Option.map_none']
        by_cases hae : a = []
        · have hd : deref a = 0 := (deref_eq_zero_iff a h0a).mpr hae
          simp only [hd, if_true, hae]
          rfl
        · have hd : ¬ deref a = 0 := fun h => hae ((deref_eq_zero_iff a h0a).mp h)
          simp only [hd, if_false, hae]
          unfold allocitem
          simp only [Option.map_some', Option.map_none', cstr_of_no_zero a h0a,
            cstr_of_no_zero r h0r]
    · rw [strchrTab_none l h0 h9, (linefields_shapes l [] [] h9 (by simp)).1]
      simp only [Option.map_none', Option.none_bind]
      by_cases hae : l = []
      · have hd : deref l = 0 := (deref_eq_zero_iff l h0).mpr hae
        simp only [hd, if_true, hae]
        rfl
      · have hd : ¬ deref l = 0 := fun h => hae ((deref_eq_zero_iff l h0).mp h)
        simp only [hd, if_false, hae]
        unfold allocitem
        simp only [Option.map_none', cstr_of_no_zero l h0]

theorem fgetsLine_line : ∀ (n : Nat) (l rest : List Nat), 10 ∉ l → l.length < n →
    fgetsLine n (l ++ 10 :: rest) = l ++ [10] := by
  intro n
  induction n with
  | zero => intro l rest _ h; simp at h
  | succ n ih =>
    intro l rest h10 hlen
    cases l with
    | nil => simp [fgetsLine]
    | cons x t =>
      have hx : x ≠ 10 := fun e => h10 (by simp [e])
      have ht : 10 ∉ t := fun hm => h10 (by simp [hm])
      simp only [List.cons_append, fgetsLine, hx, if_false, List.cons.injEq, true_and]
      exact ih t rest ht (by simpa using hlen)

theorem fgetsLine_last : ∀ (n : Nat) (l : List Nat), 10 ∉ l → l.length ≤ n →
    fgetsLine n l = l := by
  intro n
  induction n with
  | zero =>
    intro l _ h
    have : l = [] := List.length_eq_zero.mp (by omega)
    subst this
    rfl
  | succ n ih =>
    intro l h10 hlen
    cases l with
    | nil => rfl
    | cons x t =>
      have hx : x ≠ 10 := fun e => h10 (by simp [e])
      have ht : 10 ∉ t := fun hm => h10 (by simp [hm])
      simp only [fgetsLine, hx, if_false, List.cons.injEq, true_and]
      exact ih t ht (by simpa using hlen)

/-- A short line and its newline are read by one call of `fgets`. -/
theorem fgets_line (l rest : List Nat) (h10 : 10 ∉ l) (hlen : l.length ≤ 1022) :
    fgets INPUTSIZ (l ++ 10 :: rest) = some (l ++ [10], rest) := by
  unfold fgets INPUTSIZ
  have hne : ¬ (l ++ 10 :: rest = []) := by simp
  rw [if_neg hne, fgetsLine_line (1024 - 1) l rest h10 (by omega)]
  have : (l ++ [10]).length = l.length + 1 := by simp
  rw [this, drop_append_sep]

/-- The bytes after the last newline are read by one call of `fgets`. -/
theorem fgets_last (l : List Nat) (hne : l ≠ []) (h10 : 10 ∉ l) (hlen : l.length ≤ 1022) :
    fgets INPUTSIZ l = some (l, []) := by
  unfold fgets INPUTSIZ
  rw [if_neg hne, fgetsLine_last (1024 - 1) l h10 (by omega)]
  simp

theorem readlines_nil (env : Env) (fuel : Nat) (p : Prompt) (sg : Bool) :
    readlines env fuel [] p sg = p := by
  cases fuel with
  | zero => rfl
  | succ n => rfl

theorem readline_newline (env : Env) (p : Prompt) (sg : Bool) (l : List Nat) (h0 : 0 ∉ l)
    (h10 : 10 ∉ l) : readline env p sg (l ++ [10]) = readline env p sg l := by
  have h1 : (cstr (l ++ [10])).takeWhile (fun c => c != 10) = l := by
    rw [cstr_of_no_zero _ (by simp [h0]), takeWhile_append_sep 10 l [] h10]
  have h2 : (cstr l).takeWhile (fun c => c != 10) = l := by
    rw [cstr_of_no_zero l h0, takeWhile_of_not_mem 10 l h10]
  unfold readline
  simp only [h1, h2]

theorem deref_line (l : List Nat) (h10 : 10 ∉ l) (h0 : 0 ∉ l) :
    (deref (l ++ [10]) ≠ 0 ∧ deref (l ++ [10]) = 10) ↔ l = [] := by
  cases l with
  | nil => simp [deref]
  | cons x t =>
    have hx : x ≠ 10 := fun e => h10 (by simp [e])
    simp [deref, hx]

/-- One iteration of the loop of `readstdin` on a short line. -/
theorem readlines_step (env : Env) (fuel : Nat) (l rest : List Nat) (p : Prompt) (sg : Bool)
    (hl : Shortline l) :
    readlines env (fuel + 1) (l ++ 10 :: rest) p sg =
      readlines env fuel rest (linestep env (p, sg) l).1 (linestep env (p, sg) l).2 := by
  obtain ⟨h0, h10, hlen⟩ := hl
  rw [readlines, fgets_line l rest h10 hlen]
  simp only []
  unfold linestep
  by_cases hle : l = []
  · rw [if_pos ((deref_line l h10 h0).mpr hle), if_pos hle]
  · rw [if_neg (fun h => hle ((deref_line l h10 h0).mp h)), if_neg hle,
      readline_newline env p sg l h0 h10]

/-- The loop of `readstdin` over a stream of short lines, the last of which may lack its
newline, goes through the lines one by one. -/
theorem readlines_lines (env : Env) (last : List Nat) (hlast : Shortline last) :
    ∀ (lines : List (List Nat)) (fuel : Nat) (p : Prompt) (sg : Bool),
      (∀ l ∈ lines, Shortline l) → lines.length + 1 ≤ fuel →
      readlines env fuel (filebytes lines ++ last) p sg =
        (linestep env (lines.foldl (linestep env) (p, sg)) last).1 := by
  intro lines
  induction lines with
  | nil =>
    intro fuel p sg _ hfuel
    obtain ⟨n, rfl⟩ : ∃ n, fuel = n + 1 := ⟨fuel - 1, by omega⟩
    simp only [filebytes, List.map_nil, List.flatten_nil, List.nil_append, List.foldl_nil]
    unfold linestep
    by_cases hle : last = []
    · rw [if_pos hle, hle]
      rfl
    · rw [if_neg hle, readlines, fgets_last last hle hlast.2.1 hlast.2.2]
      simp only []
      have hd : ¬ (deref last ≠ 0 ∧ deref last = 10) := by
        cases last with
        | nil => exact absurd rfl hle
        | cons x t =>
          have hx : x ≠ 10 := fun e => hlast.2.1 (by simp [e])
          simp [deref, hx]
      rw [if_neg hd, readlines_nil]
  | cons l ls ih =>
    intro fuel p sg hall hfuel
    obtain ⟨n, rfl⟩ : ∃ n, fuel = n + 1 := ⟨fuel - 1, by simp at hfuel; omega⟩
    have hb : filebytes (l :: ls) ++ last = l ++ 10 :: (filebytes ls ++ last) := by
      rw [filebytes_cons]; simp
    rw [hb, readlines_step env n l _ p sg (hall l (List.mem_cons_self _ _)),
      ih n _ _ (fun x hx => hall x (List.mem_cons_of_mem _ hx)) (by simp at hfuel; omega)]
    rfl

theorem getD_snoc_lt (ls : List (List Nat)) (l : List Nat) (i : Nat) (h : i < ls.length) :
    (ls ++ [l]).getD i [] = ls.getD i [] :=
  List.getD_append ls [l] [] i h

theorem getD_snoc_length (ls : List (List Nat)) (l : List Nat) :
    (ls ++ [l]).getD ls.length [] = l := by
  rw [List.getD_append_right ls [l] [] ls.length (Nat.le_refl _)]
  simp

theorem groupline_snoc_lt (g : Bool) (ls : List (List Nat)) (l : List Nat) (i : Nat)
    (h : i < ls.length) : groupline g (ls ++ [l]) i = groupline g ls i := by
  unfold groupline
  rw [getD_snoc_lt ls l i h, getD_snoc_lt ls l (i - 1) (by omega)]

theorem groupline_snoc_length (g : Bool) (ls : List (List Nat)) (l : List Nat) :
    groupline g (ls ++ [l]) ls.length = (g && l != [] && armed ls) := by
  unfold groupline armed
  rw [getD_snoc_length]
  rcases Nat.eq_zero_or_pos ls.length with h0 | hpos
  · have : ls = [] := List.length_eq_zero.mp h0
    subst this
    simp
  · rw [getD_snoc_lt ls l (ls.length - 1) (by omega)]
    have : (ls.length == 0) = false := by
      simp only [beq_eq_false_iff_ne, ne_eq]
      omega
    rw [this, Bool.false_or]

theorem groupnames_snoc_le (g : Bool) (ls : List (List Nat)) (l : List Nat) (i : Nat)
    (h : i ≤ ls.length) : groupnames g (ls ++ [l]) i = groupnames g ls i := by
  unfold groupnames
  have hf : (List.range i).filter (groupline g (ls ++ [l]))
      = (List.range i).filter (groupline g ls) := by
    apply List.filter_congr
    intro j hj
    exact groupline_snoc_lt g ls l j (by have := List.mem_range.mp hj; omega)
  rw [hf]
  apply List.map_congr_left
  intro j hj
  have hj2 := (List.mem_filter.mp hj).1
  exact getD_snoc_lt ls l j (by have := List.mem_range.mp hj2; omega)

theorem groupnames_snoc_length (g : Bool) (ls : List (List Nat)) (l : List Nat) :
    groupnames g (ls ++ [l]) (ls.length + 1) =
      groupnames g ls ls.length ++ (if groupline g (ls ++ [l]) ls.length = true then [l] else []) := by
  have h := groupnames_snoc_le g ls l ls.length (Nat.le_refl _)
  unfold groupnames at h ⊢
  rw [List.range_succ, List.filter_append, List.map_append, h]
  congr 1
  by_cases hg : groupline g (ls ++ [l]) ls.length = true
  · simp [hg, getD_snoc_length]
  · simp [hg]

theorem itemline_snoc_lt (g : Bool) (ls : List (List Nat)) (l : List Nat) (i : Nat)
    (h : i < ls.length) : itemline g (ls ++ [l]) i = itemline g ls i := by
  unfold itemline
  rw [getD_snoc_lt ls l i h, groupline_snoc_lt g ls l i h]

theorem lineitem_snoc_le (g : Bool) (prev : Option Group) (ls : List (List Nat)) (l : List Nat)
    (i : Nat) (h : i < ls.length) : lineitem g prev (ls ++ [l]) i = lineitem g prev ls i := by
  unfold lineitem
  rw [getD_snoc_lt ls l i h, groupnames_snoc_le g ls l i (by omega)]

theorem catalog_snoc (g : Bool) (prev : Option Group) (ls : List (List Nat)) (l : List Nat) :
    catalog g prev (ls ++ [l]) =
      catalog g prev ls ++
        (if itemline g (ls ++ [l]) ls.length = true then
          [{ group := grouplist prev (groupnames g ls ls.length), prevmatch := none
             nextmatch := none, text := (linefields l).1, description := (linefields l).2.1
             output := (linefields l).2.2 }]
        else []) := by
  unfold catalog
  have hlen : (ls ++ [l]).length = ls.length + 1 := by simp
  rw [hlen, List.range_succ, List.filter_append, List.map_append]
  have hf : (List.range ls.length).filter (itemline g (ls ++ [l]))
      = (List.range ls.length).filter (itemline g ls) := by
    apply List.filter_congr
    intro j hj
    exact itemline_snoc_lt g ls l j (List.mem_range.mp hj)
  have hm : ((List.range ls.length).filter (itemline g ls)).map (lineitem g prev (ls ++ [l]))
      = ((List.range ls.length).filter (itemline g ls)).map (lineitem g prev ls) := by
    apply List.map_congr_left
    intro j hj
    exact lineitem_snoc_le g prev ls l j (List.mem_range.mp (List.mem_filter.mp hj).1)
  rw [hf, hm]
  congr 1
  by_cases hi : itemline g (ls ++ [l]) ls.length = true
  · simp only [hi, if_true, List.filter_cons, List.filter_nil, List.map_cons, List.map_nil]
    unfold lineitem
    rw [getD_snoc_length, groupnames_snoc_le g ls l ls.length (Nat.le_refl _)]
  · simp [hi]

theorem itemline_snoc_length (g : Bool) (ls : List (List Nat)) (l : List Nat) :
    itemline g (ls ++ [l]) ls.length =
      (l != [] && !(g && l != [] && armed ls) && (linefields l).1 != []) := by
  unfold itemline
  rw [getD_snoc_length, groupline_snoc_length]

theorem armed_snoc (ls : List (List Nat)) (l : List Nat) : armed (ls ++ [l]) = (l == []) := by
  unfold armed
  have : (ls ++ [l]).length - 1 = ls.length := by simp
  rw [this, getD_snoc_length]

theorem grouplist_snoc (prev : Option Group) (names : List (List Nat)) (l : List Nat) :
    grouplist prev (names ++ [l]) = some (Group.mk (grouplist prev names) l) := by
  unfold grouplist
  rw [List.foldl_append]
  rfl

/-- The state of the loop of `readstdin` after the short lines `ls`: the catalog and the
groups of the lines read, and `setgroup`. -/
theorem foldl_linestep (env : Env) (p : Prompt) :
    ∀ ls : List (List Nat), (∀ l ∈ ls, Shortline l) →
      ls.foldl (linestep env) (p, true) =
        ({ p with
            items := p.items ++ catalog env.gflag p.groups ls
            nstatic := p.nstatic + (catalog env.gflag p.groups ls).length
            groups := grouplist p.groups (groupnames env.gflag ls ls.length) },
          !env.gflag || armed ls) := by
  intro ls
  induction ls using List.reverseRecOn with
  | nil =>
    intro _
    simp [catalog, groupnames, grouplist, armed]
  | append_singleton ls l ih =>
    intro hall
    have hl : Shortline l := hall l (by simp)
    rw [List.foldl_append, ih (fun x hx => hall x (by simp [hx]))]
    simp only [List.foldl_cons, List.foldl_nil]
    have hlen : (ls ++ [l]).length = ls.length + 1 := by simp
    rw [catalog_snoc, hlen, groupnames_snoc_length, itemline_snoc_length,
      groupline_snoc_length, armed_snoc]
    unfold linestep
    by_cases hle : l = []
    · subst hle
      simp
    · have hne : (l != []) = true := by simpa using hle
      have heq : (l == []) = false := by simpa using hle
      simp only [hle, if_false, hne, heq, Bool.and_true, Bool.true_and, Bool.or_false]
      rw [readline_short env _ _ l hl.1 hl.2.1]
      cases hg : env.gflag <;> cases ha : armed ls
      · simp [List.append_assoc]
        split <;> simp_all [Nat.add_assoc]
      · simp [List.append_assoc]
        split <;> simp_all [Nat.add_assoc]
      · simp [List.append_assoc]
        split <;> simp_all [Nat.add_assoc]
      · simp [grouplist_snoc]

theorem filebytes_length_ge (lines : List (List Nat)) :
    lines.length ≤ (filebytes lines).length := by
  induction lines with
  | nil => simp
  | cons l ls ih =>
    rw [filebytes_cons]
    simp only [List.length_cons, List.length_append, List.length_nil]
    omega

/-- What `readstdin` makes of a stream of short lines, the last of which may lack its
newline: the catalog and the groups of the lines. -/
theorem readstdin_catalog (env : Env) (p : Prompt) (lines : List (List Nat)) (last : List Nat)
    (hall : ∀ l ∈ lines ++ [last], Shortline l) :
    (readstdin env p (filebytes lines ++ last)).items
      = p.items ++ catalog env.gflag p.groups (lines ++ [last]) ∧
    (readstdin env p (filebytes lines ++ last)).groups
      = grouplist p.groups (groupnames env.gflag (lines ++ [last]) (lines.length + 1)) := by
  have hfuel : lines.length + 1 ≤ (filebytes lines ++ last).length + 1 := by
    have := filebytes_length_ge lines
    simp only [List.length_append]
    omega
  have h := readlines_lines env last (hall last (by simp)) lines _ p true
    (fun l hl => hall l (by simp [hl])) hfuel
  have hf : linestep env (lines.foldl (linestep env) (p, true)) last
      = (lines ++ [last]).foldl (linestep env) (p, true) := by
    rw [List.foldl_append]
    rfl
  rw [hf, foldl_linestep env p (lines ++ [last]) hall] at h
  have hlen : (lines ++ [last]).length = lines.length + 1 := by simp
  rw [hlen] at h
  unfold readstdin
  simp only [h]
  exact ⟨trivial, trivial⟩

/-- C19 (amended): for an input without NUL bytes whose lines are shorter than 1023 bytes
(the last line with or without its newline), the items of the catalog are, in input-line
order, those of the lines that are not empty, are not taken as a group name and have a
text that is not empty; the text of an item is the bytes of its line before the first
tab, its description the bytes between the first and the second tab (absent without a
tab), its output all bytes after the second tab (absent with fewer than two tabs). -/
theorem readstdin_items (env : Env) (p : Prompt) (lines : List (List Nat)) (last : List Nat)
    (hall : ∀ l ∈ lines ++ [last], 0 ∉ l ∧ 10 ∉ l ∧ l.length ≤ 1022) :
    (readstdin env p (filebytes lines ++ last)).items.map fieldsof =
      p.items.map fieldsof ++
        ((List.range (lines.length + 1)).filter (itemline env.gflag (lines ++ [last]))).map
          (fun i => linefields ((lines ++ [last]).getD i [])) ∧
    (∀ i, itemline env.gflag (lines ++ [last]) i = true ↔
      ((lines ++ [last]).getD i [] ≠ [] ∧ groupline env.gflag (lines ++ [last]) i = false ∧
        (linefields ((lines ++ [last]).getD i [])).1 ≠ [])) ∧
    (∀ a b c : List Nat, 9 ∉ a → 9 ∉ b →
      linefields a = (a, none, none) ∧
      linefields (a ++ 9 :: b) = (a, some b, none) ∧
      linefields (a ++ 9 :: (b ++ 9 :: c)) = (a, some b, some c)) := by
  refine ⟨?_, ?_, fun a b c ha hb => linefields_shapes a b c ha hb⟩
  · rw [(readstdin_catalog env p lines last hall).1]
    unfold catalog
    have hlen : (lines ++ [last]).length = lines.length + 1 := by simp
    rw [List.map_append, List.map_map, hlen]
    rfl
  · intro i
    unfold itemline
    simp only [Bool.and_eq_true, bne_iff_ne, ne_eq, Bool.not_eq_true', and_assoc]

/-- C20 (amended): with grouping enabled, for an input without NUL bytes whose lines are
shorter than 1023 bytes, a line is taken as a group name exactly when it is not empty and
is the first line of the input or follows an empty line; the groups are the names so
taken, the last one first; and each item belongs to the groups named before its line, the
most recently named group first, or to the groups there were before if none has been
named yet. -/
theorem readstdin_groups (env : Env) (p : Prompt) (lines : List (List Nat)) (last : List Nat)
    (hall : ∀ l ∈ lines ++ [last], 0 ∉ l ∧ 10 ∉ l ∧ l.length ≤ 1022)
    (hg : env.gflag = true) :
    (∀ i, groupline env.gflag (lines ++ [last]) i = true ↔
      ((lines ++ [last]).getD i [] ≠ [] ∧ (i = 0 ∨ (lines ++ [last]).getD (i - 1) [] = []))) ∧
    (readstdin env p (filebytes lines ++ last)).groups
      = grouplist p.groups (groupnames env.gflag (lines ++ [last]) (lines.length + 1)) ∧
    (readstdin env p (filebytes lines ++ last)).items.map (fun it => it.group) =
      p.items.map (fun it => it.group) ++
        ((List.range (lines.length + 1)).filter (itemline env.gflag (lines ++ [last]))).map
          (fun i => grouplist p.groups (groupnames env.gflag (lines ++ [last]) i)) ∧
    (∀ prev : Option Group, grouplist prev [] = prev ∧
      ∀ names n, grouplist prev (names ++ [n]) = some (Group.mk (grouplist prev names) n)) := by
  refine ⟨?_, (readstdin_catalog env p lines last hall).2, ?_,
    fun prev => ⟨rfl, fun names n => grouplist_snoc prev names n⟩⟩
  · intro i
    unfold groupline
    simp only [hg, Bool.true_and, Bool.and_eq_true, bne_iff_ne, ne_eq, Bool.or_eq_true,
      beq_iff_eq]
  · rw [(readstdin_catalog env p lines last hall).1]
    unfold catalog
    have hlen : (lines ++ [last]).length = lines.length + 1 := by simp
    rw [List.map_append, List.map_map, hlen]
    rfl

set_option maxRecDepth 1000000 in
/-- C19 (counterexample): a line of 1024 bytes `a` is read in two pieces and yields two
items, with texts of 1023 bytes and of one byte, and the line `a`, NUL, `b` yields the
item `a`; neither item text is the bytes of the line before its first tab, the whole
line. -/
theorem readstdin_cuts_lines :
    (loaded envPlain (List.replicate 1024 97 ++ [10])).items.map (fun it => it.text.length)
      = [1023, 1] ∧
    (linefields (List.replicate 1024 97)).1.length = 1024 ∧
    (loaded envPlain [97, 0, 98, 10]).items.map fieldsof = [([97], none, none)] ∧
    linefields [97, 0, 98] = ([97, 0, 98], none, none) :=
  ⟨by decide, by decide, by decide, by decide⟩

set_option maxRecDepth 100000 in
/-- C19 (witness): the two lines `apple<TAB>A fruit<TAB>APPLE` and `banana`. -/
theorem readstdin_items_witness :
    (∀ l ∈ linesApple ++ [[]], 0 ∉ l ∧ 10 ∉ l ∧ l.length ≤ 1022) ∧
    ((readstdin envPlain (promptStart envPlain) (filebytes linesApple ++ [])).items.map fieldsof =
      (promptStart envPlain).items.map fieldsof ++
        ((List.range (linesApple.length + 1)).filter
          (itemline envPlain.gflag (linesApple ++ [[]]))).map
          (fun i => linefields ((linesApple ++ [[]]).getD i [])) ∧
    (∀ i, itemline envPlain.gflag (linesApple ++ [[]]) i = true ↔
      ((linesApple ++ [[]]).getD i [] ≠ [] ∧
        groupline envPlain.gflag (linesApple ++ [[]]) i = false ∧
        (linefields ((linesApple ++ [[]]).getD i [])).1 ≠ [])) ∧
    (∀ a b c : List Nat, 9 ∉ a → 9 ∉ b →
      linefields a = (a, none, none) ∧
      linefields (a ++ 9 :: b) = (a, some b, none) ∧
      linefields (a ++ 9 :: (b ++ 9 :: c)) = (a, some b, some c))) :=
  ⟨by decide, readstdin_items envPlain (promptStart envPlain) linesApple [] (by decide)⟩

set_option maxRecDepth 100000 in
/-- C20 (counterexample): with grouping enabled and the two lines `fruit` and
`apple<TAB>A fruit<TAB>APPLE`, neither of which is empty, the first line is taken as a
group name, and the item of the second line belongs to that group. -/
theorem first_line_names_group :
    stdinGroup = filebytes [[102, 114, 117, 105, 116],
      [97, 112, 112, 108, 101, 9, 65, 32, 102, 114, 117, 105, 116, 9, 65, 80, 80, 76, 69]] ∧
    (loaded envGroup stdinGroup).groups.map Group.name = some [102, 114, 117, 105, 116] ∧
    (loaded envGroup stdinGroup).items.map (fun it => (it.text, it.group.map Group.name))
      = [([97, 112, 112, 108, 101], some [102, 114, 117, 105, 116])] :=
  ⟨by decide, by decide, by decide⟩

set_option maxRecDepth 100000 in
/-- C20 (witness): the lines `fruit`, `apple`, an empty line, `tools` and `saw`. -/
theorem readstdin_groups_witness :
    (∀ l ∈ linesGroups ++ [[]], 0 ∉ l ∧ 10 ∉ l ∧ l.length ≤ 1022) ∧
    envGroup.gflag = true ∧
    ((∀ i, groupline envGroup.gflag (linesGroups ++ [[]]) i = true ↔
      ((linesGroups ++ [[]]).getD i [] ≠ [] ∧
        (i = 0 ∨ (linesGroups ++ [[]]).getD (i - 1) [] = []))) ∧
    (readstdin envGroup (promptStart envGroup) (filebytes linesGroups ++ [])).groups
      = grouplist (promptStart envGroup).groups
          (groupnames envGroup.gflag (linesGroups ++ [[]]) (linesGroups.length + 1)) ∧
    (readstdin envGroup (promptStart envGroup) (filebytes linesGroups ++ [])).items.map
        (fun it => it.group) =
      (promptStart envGroup).items.map (fun it => it.group) ++
        ((List.range (linesGroups.length + 1)).filter
          (itemline envGroup.gflag (linesGroups ++ [[]]))).map
          (fun i => grouplist (promptStart envGroup).groups
            (groupnames envGroup.gflag (linesGroups ++ [[]]) i)) ∧
    (∀ prev : Option Group, grouplist prev [] = prev ∧
      ∀ names n, grouplist prev (names ++ [n]) = some (Group.mk (grouplist prev names) n))) :=
  ⟨by decide, rfl,
    readstdin_groups envGroup (promptStart envGroup) linesGroups [] (by decide) rfl⟩

/-! ## Theorems: undo boundary, negative insert, empty filter -/

set_option maxRecDepth 100000 in
/-- C30: after typing `ab` and pressing the end-of-line key, nothing has been undone: the
current entry of the undo list is its newest snapshot, the one of the empty text taken
before the typing.  The redo press then copies that snapshot into the buffer and the text
`ab` is lost.  With no current entry, in the initial state, redo leaves the text alone. -/
theorem redo_loses_text :
    (session envPlain [] [keyInsert [97, 98], keyCtrl Ctrl.CTRLEOL]).map undoview
      = some ([97, 98], 2, [some [], none], some 0) ∧
    (session envPlain [] [keyInsert [97, 98], keyCtrl Ctrl.CTRLEOL,
      keyCtrl Ctrl.CTRLREDO]).map undoview = some ([], 0, [some [], none], some 0) ∧
    (session envPlain [] [keyCtrl Ctrl.CTRLREDO]).map undoview = some ([], 0, [none], none) :=
  ⟨by decide, by decide, by decide⟩

set_option maxRecDepth 100000 in
/-- C22 (counterexample): with the text `abc` and the cursor at position 2, `insert` with
`n = -1` leaves the text `ac` and the cursor at 1: it deletes the byte before the cursor,
where `text[0:cursor] ++ text[cursor+1:]` is `ab`. -/
theorem insert_negative_not_at_cursor :
    (cstr promptAbc.text, promptAbc.cursor) = ([97, 98, 99], 2) ∧
    (cstr (insert promptAbc [] (-1)).text, (insert promptAbc [] (-1)).cursor) = ([97, 99], 1) ∧
    (cstr promptAbc.text).take promptAbc.cursor ++ (cstr promptAbc.text).drop (promptAbc.cursor + 1)
      = [97, 98] :=
  ⟨by decide, by decide, by decide⟩

/-- C22 (amended): for every well-formed buffer state and every `n` with
`n <= cursor`, `insert(NULL, -n)` deletes the `n` bytes that end at the cursor: the
resulting text is `text[0:cursor-n] ++ text[cursor:]`, and cursor and select are
`cursor - n`. -/
theorem insert_negative_deletes_before (p : Prompt) (n : Nat) (hok : BufOK p)
    (hle : n ≤ p.cursor) :
    cstr (insert p [] (-(n : Int))).text
      = (cstr p.text).take (p.cursor - n) ++ (cstr p.text).drop p.cursor ∧
    (insert p [] (-(n : Int))).cursor = p.cursor - n ∧
    (insert p [] (-(n : Int))).select = p.cursor - n := by
  obtain ⟨_, h1, h2, h3, _⟩ := insert_neg_ok p [] n hok hle
  exact ⟨h1, h2, h3⟩

set_option maxRecDepth 100000 in
/-- C22 (witness): one byte deleted in the text `abc` with the cursor at position 2. -/
theorem insert_negative_deletes_before_witness :
    BufOK promptAbc ∧ 1 ≤ promptAbc.cursor ∧
    (cstr (insert promptAbc [] (-((1 : Nat) : Int))).text
      = (cstr promptAbc.text).take (promptAbc.cursor - 1) ++
          (cstr promptAbc.text).drop promptAbc.cursor ∧
    (insert promptAbc [] (-((1 : Nat) : Int))).cursor = promptAbc.cursor - 1 ∧
    (insert promptAbc [] (-((1 : Nat) : Int))).select = promptAbc.cursor - 1) :=
  ⟨⟨by decide, by decide, by decide, by decide⟩, by decide,
    insert_negative_deletes_before promptAbc 1 ⟨by decide, by decide, by decide, by decide⟩
      (by decide)⟩

set_option maxRecDepth 100000 in
/-- C27: with three visible items of the ten items `a` to `j`, rows of height 20 and a
separator of 2, the visible array holds `a`, `b`, `c`; at the vertical offset 82, row
index 3, `getitem` returns the fourth item `d`, the chain entry after the visible window,
and the button press there prints `d`.  At the offsets 81 and 102 it returns the third
item and no item. -/
theorem getitem_past_window :
    (session envThree stdinTen []).map
      (fun p => (p.h, p.separator, p.matchlist, p.nitems, p.itemarray.take p.nitems))
      = some (20, 2, some 0, 3, [some 0, some 1, some 2]) ∧
    (session envThree stdinTen []).bind (fun p => getitem p 82) = some (some 3) ∧
    ((session envThree stdinTen []).bind (fun p => buttonpressItem p 82)).map
      (fun r => (r.1, r.2.stdout)) = some (Press_ret.Enter, [100, 10]) ∧
    (session envThree stdinTen []).bind (fun p => getitem p 81) = some (some 2) ∧
    (session envThree stdinTen []).bind (fun p => getitem p 102) = some none :=
  ⟨by decide, by decide, by decide, by decide, by decide⟩

set_option maxRecDepth 100000 in
/-- C25 (counterexample): with the text `ab` and cursor and select at 2, the select-BOL
press moves the cursor to 0 and leaves select at 2, where the plain BOL press ends with
both at 0; and a plain Left press at cursor 0 returns at once and leaves select at 2. -/
theorem select_variant_moves_cursor :
    (session envPlain [] [keyInsert [97, 98]]).map (fun p => (p.cursor, p.select))
      = some (2, 2) ∧
    (session envPlain [] [keyInsert [97, 98], keyCtrl Ctrl.CTRLSELBOL]).map
      (fun p => (p.cursor, p.select)) = some (0, 2) ∧
    (session envPlain [] [keyInsert [97, 98], keyCtrl Ctrl.CTRLBOL]).map
      (fun p => (p.cursor, p.select)) = some (0, 0) ∧
    (session envPlain [] [keyInsert [97, 98], keyCtrl Ctrl.CTRLSELBOL,
      keyCtrl Ctrl.CTRLLEFT]).map (fun p => (p.cursor, p.select)) = some (0, 2) :=
  ⟨by decide, by decide, by decide, by decide⟩

theorem addundo_curr_of (p : Prompt) (editing : Bool) (hz : ∀ e ∈ p.undo, 0 ∉ e.getD [])
    (oc : Option Nat) (hoc : p.undocurr = oc) :
    (addundo p editing).undocurr =
      if (undobase p).head? = some (some (cstr p.text)) then oc.map (fun _ => 0)
      else if editing = true then some 0 else oc.map (fun _ => 1) := by
  have key : ∀ (p1 : Prompt), p1.undo = undobase p → p1.text = p.text →
      p1.undocurr = oc.map (fun _ => 0) →
      (if (match p1.undo.head? with
          | some (some t) => decide (strcmp t (cstr p1.text) ≠ 0)
          | _ => true) = true then
        { p1 with
          undo := some (cstr p1.text) :: p1.undo
          undocurr := if editing then some 0 else p1.undocurr.map (fun i => i + 1) }
      else p1).undocurr =
      if (undobase p).head? = some (some (cstr p.text)) then oc.map (fun _ => 0)
      else if editing = true then some 0 else oc.map (fun _ => 1) := by
    intro p1 hu ht hc
    have hzb : ∀ e ∈ undobase p, 0 ∉ e.getD [] := by
      intro e he
      apply hz e
      unfold undobase at he
      split at he
      · exact List.mem_of_mem_drop he
      · exact he
    have hmap : Option.map ((fun i => i + 1) ∘ fun _ => 0) oc = Option.map (fun _ => 1) oc := rfl
    rw [hu, ht]
    cases hh : (undobase p).head? with
    | none => cases editing <;> simp [hc, hmap]
    | some e =>
      cases e with
      | none => cases editing <;> simp [hc, hmap]
      | some t =>
        have htz : 0 ∉ t := hzb (some t) (List.mem_of_mem_head? hh)
        have hcmp := strcmp_eq_zero_iff t (cstr p.text) htz (cstr_no_zero _)
        by_cases heq : t = cstr p.text
        · have h0 : strcmp t (cstr p.text) = 0 := hcmp.mpr heq
          subst heq
          simp [h0, hc]
        · have h0 : strcmp t (cstr p.text) ≠ 0 := fun h => heq (hcmp.mp h)
          cases editing <;> simp [h0, heq, hc, hmap]
  unfold addundo
  rw [hoc]
  rcases oc with _ | (_ | i)
  · exact key p (by unfold undobase; rw [hoc]) rfl hoc
  · exact key p (by unfold undobase; rw [hoc]) rfl hoc
  · exact key { p with undo := p.undo.drop (i + 1), undocurr := some 0 }
      (by unfold undobase; rw [hoc]) rfl rfl

/-- The current entry after `addundo`: the pushed snapshot if one is pushed and the
editing flag is set, the entry it was otherwise. -/
theorem addundo_curr (p : Prompt) (editing : Bool) (hz : ∀ e ∈ p.undo, 0 ∉ e.getD []) :
    (addundo p editing).undocurr =
      if (undobase p).head? = some (some (cstr p.text)) then p.undocurr.map (fun _ => 0)
      else if editing = true then some 0 else p.undocurr.map (fun _ => 1) :=
  addundo_curr_of p editing hz p.undocurr rfl

/-- C21: for every undo list of C strings, buffer text and editing flag, `addundo`
(1) drops the entries newer than the current one, if one is set, so that it becomes the
newest; (2) then pushes a snapshot of the text exactly when the newest entry left is not
a snapshot equal to the text (it is the sentinel, or a different text); (3) makes the
pushed snapshot the current entry exactly when one was pushed and the editing flag is
set, and otherwise leaves the current entry where it was, the entries from it on to the
oldest being the same as before. -/
theorem addundo_boundary (p : Prompt) (editing : Bool) (hz : ∀ e ∈ p.undo, 0 ∉ e.getD []) :
    undobase p = p.undo.drop (p.undocurr.getD 0) ∧
    ∃ pushed : Bool,
      (pushed = true ↔ (undobase p).head? ≠ some (some (cstr p.text))) ∧
      (addundo p editing).undo
        = (if pushed = true then [some (cstr p.text)] else []) ++ undobase p ∧
      (addundo p editing).undocurr
        = (if pushed = true ∧ editing = true then some 0
          else p.undocurr.map (fun _ => if pushed = true then 1 else 0)) ∧
      (∀ i j, p.undocurr = some i → (addundo p editing).undocurr = some j →
        ¬ (pushed = true ∧ editing = true) →
        (addundo p editing).undo.drop j = p.undo.drop i) := by
  have hbase : undobase p = p.undo.drop (p.undocurr.getD 0) := by
    unfold undobase
    rcases hc : p.undocurr with _ | (_ | i) <;> simp
  refine ⟨hbase, ?_⟩
  have hu := addundo_undo p editing hz
  have hcur := addundo_curr p editing hz
  by_cases hh : (undobase p).head? = some (some (cstr p.text))
  · rw [if_pos hh] at hu hcur
    refine ⟨false, by simp [hh], by simpa using hu, by simpa using hcur, ?_⟩
    intro i j hi hj _
    rw [hcur, hi] at hj
    simp only [Option.map_some', Option.some.injEq] at hj
    rw [hu, ← hj, hbase, hi]
    simp
  · rw [if_neg hh] at hu hcur
    refine ⟨true, by simp [hh], by simpa using hu, ?_, ?_⟩
    · cases editing <;> simpa using hcur
    · intro i j hi hj hne
      have he : editing = false := by
        cases editing
        · rfl
        · exact absurd ⟨rfl, rfl⟩ hne
      subst he
      rw [hcur, hi] at hj
      simp only [Bool.false_eq_true, if_false, Option.map_some', Option.some.injEq] at hj
      rw [hu, ← hj, hbase, hi]
      simp

set_option maxRecDepth 100000 in
/-- C21 (witness): the undo list after typing `ab`, a delete-char-left press and two undo
presses, with the editing flag set. -/
theorem addundo_boundary_witness :
    (∀ e ∈ promptUndone.undo, 0 ∉ e.getD []) ∧
    (undobase promptUndone = promptUndone.undo.drop (promptUndone.undocurr.getD 0) ∧
    ∃ pushed : Bool,
      (pushed = true ↔ (undobase promptUndone).head? ≠ some (some (cstr promptUndone.text))) ∧
      (addundo promptUndone true).undo
        = (if pushed = true then [some (cstr promptUndone.text)] else []) ++
            undobase promptUndone ∧
      (addundo promptUndone true).undocurr
        = (if pushed = true ∧ true = true then some 0
          else promptUndone.undocurr.map (fun _ => if pushed = true then 1 else 0)) ∧
      (∀ i j, promptUndone.undocurr = some i → (addundo promptUndone true).undocurr = some j →
        ¬ (pushed = true ∧ true = true) →
        (addundo promptUndone true).undo.drop j = promptUndone.undo.drop i)) :=
  ⟨by decide, addundo_boundary promptUndone true (by decide)⟩

theorem fstrncmp_zero_len (env : Env) (a b : List Nat) : fstrncmp env a b 0 = 0 := by
  unfold fstrncmp
  split <;> rfl

/-- With the empty text, `itemmatch` holds at the first byte of an item text that is not
empty. -/
theorem itemmatch_empty (env : Env) (it : Item) (middle : Bool) (hne : it.text ≠ [])
    (hz : 0 ∉ it.text) : itemmatch env it [] 0 middle = true := by
  unfold itemmatch
  cases ht : it.text with
  | nil => exact absurd ht hne
  | cons c t =>
    have hc : c ≠ 0 := fun e => hz (by rw [ht, e]; simp)
    simp only [List.length_cons, itemmatchLoop, deref, List.headD_cons, hc, if_false,
      fstrncmp_zero_len, if_true]

/-- C28: for every catalog whose items have a text that is not empty, and the empty
buffer text, every catalog item passes the first test of `getmatchlist`, none is left
for the second, and the match chain is the whole catalog in catalog order, each item
once. -/
theorem empty_filter_matches_all (env : Env) (p : Prompt)
    (hitems : ∀ it ∈ p.items, it.text ≠ [] ∧ 0 ∉ it.text) (hempty : cstr p.text = [])
    (k : Nat) :
    chainFrom (getmatchlist env p).items (p.items.length + k) (getmatchlist env p).firstmatch
      = List.range p.items.length ∧
    tier1 env p = List.range p.items.length ∧ tier2 env p = [] := by
  have hlen : strlen p.text = 0 := by unfold strlen; rw [hempty]; rfl
  have h1 : ∀ i ∈ List.range p.items.length, testAt p.items (pass1 env p) i = true := by
    intro i hi
    have hlt := List.mem_range.mp hi
    unfold testAt pass1
    rw [List.get?_eq_getElem?, List.getElem?_eq_getElem hlt, hempty, hlen]
    have hm := hitems p.items[i] (List.getElem_mem hlt)
    exact itemmatch_empty env _ false hm.1 hm.2
  have h2 : ∀ i ∈ List.range p.items.length, ¬ testAt p.items (pass2 env p) i = true := by
    intro i hi
    have hlt := List.mem_range.mp hi
    have := h1 i hi
    unfold testAt pass1 at this
    unfold testAt pass2
    rw [List.get?_eq_getElem?, List.getElem?_eq_getElem hlt] at this ⊢
    simp only [] at this ⊢
    rw [this]
    simp
  have ht1 : tier1 env p = List.range p.items.length := by
    unfold tier1
    exact List.filter_eq_self.mpr h1
  have ht2 : tier2 env p = [] := by
    unfold tier2
    exact List.filter_eq_nil_iff.mpr h2
  refine ⟨?_, ht1, ht2⟩
  rw [getmatchlist_chain env p k]
  unfold matchchain
  rw [ht1, ht2, List.append_nil]

set_option maxRecDepth 100000 in
/-- C28 (witness): the ten one-letter items and the empty buffer text. -/
theorem empty_filter_matches_all_witness :
    (∀ it ∈ promptTen.items, it.text ≠ [] ∧ 0 ∉ it.text) ∧ cstr promptTen.text = [] ∧
    (chainFrom (getmatchlist envThree promptTen).items (promptTen.items.length + 0)
        (getmatchlist envThree promptTen).firstmatch
      = List.range promptTen.items.length ∧
    tier1 envThree promptTen = List.range promptTen.items.length ∧
    tier2 envThree promptTen = []) :=
  ⟨by decide, by decide, empty_filter_matches_all envThree promptTen (by decide) (by decide) 0⟩

/-! ## Theorems: movement and selection -/

/-- A key press of an operation that neither edits nor undoes goes to the switch with
the undo list as it is. -/
theorem keypress_plain (env : Env) (p : Prompt) (op : Ctrl) (hu : ISUNDO op = false)
    (he : ISEDITING op = false) (hi : op ≠ Ctrl.INSERT) :
    keypress env p (keyCtrl op) =
      keypressSwitch env { p with prevoperation := op } (keyCtrl op) op := by
  unfold keypress keyCtrl
  simp only [hi, false_and, if_false, hu, he, Bool.false_and, Bool.false_eq_true]

theorem keypressEnd_motion (env : Env) (p : Prompt) (op : Ctrl) (h : ISMOTION op = true) :
    keypressEnd env p op = some (Press_ret.DrawPrompt, { p with select := p.cursor }) := by
  unfold keypressEnd
  rw [if_pos h]

theorem keypressEnd_selection (env : Env) (p : Prompt) (op : Ctrl) (h1 : ISMOTION op = false)
    (h2 : ISSELECTION op = true) : keypressEnd env p op = some (Press_ret.DrawInput, p) := by
  unfold keypressEnd
  rw [h1, if_pos h2]
  simp

theorem keypressSwitch_eol (env : Env) (p : Prompt) (ev : XKeyEvent) (op : Ctrl)
    (h : op = Ctrl.CTRLEOL ∨ op = Ctrl.CTRLSELEOL) :
    keypressSwitch env p ev op =
      keypressEnd env
        (if p.text.getD p.cursor 0 ≠ 0 then { p with cursor := strlen p.text } else p) op := by
  rcases h with h | h <;> subst h <;> rfl

theorem keypressSwitch_left (env : Env) (p : Prompt) (ev : XKeyEvent) (op : Ctrl)
    (h : op = Ctrl.CTRLLEFT ∨ op = Ctrl.CTRLSELLEFT) :
    keypressSwitch env p ev op =
      if p.cursor > 0 then
        keypressEnd env { p with cursor := nextrune p.text p.cursor (-1) } op
      else some (Press_ret.Nop, p) := by
  rcases h with h | h <;> subst h <;> rfl

theorem keypressSwitch_right (env : Env) (p : Prompt) (ev : XKeyEvent) (op : Ctrl)
    (h : op = Ctrl.CTRLRIGHT ∨ op = Ctrl.CTRLSELRIGHT) :
    keypressSwitch env p ev op =
      if p.text.getD p.cursor 0 ≠ 0 then
        keypressEnd env { p with cursor := nextrune p.text p.cursor 1 } op
      else some (Press_ret.Nop, p) := by
  rcases h with h | h <;> subst h <;> rfl

/-- C25 (amended): for every buffer state and each of the six movements, the key press
of the selection variant moves `cursor` to the offset to which the plain movement moves
it and leaves `select` and the text as they were; the key press of the plain movement
ends with `select` equal to `cursor`, unless it returns at once without a change, which
Left does at offset 0 and Right at the end of the text. -/
theorem selection_moves_cursor (env : Env) (p : Prompt) (pr : Ctrl × Ctrl)
    (hpr : pr ∈ motionpairs) :
    ∃ r1 q1 r2 q2,
      keypress env p (keyCtrl pr.1) = some (r1, q1) ∧
      keypress env p (keyCtrl pr.2) = some (r2, q2) ∧
      q2.cursor = q1.cursor ∧ q2.select = p.select ∧ q2.text = p.text ∧ q1.text = p.text ∧
      (r1 = Press_ret.Nop ∨ q1.select = q1.cursor) ∧
      (r1 = Press_ret.Nop →
        q1.cursor = p.cursor ∧ q1.select = p.select ∧
          ((pr.1 = Ctrl.CTRLLEFT ∧ p.cursor = 0) ∨
            (pr.1 = Ctrl.CTRLRIGHT ∧ p.text.getD p.cursor 0 = 0))) := by
  simp only [motionpairs, List.mem_cons, List.mem_singleton, List.not_mem_nil, or_false] at hpr
  rcases hpr with h | h | h | h | h | h <;> subst h <;> dsimp only
  · refine ⟨Press_ret.DrawPrompt, { p with prevoperation := Ctrl.CTRLBOL, cursor := 0, select := 0 },
      Press_ret.DrawInput, { p with prevoperation := Ctrl.CTRLSELBOL, cursor := 0 },
      ?_, ?_, rfl, rfl, rfl, rfl, Or.inr rfl, fun h => by cases h⟩
    · rw [keypress_plain env p _ (by decide) (by decide) (by decide)]
      exact keypressEnd_motion env _ _ (by decide)
    · rw [keypress_plain env p _ (by decide) (by decide) (by decide)]
      exact keypressEnd_selection env _ _ (by decide) (by decide)
  · by_cases hc : p.text.getD p.cursor 0 ≠ 0
    · refine ⟨Press_ret.DrawPrompt,
        { p with prevoperation := Ctrl.CTRLEOL, cursor := strlen p.text, select := strlen p.text },
        Press_ret.DrawInput, { p with prevoperation := Ctrl.CTRLSELEOL, cursor := strlen p.text },
        ?_, ?_, rfl, rfl, rfl, rfl, Or.inr rfl, fun h => by cases h⟩
      · rw [keypress_plain env p _ (by decide) (by decide) (by decide)]
        rw [keypressSwitch_eol env _ _ _ (by simp), if_pos hc]
        exact keypressEnd_motion env _ _ (by decide)
      · rw [keypress_plain env p _ (by decide) (by decide) (by decide)]
        rw [keypressSwitch_eol env _ _ _ (by simp), if_pos hc]
        exact keypressEnd_selection env _ _ (by decide) (by decide)
    · refine ⟨Press_ret.DrawPrompt,
        { p with prevoperation := Ctrl.CTRLEOL, select := p.cursor },
        Press_ret.DrawInput, { p with prevoperation := Ctrl.CTRLSELEOL },
        ?_, ?_, rfl, rfl, rfl, rfl, Or.inr rfl, fun h => by cases h⟩
      · rw [keypress_plain env p _ (by decide) (by decide) (by decide)]
        rw [keypressSwitch_eol env _ _ _ (by simp), if_neg hc]
        exact keypressEnd_motion env _ _ (by decide)
      · rw [keypress_plain env p _ (by decide) (by decide) (by decide)]
        rw [keypressSwitch_eol env _ _ _ (by simp), if_neg hc]
        exact keypressEnd_selection env _ _ (by decide) (by decide)
  · by_cases hc : p.cursor > 0
    · refine ⟨Press_ret.DrawPrompt,
        { p with prevoperation := Ctrl.CTRLLEFT, cursor := nextrune p.text p.cursor (-1)
                 select := nextrune p.text p.cursor (-1) },
        Press_ret.DrawInput,
        { p with prevoperation := Ctrl.CTRLSELLEFT, cursor := nextrune p.text p.cursor (-1) },
        ?_, ?_, rfl, rfl, rfl, rfl, Or.inr rfl, fun h => by cases h⟩
      · rw [keypress_plain env p _ (by decide) (by decide) (by decide)]
        rw [keypressSwitch_left env _ _ _ (by simp), if_pos hc]
        exact keypressEnd_motion env _ _ (by decide)
      · rw [keypress_plain env p _ (by decide) (by decide) (by decide)]
        rw [keypressSwitch_left env _ _ _ (by simp), if_pos hc]
        exact keypressEnd_selection env _ _ (by decide) (by decide)
    · refine ⟨Press_ret.Nop, { p with prevoperation := Ctrl.CTRLLEFT },
        Press_ret.Nop, { p with prevoperation := Ctrl.CTRLSELLEFT },
        ?_, ?_, rfl, rfl, rfl, rfl, Or.inl rfl,
        fun _ => ⟨rfl, rfl, Or.inl ⟨rfl, by omega⟩⟩⟩
      · rw [keypress_plain env p _ (by decide) (by decide) (by decide)]
        rw [keypressSwitch_left env _ _ _ (by simp), if_neg hc]
      · rw [keypress_plain env p _ (by decide) (by decide) (by decide)]
        rw [keypressSwitch_left env _ _ _ (by simp), if_neg hc]
  · by_cases hc : p.text.getD p.cursor 0 ≠ 0
    · refine ⟨Press_ret.DrawPrompt,
        { p with prevoperation := Ctrl.CTRLRIGHT, cursor := nextrune p.text p.cursor 1
                 select := nextrune p.text p.cursor 1 },
        Press_ret.DrawInput,
        { p with prevoperation := Ctrl.CTRLSELRIGHT, cursor := nextrune p.text p.cursor 1 },
        ?_, ?_, rfl, rfl, rfl, rfl, Or.inr rfl, fun h => by cases h⟩
      · rw [keypress_plain env p _ (by decide) (by decide) (by decide)]
        rw [keypressSwitch_right env _ _ _ (by simp), if_pos hc]
        exact keypressEnd_motion env _ _ (by decide)
      · rw [keypress_plain env p _ (by decide) (by decide) (by decide)]
        rw [keypressSwitch_right env _ _ _ (by simp), if_pos hc]
        exact keypressEnd_selection env _ _ (by decide) (by decide)
    · refine ⟨Press_ret.Nop, { p with prevoperation := Ctrl.CTRLRIGHT },
        Press_ret.Nop, { p with prevoperation := Ctrl.CTRLSELRIGHT },
        ?_, ?_, rfl, rfl, rfl, rfl, Or.inl rfl,
        fun _ => ⟨rfl, rfl, Or.inr ⟨rfl, by simpa using hc⟩⟩⟩
      · rw [keypress_plain env p _ (by decide) (by decide) (by decide)]
        rw [keypressSwitch_right env _ _ _ (by simp), if_neg hc]
      · rw [keypress_plain env p _ (by decide) (by decide) (by decide)]
        rw [keypressSwitch_right env _ _ _ (by simp), if_neg hc]
  · refine ⟨Press_ret.DrawPrompt,
      { p with prevoperation := Ctrl.CTRLWLEFT, cursor := movewordedge p.text p.cursor (-1)
               select := movewordedge p.text p.cursor (-1) },
      Press_ret.DrawInput,
      { p with prevoperation := Ctrl.CTRLSELWLEFT, cursor := movewordedge p.text p.cursor (-1) },
      ?_, ?_, rfl, rfl, rfl, rfl, Or.inr rfl, fun h => by cases h⟩
    · rw [keypress_plain env p _ (by decide) (by decide) (by decide)]
      exact keypressEnd_motion env _ _ (by decide)
    · rw [keypress_plain env p _ (by decide) (by decide) (by decide)]
      exact keypressEnd_selection env _ _ (by decide) (by decide)
  · refine ⟨Press_ret.DrawPrompt,
      { p with prevoperation := Ctrl.CTRLWRIGHT, cursor := movewordedge p.text p.cursor 1
               select := movewordedge p.text p.cursor 1 },
      Press_ret.DrawInput,
      { p with prevoperation := Ctrl.CTRLSELWRIGHT, cursor := movewordedge p.text p.cursor 1 },
      ?_, ?_, rfl, rfl, rfl, rfl, Or.inr rfl, fun h => by cases h⟩
    · rw [keypress_plain env p _ (by decide) (by decide) (by decide)]
      exact keypressEnd_motion env _ _ (by decide)
    · rw [keypress_plain env p _ (by decide) (by decide) (by decide)]
      exact keypressEnd_selection env _ _ (by decide) (by decide)

set_option maxRecDepth 100000 in
/-- C25 (witness): the Left movement and its selection variant after typing `ab`. -/
theorem selection_moves_cursor_witness :
    (Ctrl.CTRLLEFT, Ctrl.CTRLSELLEFT) ∈ motionpairs ∧
    ∃ r1 q1 r2 q2,
      keypress envPlain promptAb (keyCtrl (Ctrl.CTRLLEFT, Ctrl.CTRLSELLEFT).1) = some (r1, q1) ∧
      keypress envPlain promptAb (keyCtrl (Ctrl.CTRLLEFT, Ctrl.CTRLSELLEFT).2) = some (r2, q2) ∧
      q2.cursor = q1.cursor ∧ q2.select = promptAb.select ∧ q2.text = promptAb.text ∧
      q1.text = promptAb.text ∧
      (r1 = Press_ret.Nop ∨ q1.select = q1.cursor) ∧
      (r1 = Press_ret.Nop →
        q1.cursor = promptAb.cursor ∧ q1.select = promptAb.select ∧
          (((Ctrl.CTRLLEFT, Ctrl.CTRLSELLEFT).1 = Ctrl.CTRLLEFT ∧ promptAb.cursor = 0) ∨
            ((Ctrl.CTRLLEFT, Ctrl.CTRLSELLEFT).1 = Ctrl.CTRLRIGHT ∧
              promptAb.text.getD promptAb.cursor 0 = 0))) :=
  ⟨by decide, selection_moves_cursor envPlain promptAb (Ctrl.CTRLLEFT, Ctrl.CTRLSELLEFT)
    (by decide)⟩

/-! ## Theorems: pages of the view window -/

theorem posinv_navpos {len cap w : Nat} {s : Option Nat} (hcap : 1 ≤ cap)
    (h : PosInv len cap w s) (d : Int) :
    PosInv len cap (navpos len cap d w s).1 (navpos len cap d w s).2 := by
  obtain ⟨⟨k, hk⟩, hs⟩ := h
  cases s with
  | none =>
    simp only [navpos]
    split
    · rename_i hc
      refine ⟨⟨k, hk⟩, ?_⟩
      intro i hi
      simp only [Option.some.injEq] at hi
      omega
    · exact ⟨⟨k, hk⟩, fun i hi => by simp at hi⟩
  | some i =>
    obtain ⟨hwi, hiw, hil⟩ := hs i rfl
    simp only [navpos]
    by_cases h1 : d > 0 ∧ i + 1 < len
    · rw [if_pos h1]
      by_cases h2 : min cap (i - w) + 1 ≥ cap
      · rw [if_pos h2]
        have hi : i + 1 = w + cap := by omega
        have h3 : w + cap < len := by omega
        rw [if_pos h3]
        refine ⟨⟨k + 1, by rw [hk]; ring⟩, ?_⟩
        intro j hj
        simp only [Option.some.injEq] at hj
        omega
      · rw [if_neg h2]
        refine ⟨⟨k, hk⟩, ?_⟩
        intro j hj
        simp only [Option.some.injEq] at hj
        omega
    · rw [if_neg h1]
      by_cases h2 : d < 0 ∧ 0 < i
      · rw [if_pos h2]
        by_cases h3 : i = w
        · rw [if_pos h3]
          have hkpos : 1 ≤ k := by
            rcases Nat.eq_zero_or_pos k with h0 | h0
            · subst h0; omega
            · exact h0
          have hcw : cap ≤ w := by
            rw [hk]
            exact Nat.le_mul_of_pos_right cap hkpos
          rw [if_pos hcw]
          refine ⟨⟨k - 1, ?_⟩, ?_⟩
          · rw [hk, Nat.mul_sub, Nat.mul_one]
          · intro j hj
            simp only [Option.some.injEq] at hj
            omega
        · rw [if_neg h3]
          refine ⟨⟨k, hk⟩, ?_⟩
          intro j hj
          simp only [Option.some.injEq] at hj
          omega
      · rw [if_neg h2]
        exact ⟨⟨k, hk⟩, hs⟩

theorem posinv_navposseq {len cap : Nat} (hcap : 1 ≤ cap) :
    ∀ (ds : List Int) (w : Nat) (s : Option Nat), PosInv len cap w s →
      PosInv len cap (navposseq len cap ds (w, s)).1 (navposseq len cap ds (w, s)).2 := by
  intro ds
  induction ds with
  | nil => intro w s h; exact h
  | cons d ds ih =>
    intro w s h
    exact ih _ _ (posinv_navpos hcap h d)

/-- The step on positions when the window moves: a whole page forward, to the new
selection, or a whole page backward, the new selection being the position before the old
window. -/
theorem navpos_page {len cap w : Nat} {s : Option Nat}
    (h : PosInv len cap w s) (d : Int) (hne : (navpos len cap d w s).1 ≠ w) :
    (d > 0 → (navpos len cap d w s).1 = w + cap ∧
      (navpos len cap d w s).2 = some (w + cap) ∧ w + cap < len) ∧
    (d < 0 → (navpos len cap d w s).1 + cap = w ∧
      (navpos len cap d w s).2 = some (w - 1) ∧ 1 ≤ w) ∧ d ≠ 0 := by
  obtain ⟨⟨k, hk⟩, hs⟩ := h
  cases s with
  | none =>
    simp only [navpos] at hne
    split at hne <;> exact absurd rfl hne
  | some i =>
    obtain ⟨hwi, hiw, hil⟩ := hs i rfl
    simp only [navpos] at hne ⊢
    by_cases h1 : d > 0 ∧ i + 1 < len
    · rw [if_pos h1] at hne ⊢
      by_cases h2 : min cap (i - w) + 1 ≥ cap
      · rw [if_pos h2] at hne ⊢
        have hi : i + 1 = w + cap := by omega
        have h3 : w + cap < len := by omega
        rw [if_pos h3]
        refine ⟨fun _ => ⟨rfl, by rw [hi], h3⟩, fun hd => by omega, by omega⟩
      · rw [if_neg h2] at hne
        exact absurd rfl hne
    · rw [if_neg h1] at hne ⊢
      by_cases h2 : d < 0 ∧ 0 < i
      · rw [if_pos h2] at hne ⊢
        by_cases h3 : i = w
        · rw [if_pos h3] at hne ⊢
          have hkpos : 1 ≤ k := by
            rcases Nat.eq_zero_or_pos k with h0 | h0
            · subst h0; omega
            · exact h0
          have hcw : cap ≤ w := by
            rw [hk]
            exact Nat.le_mul_of_pos_right cap hkpos
          rw [if_pos hcw]
          refine ⟨fun hd => by omega, fun _ => ⟨by simp only []; omega, by rw [h3], by omega⟩,
            by omega⟩
        · rw [if_neg h3] at hne
          exact absurd rfl hne
      · rw [if_neg h2] at hne
        exact absurd rfl hne

theorem navpos_next_val {len cap w i : Nat} (h : PosInv len cap w (some i))
    (hn : i + 1 < len) (dn : Int) (hdn : dn > 0) :
    navpos len cap dn w (some i) = (if i + 1 = w + cap then w + cap else w, some (i + 1)) := by
  obtain ⟨_, hs⟩ := h
  obtain ⟨hwi, hiw, hil⟩ := hs i rfl
  have h1 : dn > 0 ∧ i + 1 < len := ⟨hdn, hn⟩
  simp only [navpos]
  rw [if_pos h1]
  by_cases hp : min cap (i - w) + 1 ≥ cap
  · have hi : i + 1 = w + cap := by omega
    have h4 : w + cap < len := by omega
    rw [if_pos hp, if_pos h4, if_pos hi]
  · have hi : ¬ (i + 1 = w + cap) := by omega
    rw [if_neg hp, if_neg hi]

theorem navpos_prev_val {len cap w i : Nat} (h : PosInv len cap w (some i))
    (hp : 0 < i) (dp : Int) (hdp : dp < 0) :
    navpos len cap dp w (some i) = (if i = w then w - cap else w, some (i - 1)) ∧
      (i = w → cap ≤ w) := by
  obtain ⟨⟨k, hk⟩, hs⟩ := h
  obtain ⟨hwi, hiw, hil⟩ := hs i rfl
  have h1 : ¬ (dp > 0 ∧ i + 1 < len) := by omega
  have h2 : dp < 0 ∧ 0 < i := ⟨hdp, hp⟩
  have hcw : i = w → cap ≤ w := by
    intro hw
    have hkpos : 1 ≤ k := by
      rcases Nat.eq_zero_or_pos k with h0 | h0
      · subst h0; omega
      · exact h0
    rw [hk]
    exact Nat.le_mul_of_pos_right cap hkpos
  refine ⟨?_, hcw⟩
  simp only [navpos]
  rw [if_neg h1, if_pos h2]
  by_cases hw : i = w
  · rw [if_pos hw, if_pos (hcw hw), if_pos hw]
  · rw [if_neg hw, if_neg hw]

theorem navpos_next_prev {len cap w i : Nat} (hcap : 1 ≤ cap) (h : PosInv len cap w (some i))
    (hn : i + 1 < len) (dn dp : Int) (hdn : dn > 0) (hdp : dp < 0) :
    navpos len cap dp (navpos len cap dn w (some i)).1 (navpos len cap dn w (some i)).2
      = (w, some i) := by
  have h1 := posinv_navpos hcap h dn
  have e := navpos_next_val h hn dn hdn
  rw [e] at h1 ⊢
  obtain ⟨hwi, hiw, hil⟩ := h.2 i rfl
  rw [(navpos_prev_val h1 (by omega) dp hdp).1]
  by_cases hi : i + 1 = w + cap
  · simp only [hi, if_true, Nat.add_sub_cancel]
    have : w + cap - 1 = i := by omega
    rw [this]
  · have h5 : ¬ (i + 1 = w) := by omega
    simp only [hi, if_false, h5, Nat.add_sub_cancel]

theorem navpos_prev_next {len cap w i : Nat} (hcap : 1 ≤ cap) (h : PosInv len cap w (some i))
    (hp : 0 < i) (dn dp : Int) (hdn : dn > 0) (hdp : dp < 0) :
    navpos len cap dn (navpos len cap dp w (some i)).1 (navpos len cap dp w (some i)).2
      = (w, some i) := by
  have h1 := posinv_navpos hcap h dp
  obtain ⟨e, hcw⟩ := navpos_prev_val h hp dp hdp
  rw [e] at h1 ⊢
  obtain ⟨hwi, hiw, hil⟩ := h.2 i rfl
  have hi1 : i - 1 + 1 = i := by omega
  rw [navpos_next_val h1 (by omega) dn hdn, hi1]
  by_cases hw : i = w
  · have := hcw hw
    have h6 : w = w - cap + cap := by omega
    subst hw
    simp only [if_true]
    rw [if_pos h6, ← h6]
  · have h7 : ¬ (i = w + cap) := by omega
    simp only [hw, if_false, h7]

theorem navpos_stay {len cap w i : Nat} (h : PosInv len cap w (some i)) (d : Int)
    (hd : (d > 0 ∧ i + 1 = len) ∨ (d < 0 ∧ i = 0)) :
    navpos len cap d w (some i) = (w, some i) := by
  obtain ⟨_, hs⟩ := h
  obtain ⟨hwi, hiw, hil⟩ := hs i rfl
  have h1 : ¬ (d > 0 ∧ i + 1 < len) := by omega
  have h2 : ¬ (d < 0 ∧ 0 < i) := by omega
  simp only [navpos, h1, h2, if_false]

/-- Two prompts whose visible array is filled from the same position of the same chain
show the same array. -/
theorem filled_take {p q : Prompt} {L : List Nat} {w : Nat} (hp : Filled p L w)
    (hq : Filled q L w) (hm : q.maxitems = p.maxitems) :
    q.nitems = p.nitems ∧ q.itemarray.take q.nitems = p.itemarray.take p.nitems := by
  have hn : q.nitems = p.nitems := by rw [hp.1, hq.1, hm]
  refine ⟨hn, ?_⟩
  apply List.ext_getElem?
  intro j
  rw [List.getElem?_take, List.getElem?_take]
  by_cases hj : j < q.nitems
  · have hj2 : j < p.nitems := by omega
    rw [if_pos hj, if_pos hj2, hq.2 j hj, hp.2 j hj2]
  · have hj2 : ¬ j < p.nitems := by omega
    rw [if_neg hj, if_neg hj2]

/-- The state after a chain rebuild and calls of `navmatchlist`: the calls return, and
the positions of `matchlist` and `selitem` in the chain satisfy the invariants. -/
theorem navseq_reach (env : Env) (p : Prompt) (hcap : 1 ≤ p.maxitems)
    (harr : p.itemarray.length = p.maxitems) (ds : List Int) :
    ∃ q w s, navseq (getmatchlist env p) ds = some q ∧
      NavInv q (matchchain env p) w s ∧ PosInv (matchchain env p).length p.maxitems w s ∧
      q.maxitems = p.maxitems ∧ (s = none ∨ Filled q (matchchain env p) w) := by
  obtain ⟨q, hq, hinv, hmax, _, hf⟩ :=
    navseq_inv ds (getmatchlist env p) (matchchain env p) 0 none
      (getmatchlist_navinv env p hcap harr) (Or.inl rfl)
  have hm : (getmatchlist env p).maxitems = p.maxitems := rfl
  rw [hm] at hinv hf hmax
  refine ⟨q, _, _, hq, hinv, ?_, hmax, hf⟩
  have h0 : PosInv (matchchain env p).length p.maxitems 0 none :=
    ⟨Nat.dvd_zero _, fun i hi => by simp at hi⟩
  exact posinv_navposseq hcap ds 0 none h0

/-- One call of `navmatchlist` under the invariants: it returns, and the new state
satisfies the invariants at the positions that `navpos` gives. -/
theorem navmatchlist_reach {q : Prompt} {L : List Nat} {w : Nat} {s : Option Nat}
    (h : NavInv q L w s) (hp : PosInv L.length q.maxitems w s) (d : Int) :
    ∃ q1, navmatchlist q d = some q1 ∧
      NavInv q1 L (navpos L.length q.maxitems d w s).1 (navpos L.length q.maxitems d w s).2 ∧
      PosInv L.length q.maxitems (navpos L.length q.maxitems d w s).1
        (navpos L.length q.maxitems d w s).2 ∧
      q1.maxitems = q.maxitems ∧ Filled q1 L (navpos L.length q.maxitems d w s).1 := by
  obtain ⟨q1, hq1, hinv, hqe, hfill⟩ := navmatchlist_inv h d
  have hmax : q1.maxitems = q.maxitems := by rw [hqe]; rfl
  have hnit : q1.nitems = min q.maxitems (L.length - (navpos L.length q.maxitems d w s).1) := by
    rw [hqe]
  refine ⟨q1, hq1, hinv, posinv_navpos h.cap hp d, hmax, ?_, ?_⟩
  · rw [hnit, hmax]
  · intro j hj
    rw [hnit] at hj
    exact hfill j hj

theorem getElem?_inj_of_nodup {L : List Nat} (hnd : L.Nodup) {a b : Nat} (ha : a < L.length)
    (hb : b < L.length) (h : L[a]? = L[b]?) : a = b := by
  rw [List.getElem?_eq_getElem ha, List.getElem?_eq_getElem hb] at h
  exact (List.Nodup.getElem_inj_iff hnd).mp (Option.some.inj h)

/-- C26: in every state reached from a chain rebuild by calls of `navmatchlist`, with a
capacity of at least 1, the next call returns, and if it changes `matchlist` then either
its direction is next and the new `matchlist` is the chain entry `maxitems` positions
after the old one, which is the newly selected item, or its direction is previous, the
new `matchlist` is the chain entry `maxitems` positions before the old one, and the newly
selected item is the entry just before the old `matchlist`. -/
theorem window_moves_by_pages (env : Env) (p : Prompt) (hcap : 1 ≤ p.maxitems)
    (harr : p.itemarray.length = p.maxitems) (ds : List Int) (d : Int) :
    ∃ (q0 q1 : Prompt) (w : Nat) (s : Option Nat) (w1 : Nat) (s1 : Option Nat),
      navseq (getmatchlist env p) ds = some q0 ∧ navmatchlist q0 d = some q1 ∧
      q0.matchlist = (matchchain env p)[w]? ∧
      q0.selitem = s.bind (fun i => (matchchain env p)[i]?) ∧
      q1.matchlist = (matchchain env p)[w1]? ∧
      q1.selitem = s1.bind (fun i => (matchchain env p)[i]?) ∧
      (q1.matchlist ≠ q0.matchlist →
        (d > 0 → w1 = w + p.maxitems ∧ s1 = some w1 ∧ w1 < (matchchain env p).length) ∧
        (d < 0 → w1 + p.maxitems = w ∧ s1 = some (w - 1) ∧ 1 ≤ w) ∧ d ≠ 0) := by
  obtain ⟨q0, w, s, hq0, hinv, hpos, hmax, _⟩ := navseq_reach env p hcap harr ds
  rw [← hmax] at hpos
  obtain ⟨q1, hq1, hinv1, _, _, _⟩ := navmatchlist_reach hinv hpos d
  refine ⟨q0, q1, w, s, _, _, hq0, hq1, hinv.win, hinv.sel, hinv1.win, hinv1.sel, ?_⟩
  intro hne
  have hw : (navpos (matchchain env p).length q0.maxitems d w s).1 ≠ w := by
    intro h
    apply hne
    rw [hinv1.win, hinv.win, h]
  obtain ⟨h1, h2, h3⟩ := navpos_page hpos d hw
  rw [hmax] at h1 h2
  rw [hmax]
  refine ⟨fun hd => ?_, h2, h3⟩
  obtain ⟨e1, e2, e3⟩ := h1 hd
  exact ⟨e1, by rw [e2, e1], by rw [e1]; exact e3⟩

set_option maxRecDepth 100000 in
/-- C26 (witness): the fourth call with direction next over ten items, three of them
visible. -/
theorem window_moves_by_pages_witness :
    1 ≤ promptTen.maxitems ∧ promptTen.itemarray.length = promptTen.maxitems ∧
    ∃ (q0 q1 : Prompt) (w : Nat) (s : Option Nat) (w1 : Nat) (s1 : Option Nat),
      navseq (getmatchlist envThree promptTen) [1, 1, 1] = some q0 ∧
      navmatchlist q0 1 = some q1 ∧
      q0.matchlist = (matchchain envThree promptTen)[w]? ∧
      q0.selitem = s.bind (fun i => (matchchain envThree promptTen)[i]?) ∧
      q1.matchlist = (matchchain envThree promptTen)[w1]? ∧
      q1.selitem = s1.bind (fun i => (matchchain envThree promptTen)[i]?) ∧
      (q1.matchlist ≠ q0.matchlist →
        ((1 : Int) > 0 → w1 = w + promptTen.maxitems ∧ s1 = some w1 ∧
          w1 < (matchchain envThree promptTen).length) ∧
        ((1 : Int) < 0 → w1 + promptTen.maxitems = w ∧ s1 = some (w - 1) ∧ 1 ≤ w) ∧
        (1 : Int) ≠ 0) :=
  ⟨by decide, by decide,
    window_moves_by_pages envThree promptTen (by decide) (by decide) [1, 1, 1] 1⟩

theorem sameview_of {q0 q : Prompt} {L : List Nat} {w : Nat} {s : Option Nat}
    (h0 : NavInv q0 L w s) (hf0 : Filled q0 L w) (h : NavInv q L w s) (hf : Filled q L w)
    (hm : q.maxitems = q0.maxitems) : SameView q0 q := by
  obtain ⟨hn, ht⟩ := filled_take hf0 hf hm
  exact ⟨by rw [h.sel, h0.sel], by rw [h.win, h0.win], hn, ht⟩

/-- C29: in every state reached from a chain rebuild by calls of `navmatchlist`, with a
capacity of at least 1, in which an item is selected: if the item has a successor in the
chain, a call with direction next followed by a call with direction previous returns to
the same selected item, the same `matchlist` and the same visible array
`itemarray[0..nitems)`; if it has a predecessor, so does previous followed by next; and
next at the last chain entry, like previous at the first, leaves the three as they are. -/
theorem next_previous_round_trip (env : Env) (p : Prompt) (hcap : 1 ≤ p.maxitems)
    (harr : p.itemarray.length = p.maxitems) (ds : List Int) (dn dp : Int) (hdn : dn > 0)
    (hdp : dp < 0) :
    ∃ q0, navseq (getmatchlist env p) ds = some q0 ∧
      ∀ a, q0.selitem = some a →
        (nextof q0.items a ≠ none →
          ∃ q1 q2, navmatchlist q0 dn = some q1 ∧ navmatchlist q1 dp = some q2 ∧
            SameView q0 q2) ∧
        (prevof q0.items a ≠ none →
          ∃ q1 q2, navmatchlist q0 dp = some q1 ∧ navmatchlist q1 dn = some q2 ∧
            SameView q0 q2) ∧
        (nextof q0.items a = none → ∃ q1, navmatchlist q0 dn = some q1 ∧ SameView q0 q1) ∧
        (prevof q0.items a = none → ∃ q1, navmatchlist q0 dp = some q1 ∧ SameView q0 q1) := by
  obtain ⟨q0, w, s, hq0, hinv, hpos, hmax, hf⟩ := navseq_reach env p hcap harr ds
  rw [← hmax] at hpos
  refine ⟨q0, hq0, ?_⟩
  intro a ha
  cases s with
  | none =>
    have := hinv.sel
    rw [ha] at this
    simp at this
  | some i =>
    have hf0 : Filled q0 (matchchain env p) w := by
      rcases hf with hf | hf
      · simp at hf
      · exact hf
    obtain ⟨hwi, hiw, hil⟩ := hinv.selwin i rfl
    have hsel := hinv.sel
    simp only [Option.some_bind, ha] at hsel
    have hnext : nextof q0.items a = (matchchain env p)[i + 1]? :=
      nextof_chain hinv.linked hinv.closed hsel.symm
    have hprev : prevof q0.items a = if i = 0 then none else (matchchain env p)[i - 1]? :=
      prevof_chain_pos hinv.linked hsel.symm
    have hcap0 : 1 ≤ q0.maxitems := hinv.cap
    refine ⟨?_, ?_, ?_, ?_⟩
    · intro hne
      have hn : i + 1 < (matchchain env p).length := by
        by_contra hcon
        apply hne
        rw [hnext]
        exact List.getElem?_eq_none_iff.mpr (by omega)
      obtain ⟨q1, hq1, hinv1, hpos1, hmax1, _⟩ := navmatchlist_reach hinv hpos dn
      rw [← hmax1] at hpos1 hinv1
      obtain ⟨q2, hq2, hinv2, _, hmax2, hf2⟩ := navmatchlist_reach hinv1 hpos1 dp
      rw [hmax1, navpos_next_prev hcap0 hpos hn dn dp hdn hdp] at hinv2 hf2
      exact ⟨q1, q2, hq1, hq2, sameview_of hinv hf0 hinv2 hf2 (by rw [hmax2, hmax1])⟩
    · intro hne
      have hp : 0 < i := by
        by_contra hcon
        apply hne
        rw [hprev, if_pos (by omega)]
      obtain ⟨q1, hq1, hinv1, hpos1, hmax1, _⟩ := navmatchlist_reach hinv hpos dp
      rw [← hmax1] at hpos1 hinv1
      obtain ⟨q2, hq2, hinv2, _, hmax2, hf2⟩ := navmatchlist_reach hinv1 hpos1 dn
      rw [hmax1, navpos_prev_next hcap0 hpos hp dn dp hdn hdp] at hinv2 hf2
      exact ⟨q1, q2, hq1, hq2, sameview_of hinv hf0 hinv2 hf2 (by rw [hmax2, hmax1])⟩
    · intro he
      have hn : i + 1 = (matchchain env p).length := by
        rw [hnext] at he
        have := List.getElem?_eq_none_iff.mp he
        omega
      obtain ⟨q1, hq1, hinv1, _, hmax1, hf1⟩ := navmatchlist_reach hinv hpos dn
      rw [navpos_stay hpos dn (Or.inl ⟨hdn, hn⟩)] at hinv1 hf1
      exact ⟨q1, hq1, sameview_of hinv hf0 hinv1 hf1 hmax1⟩
    · intro he
      have hi0 : i = 0 := by
        by_contra hcon
        rw [hprev, if_neg hcon] at he
        have := List.getElem?_eq_none_iff.mp he
        omega
      obtain ⟨q1, hq1, hinv1, _, hmax1, hf1⟩ := navmatchlist_reach hinv hpos dp
      rw [navpos_stay hpos dp (Or.inr ⟨hdp, hi0⟩)] at hinv1 hf1
      exact ⟨q1, hq1, sameview_of hinv hf0 hinv1 hf1 hmax1⟩

set_option maxRecDepth 100000 in
/-- C29 (witness): after three calls with direction next over ten items, three of them
visible. -/
theorem next_previous_round_trip_witness :
    1 ≤ promptTen.maxitems ∧ promptTen.itemarray.length = promptTen.maxitems ∧
    (1 : Int) > 0 ∧ (-1 : Int) < 0 ∧
    ∃ q0, navseq (getmatchlist envThree promptTen) [1, 1, 1] = some q0 ∧
      ∀ a, q0.selitem = some a →
        (nextof q0.items a ≠ none →
          ∃ q1 q2, navmatchlist q0 1 = some q1 ∧ navmatchlist q1 (-1) = some q2 ∧
            SameView q0 q2) ∧
        (prevof q0.items a ≠ none →
          ∃ q1 q2, navmatchlist q0 (-1) = some q1 ∧ navmatchlist q1 1 = some q2 ∧
            SameView q0 q2) ∧
        (nextof q0.items a = none → ∃ q1, navmatchlist q0 1 = some q1 ∧ SameView q0 q1) ∧
        (prevof q0.items a = none → ∃ q1, navmatchlist q0 (-1) = some q1 ∧ SameView q0 q1) :=
  ⟨by decide, by decide, by decide, by decide,
    next_previous_round_trip envThree promptTen (by decide) (by decide) [1, 1, 1] 1 (-1)
      (by decide) (by decide)⟩

/-! ## Theorems: runes and words -/

theorem iscont_iff (c : Nat) : iscont c = true ↔ c &&& 0xc0 = 0x80 := by
  unfold iscont
  simp

theorem contrun_step (text : List Nat) (n : Nat) :
    contrun text n = if iscont (text.getD n 0) = true then contrun text (n + 1) + 1 else 0 := by
  unfold contrun
  by_cases hn : n < text.length
  · rw [List.drop_eq_getElem_cons hn, List.takeWhile_cons]
    have hg : text.getD n 0 = text[n] := by
      rw [List.getD_eq_getElem?_getD, List.getElem?_eq_getElem hn]
      rfl
    rw [hg]
    split <;> simp
  · have hl : text.length ≤ n := by omega
    have hg : text.getD n 0 = 0 := by
      rw [List.getD_eq_getElem?_getD, List.getElem?_eq_none_iff.mpr hl]
      rfl
    rw [List.drop_eq_nil_of_le hl, hg]
    rfl

theorem contrun_le (text : List Nat) (n : Nat) : contrun text n ≤ text.length - n := by
  unfold contrun
  have := (List.takeWhile_sublist iscont (l := text.drop n)).length_le
  rw [List.length_drop] at this
  exact this

theorem contrun_cont (text : List Nat) : ∀ (m n : Nat), contrun text n = m →
    ∀ k, n ≤ k → k < n + m → iscont (text.getD k 0) = true := by
  intro m
  induction m with
  | zero => intro n _ k h1 h2; omega
  | succ m ih =>
    intro n hm k h1 h2
    rw [contrun_step] at hm
    by_cases hc : iscont (text.getD n 0) = true
    · rw [if_pos hc] at hm
      rcases Nat.eq_or_lt_of_le h1 with h | h
      · rw [← h]; exact hc
      · exact ih (n + 1) (by omega) k (by omega) (by omega)
    · rw [if_neg hc] at hm
      omega

/-- The loop of `nextrune` forward: it skips the continuation bytes. -/
theorem nextruneLoop_forward (text : List Nat) : ∀ (fuel n : Nat), contrun text n < fuel →
    nextruneLoop text 1 fuel (n : Int) = ((n + contrun text n : Nat) : Int) := by
  intro fuel
  induction fuel with
  | zero => intro n h; omega
  | succ fuel ih =>
    intro n h
    rw [contrun_step] at h ⊢
    unfold nextruneLoop
    have h0 : (n : Int) + 1 ≥ 0 := by omega
    by_cases hc : iscont (text.getD n 0) = true
    · rw [if_pos hc] at h ⊢
      have hc2 := (iscont_iff _).mp hc
      have hcond : (n : Int) + 1 ≥ 0 ∧ text.getD (n : Int).toNat 0 &&& 0xc0 = 0x80 := by
        rw [Int.toNat_ofNat]
        exact ⟨h0, hc2⟩
      rw [if_pos hcond]
      have := ih (n + 1) (by omega)
      rw [show ((n : Int) + 1) = ((n + 1 : Nat) : Int) by push_cast; rfl, this]
      congr 1
      omega
    · rw [if_neg hc]
      have hcond : ¬ ((n : Int) + 1 ≥ 0 ∧ text.getD (n : Int).toNat 0 &&& 0xc0 = 0x80) := by
        rw [Int.toNat_ofNat]
        intro h1
        exact hc ((iscont_iff _).mpr h1.2)
      rw [if_neg hcond]
      simp

/-- The loop of `nextrune` backward stops at `a` when the bytes after `a` up to the
start are continuation bytes and the byte at `a` is not one, or `a` is 0. -/
theorem nextruneLoop_backward (text : List Nat) (a : Nat)
    (ha : a = 0 ∨ iscont (text.getD a 0) = false) :
    ∀ (fuel n : Nat), a ≤ n → (∀ k, a < k → k ≤ n → iscont (text.getD k 0) = true) →
      n - a < fuel → nextruneLoop text (-1) fuel (n : Int) = (a : Int) := by
  intro fuel
  induction fuel with
  | zero => intro n _ _ h; omega
  | succ fuel ih =>
    intro n han hk hf
    unfold nextruneLoop
    rcases Nat.eq_or_lt_of_le han with h | h
    · subst h
      have hcond : ¬ ((a : Int) + (-1) ≥ 0 ∧ text.getD (a : Int).toNat 0 &&& 0xc0 = 0x80) := by
        rw [Int.toNat_ofNat]
        intro h1
        rcases ha with ha | ha
        · subst ha
          have := h1.1
          omega
        · have := (iscont_iff _).mpr h1.2
          rw [ha] at this
          exact absurd this (by decide)
      rw [if_neg hcond]
    · have hcond : (n : Int) + (-1) ≥ 0 ∧ text.getD (n : Int).toNat 0 &&& 0xc0 = 0x80 := by
        rw [Int.toNat_ofNat]
        exact ⟨by omega, (iscont_iff _).mp (hk n h (Nat.le_refl _))⟩
      rw [if_pos hcond]
      have := ih (n - 1) (by omega) (fun k h1 h2 => hk k h1 (by omega)) (by omega)
      rw [show ((n : Int) + (-1)) = ((n - 1 : Nat) : Int) by omega, this]

/-- The loop of `nextrune` backward stays at or below its start. -/
theorem nextruneLoop_back_le (text : List Nat) : ∀ (fuel n : Nat),
    ∃ r : Nat, nextruneLoop text (-1) fuel (n : Int) = (r : Int) ∧ r ≤ n := by
  intro fuel
  induction fuel with
  | zero => intro n; exact ⟨n, rfl, Nat.le_refl _⟩
  | succ fuel ih =>
    intro n
    unfold nextruneLoop
    split
    · rename_i hc
      obtain ⟨r, hr, hle⟩ := ih (n - 1)
      refine ⟨r, ?_, by omega⟩
      rw [show ((n : Int) + (-1)) = ((n - 1 : Nat) : Int) by omega, hr]
    · exact ⟨n, rfl, Nat.le_refl _⟩

/-- The loop of `nextrune` backward reads only the bytes at or below its start. -/
theorem nextruneLoop_back_congr (t1 t2 : List Nat) : ∀ (fuel n : Nat),
    (∀ k, k ≤ n → t1.getD k 0 = t2.getD k 0) →
    nextruneLoop t1 (-1) fuel (n : Int) = nextruneLoop t2 (-1) fuel (n : Int) := by
  intro fuel
  induction fuel with
  | zero => intro n _; rfl
  | succ fuel ih =>
    intro n h
    unfold nextruneLoop
    rw [Int.toNat_ofNat, h n (Nat.le_refl _)]
    split
    · rename_i hc
      rw [show ((n : Int) + (-1)) = ((n - 1 : Nat) : Int) by omega]
      exact ih (n - 1) (fun k hk => h k (by omega))
    · rfl

theorem nextrune_back_eq (text : List Nat) (pos : Nat) (hpos : 1 ≤ pos) (hlt : pos < 2 ^ 64) :
    ∃ r : Nat, nextruneLoop text (-1) (text.length + 1) ((pos - 1 : Nat) : Int) = (r : Int) ∧
      nextrune text pos (-1) = r ∧ r < pos := by
  obtain ⟨r, hr, hle⟩ := nextruneLoop_back_le text (text.length + 1) (pos - 1)
  refine ⟨r, hr, ?_, by omega⟩
  unfold nextrune
  rw [show ((pos : Int) + (-1)) = ((pos - 1 : Nat) : Int) by omega, hr]
  have h64 : (2 : Int) ^ 64 = ((2 ^ 64 : Nat) : Int) := by norm_num
  rw [Int.emod_eq_of_lt (by omega) (by rw [h64]; omega)]
  simp

/-- Backward, `nextrune` returns a position before its start. -/
theorem nextrune_back_lt (text : List Nat) (pos : Nat) (hpos : 1 ≤ pos) (hlt : pos < 2 ^ 64) :
    nextrune text pos (-1) < pos := by
  obtain ⟨r, _, h, hr⟩ := nextrune_back_eq text pos hpos hlt
  rw [h]; exact hr

/-- Backward, `nextrune` reads only the bytes before its start. -/
theorem nextrune_back_congr (t1 t2 : List Nat) (pos : Nat) (hpos : 1 ≤ pos)
    (hlt : pos < 2 ^ 64) (hlen : t1.length = t2.length)
    (h : ∀ k, k < pos → t1.getD k 0 = t2.getD k 0) :
    nextrune t1 pos (-1) = nextrune t2 pos (-1) := by
  obtain ⟨r1, hr1, e1, _⟩ := nextrune_back_eq t1 pos hpos hlt
  obtain ⟨r2, hr2, e2, _⟩ := nextrune_back_eq t2 pos hpos hlt
  rw [e1, e2]
  have := nextruneLoop_back_congr t1 t2 (t1.length + 1) (pos - 1) (fun k hk => h k (by omega))
  rw [hr1, hlen, hr2] at this
  exact Int.ofNat.inj this

theorem nextrune_forward (text : List Nat) (pos : Nat) (hlen : text.length < 2 ^ 63)
    (hpos : pos ≤ text.length) :
    nextrune text pos 1 = pos + 1 + contrun text (pos + 1) := by
  have hle := contrun_le text (pos + 1)
  unfold nextrune
  rw [show ((pos : Int) + 1) = ((pos + 1 : Nat) : Int) by push_cast; rfl,
    nextruneLoop_forward text (text.length + 1) (pos + 1) (by omega)]
  have h64 : (2 : Int) ^ 64 = ((2 ^ 64 : Nat) : Int) := by norm_num
  have h63 : (2 : Nat) ^ 63 < 2 ^ 64 := by norm_num
  rw [Int.emod_eq_of_lt (by omega) (by rw [h64]; omega), Int.toNat_ofNat]

theorem takeWhile_append_stop {α : Type} (f : α → Bool) (b : α) (hb : f b = false) :
    ∀ (A R : List α), (A ++ b :: R).takeWhile f = A.takeWhile f := by
  intro A R
  induction A with
  | nil => simp [List.takeWhile_cons, hb]
  | cons x t ih =>
    simp only [List.cons_append, List.takeWhile_cons]
    split
    · rw [ih]
    · rfl

/-- The bytes of the array before the NUL are those of the C string. -/
theorem getD_cstr (buf : List Nat) (k : Nat) (hk : k < strlen buf) :
    buf.getD k 0 = (cstr buf).getD k 0 ∧ buf.getD k 0 ≠ 0 := by
  have hcl : (cstr buf).length = strlen buf := rfl
  have ht := cstr_take_le buf (k + 1) (by omega)
  have h1 : (buf.take (k + 1))[k]? = buf[k]? := by
    rw [List.getElem?_take]; simp
  have h2 : ((cstr buf).take (k + 1))[k]? = (cstr buf)[k]? := by
    rw [List.getElem?_take]; simp
  have h3 : buf[k]? = (cstr buf)[k]? := by rw [← h1, ht, h2]
  have h4 : (cstr buf)[k]? = some (cstr buf)[k] := List.getElem?_eq_getElem (by omega)
  constructor
  · rw [List.getD_eq_getElem?_getD, List.getD_eq_getElem?_getD, h3]
  · rw [List.getD_eq_getElem?_getD, h3, h4]
    intro h0
    simp only [Option.getD_some] at h0
    exact cstr_no_zero buf (h0 ▸ List.getElem_mem _)

theorem contrun_cstr (buf : List Nat) (n : Nat) (hn : n ≤ strlen buf)
    (h : strlen buf < buf.length) : contrun buf n = contrun (cstr buf) n := by
  unfold contrun
  rw [cstr_drop_le buf n hn h, takeWhile_append_stop iscont 0 (by decide)]

theorem contrun_strlen (buf : List Nat) (n : Nat) (hn : n ≤ strlen buf)
    (h : strlen buf < buf.length) : n + contrun buf n ≤ strlen buf := by
  rw [contrun_cstr buf n hn h]
  have := contrun_le (cstr buf) n
  have hcl : (cstr buf).length = strlen buf := rfl
  omega

theorem addundo_samebuf (p : Prompt) (editing : Bool) : SameBuf p (addundo p editing) := by
  rw [addundo_eq]
  exact ⟨rfl, rfl, rfl, rfl⟩

theorem samebuf_trans {p q r : Prompt} (h1 : SameBuf p q) (h2 : SameBuf q r) : SameBuf p r :=
  ⟨h2.1.trans h1.1, h2.2.1.trans h1.2.1, h2.2.2.1.trans h1.2.2.1, h2.2.2.2.trans h1.2.2.2⟩

/-- After an operation that is no movement, the end of `keypress` returns and leaves the
buffer alone. -/
theorem keypressEnd_samebuf (env : Env) (p : Prompt) (op : Ctrl) (h1 : ISMOTION op = false)
    (h2 : ISSELECTION op = false) :
    ∃ r q, keypressEnd env p op = some (r, q) ∧ SameBuf p q := by
  unfold keypressEnd
  rw [h1, h2]
  simp only [Bool.false_eq_true, if_false]
  split
  · split
    · obtain ⟨q, hq, he⟩ := navmatchlist_rebuild env (getfilelist env p)
      refine ⟨Press_ret.DrawPrompt, q, by simp only [hq, Option.map_some'], ?_⟩
      have e1 : q.text = p.text := by rw [he]; rfl
      have e2 : q.textsize = p.textsize := by rw [he]; rfl
      have e3 : q.cursor = p.cursor := by rw [he]; rfl
      have e4 : q.select = p.select := by rw [he]; rfl
      exact ⟨e1, e2, e3, e4⟩
    · obtain ⟨q, hq, he⟩ := navmatchlist_rebuild env p
      refine ⟨Press_ret.DrawPrompt, q, by simp only [hq, Option.map_some'], ?_⟩
      have e1 : q.text = p.text := by rw [he]
      have e2 : q.textsize = p.textsize := by rw [he]
      have e3 : q.cursor = p.cursor := by rw [he]
      have e4 : q.select = p.select := by rw [he]
      exact ⟨e1, e2, e3, e4⟩
  · exact ⟨_, _, rfl, rfl, rfl, rfl, rfl⟩

/-- A key press of an editing operation other than the insertion: `addundo` is called if
the previous operation was another one, and then comes the switch. -/
theorem keypress_editing (env : Env) (p : Prompt) (ev : XKeyEvent) (op : Ctrl)
    (hev : ev.operation = op)
    (hst : ev.status = Status.XLookupKeySym ∨ ev.status = Status.XLookupBoth)
    (hu : ISUNDO op = false) (he : ISEDITING op = true) (hi : op ≠ Ctrl.INSERT) :
    ∃ p1, SameBuf p p1 ∧ keypress env p ev = keypressSwitch env p1 ev op := by
  refine ⟨{ (if p.prevoperation = op then p else addundo p true) with prevoperation := op },
    ?_, ?_⟩
  · split
    · exact ⟨rfl, rfl, rfl, rfl⟩
    · exact addundo_samebuf p true
  · unfold keypress
    rcases hst with hst | hst <;>
    · rw [hst]
      simp only [hev, hi, false_and, if_false, hu, he, Bool.false_and, Bool.true_and,
        Bool.false_eq_true]
      by_cases hprev : p.prevoperation = op
      · simp [hprev]
      · have hne : (op != p.prevoperation) = true := by
          simp only [bne_iff_ne, ne_eq]
          exact fun h => hprev h.symm
        simp [hprev, hne]

/-- C23: for every well-formed buffer state with nothing selected, the cursor before the
end of the text and on a byte that is no continuation byte, the delete-char-right key
press returns, removes the byte at the cursor and the continuation bytes that follow it,
up to the next byte that is none or to the end of the text, leaves every other byte in
place and leaves the cursor (and select) at its offset. -/
theorem delete_char_right (env : Env) (p : Prompt) (ev : XKeyEvent) (hok : BufOK p)
    (hsel : p.select = p.cursor) (hlt : p.cursor < strlen p.text)
    (hb : iscont (p.text.getD p.cursor 0) = false)
    (hev : ev.operation = Ctrl.CTRLDELRIGHT)
    (hst : ev.status = Status.XLookupKeySym ∨ ev.status = Status.XLookupBoth) :
    ∃ r q, keypress env p ev = some (r, q) ∧
      cstr q.text = (cstr p.text).take p.cursor ++
        (cstr p.text).drop (p.cursor + 1 + contrun (cstr p.text) (p.cursor + 1)) ∧
      q.cursor = p.cursor ∧ q.select = p.cursor := by
  obtain ⟨p1, ⟨ht, hz, hc, hs⟩, hk⟩ := keypress_editing env p ev Ctrl.CTRLDELRIGHT hev hst
    (by decide) (by decide) (by decide)
  have hok1 : BufOK p1 := bufok_congr ht hz hc hok
  obtain ⟨hsize, hnul, hsmall, hcur⟩ := hok1
  rw [ht, hz] at hsize hnul
  rw [hz] at hsmall
  have hcs : ¬ (p1.cursor ≠ p1.select) := by rw [hc, hs, hsel]; simp
  have hnz : ¬ (Ctrl.CTRLDELRIGHT = Ctrl.CTRLDELRIGHT ∧ p1.text.getD p1.cursor 0 = 0) := by
    rw [ht, hc]
    intro h
    exact (getD_cstr p.text p.cursor hlt).2 h.2
  have hfw : nextrune p.text p.cursor 1 = p.cursor + 1 + contrun p.text (p.cursor + 1) :=
    nextrune_forward p.text p.cursor (by omega) (by omega)
  have hrun := contrun_strlen p.text (p.cursor + 1) (by omega) (by omega)
  have hrc := contrun_cstr p.text (p.cursor + 1) (by omega) (by omega)
  generalize hm : contrun p.text (p.cursor + 1) = m at hfw hrun hrc
  have hbw : nextrune p.text (p.cursor + 1 + m) (-1) = p.cursor := by
    obtain ⟨r, hr, e, _⟩ := nextrune_back_eq p.text (p.cursor + 1 + m) (by omega)
      (by have : (2 : Nat) ^ 63 < 2 ^ 64 := by norm_num
          omega)
    rw [e]
    have := nextruneLoop_backward p.text p.cursor (Or.inr hb) (p.text.length + 1)
      (p.cursor + 1 + m - 1) (by omega)
      (fun k h1 h2 => contrun_cont p.text m (p.cursor + 1) hm k (by omega) (by omega))
      (by omega)
    rw [hr] at this
    exact Int.ofNat.inj this
  have hbranch : keypressSwitch env p1 ev Ctrl.CTRLDELRIGHT =
      keypressEnd env
        (insert { p1 with cursor := p.cursor + 1 + m } []
          (-((m + 1 : Nat) : Int))) Ctrl.CTRLDELRIGHT := by
    show (if p1.cursor ≠ p1.select then _ else _) = _
    rw [if_neg hcs, if_neg hnz]
    simp only [if_true]
    rw [ht, hc, hfw]
    have h0 : ¬ (p.cursor + 1 + m = 0) := by omega
    rw [if_neg h0, hbw]
    congr 2
    push_cast
    omega
  have hok2 : BufOK { p1 with cursor := p.cursor + 1 + m } :=
    ⟨by show p1.text.length = p1.textsize; rw [ht, hz]; exact hsize,
      by show strlen p1.text < p1.textsize; rw [ht, hz]; exact hnul,
      by show p1.textsize < 2 ^ 63; rw [hz]; exact hsmall,
      by show p.cursor + 1 + m ≤ strlen p1.text; rw [ht]; omega⟩
  obtain ⟨_, hi1, hi2, hi3, _⟩ :=
    insert_neg_ok { p1 with cursor := p.cursor + 1 + m } [] (m + 1) hok2
      (by show m + 1 ≤ p.cursor + 1 + m; omega)
  obtain ⟨r, q, hq, hq1, _, hq3, hq4⟩ := keypressEnd_samebuf env
    (insert { p1 with cursor := p.cursor + 1 + m } [] (-((m + 1 : Nat) : Int)))
    Ctrl.CTRLDELRIGHT (by decide) (by decide)
  refine ⟨r, q, by rw [hk, hbranch, hq], ?_, ?_, ?_⟩
  · rw [hq1, hi1]
    show (cstr p1.text).take (p.cursor + 1 + m - (m + 1)) ++ (cstr p1.text).drop (p.cursor + 1 + m)
      = _
    rw [ht, ← hrc, show p.cursor + 1 + m - (m + 1) = p.cursor by omega]
  · rw [hq3, hi2]
    show p.cursor + 1 + m - (m + 1) = p.cursor
    omega
  · rw [hq4, hi3]
    show p.cursor + 1 + m - (m + 1) = p.cursor
    omega

set_option maxRecDepth 100000 in
/-- C23 (witness): the delete-char-right press with the cursor before the two bytes of
the accented `e` in the text `a`, `e` acute, `b`. -/
theorem delete_char_right_witness :
    BufOK promptAccent ∧ promptAccent.select = promptAccent.cursor ∧
    promptAccent.cursor < strlen promptAccent.text ∧
    iscont (promptAccent.text.getD promptAccent.cursor 0) = false ∧
    (keyCtrl Ctrl.CTRLDELRIGHT).operation = Ctrl.CTRLDELRIGHT ∧
    ((keyCtrl Ctrl.CTRLDELRIGHT).status = Status.XLookupKeySym ∨
      (keyCtrl Ctrl.CTRLDELRIGHT).status = Status.XLookupBoth) ∧
    ∃ r q, keypress envPlain promptAccent (keyCtrl Ctrl.CTRLDELRIGHT) = some (r, q) ∧
      cstr q.text = (cstr promptAccent.text).take promptAccent.cursor ++
        (cstr promptAccent.text).drop
          (promptAccent.cursor + 1 + contrun (cstr promptAccent.text) (promptAccent.cursor + 1)) ∧
      q.cursor = promptAccent.cursor ∧ q.select = promptAccent.cursor :=
  ⟨⟨by decide, by decide, by decide, by decide⟩, by decide, by decide, by decide, rfl,
    Or.inl rfl,
    delete_char_right envPlain promptAccent (keyCtrl Ctrl.CTRLDELRIGHT)
      ⟨by decide, by decide, by decide, by decide⟩ (by decide) (by decide) (by decide) rfl
      (Or.inl rfl)⟩

/-- One loop of `delword` on a buffer that agrees with the text `T` before the cursor: it
returns, and it deletes the bytes from the position where the loop of `movewordedge`
stops on `T` up to the cursor. -/
theorem delwordLoop_spec (T : List Nat) (sp : Bool) :
    ∀ (fuel : Nat) (q : Prompt) (fuel1 : Nat), BufOK q → q.text.length = T.length →
      (∀ k, k < q.cursor → q.text.getD k 0 = T.getD k 0) → q.cursor ≤ fuel → q.cursor ≤ fuel1 →
      ∃ q1, delwordLoop sp fuel q = some q1 ∧ BufOK q1 ∧ q1.text.length = T.length ∧
        (∀ k, k < q1.cursor → q1.text.getD k 0 = T.getD k 0) ∧
        q1.cursor = wordleftLoop T sp fuel1 q.cursor ∧ q1.cursor ≤ q.cursor ∧
        cstr q1.text = (cstr q.text).take q1.cursor ++ (cstr q.text).drop q.cursor := by
  intro fuel
  induction fuel with
  | zero =>
    intro q fuel1 hok hlen hag hf hf1
    have hc0 : q.cursor = 0 := by omega
    have hcond : ¬ (q.cursor > 0 ∧
        isspace (q.text.getD (nextrune q.text q.cursor (-1)) 0) = sp) := by omega
    refine ⟨q, ?_, hok, hlen, hag, ?_, Nat.le_refl _, ?_⟩
    · unfold delwordLoop
      rw [if_neg hcond]
    · rw [hc0]
      cases fuel1 with
      | zero => rfl
      | succ n =>
        unfold wordleftLoop
        rw [if_neg (by omega)]
    · rw [hc0]; simp
  | succ fuel ih =>
    intro q fuel1 hok hlen hag hf hf1
    have hcl : (cstr q.text).length = strlen q.text := rfl
    have hcur := hok.cursor
    have hnul := hok.nul
    have hsmall := hok.small
    have hsize := hok.size
    have h63 : (2 : Nat) ^ 63 < 2 ^ 64 := by norm_num
    by_cases hpos : q.cursor > 0
    · have hr := nextrune_back_lt q.text q.cursor hpos (by omega)
      have hcongr := nextrune_back_congr q.text T q.cursor hpos (by omega) hlen hag
      have hbyte : q.text.getD (nextrune q.text q.cursor (-1)) 0
          = T.getD (nextrune T q.cursor (-1)) 0 := by
        rw [hag _ hr, hcongr]
      by_cases hsp : isspace (T.getD (nextrune T q.cursor (-1)) 0) = sp
      · have hcond : q.cursor > 0 ∧
            isspace (q.text.getD (nextrune q.text q.cursor (-1)) 0) = sp := ⟨hpos, by rw [hbyte]; exact hsp⟩
        generalize hrdef : nextrune q.text q.cursor (-1) = r at hr hcongr hcond
        have hins : insert q [] ((r : Int) - (q.cursor : Int))
            = insert q [] (-((q.cursor - r : Nat) : Int)) := by
          congr 1
          omega
        obtain ⟨hok1, ht1, hc1, _, hz1⟩ := insert_neg_ok q [] (q.cursor - r) hok (by omega)
        rw [← hins] at hok1 ht1 hc1 hz1
        have hcr : q.cursor - (q.cursor - r) = r := by omega
        rw [hcr] at ht1 hc1
        have hlen1 : (insert q [] ((r : Int) - (q.cursor : Int))).text.length = T.length := by
          rw [hok1.size, hz1, ← hsize, hlen]
        have hag1 : ∀ k, k < (insert q [] ((r : Int) - (q.cursor : Int))).cursor →
            (insert q [] ((r : Int) - (q.cursor : Int))).text.getD k 0 = T.getD k 0 := by
          intro k hk
          rw [hc1] at hk
          have hs1 : strlen (insert q [] ((r : Int) - (q.cursor : Int))).text
              = r + (strlen q.text - q.cursor) := by
            show (cstr _).length = _
            rw [ht1, List.length_append, List.length_take, List.length_drop, hcl]
            omega
          rw [(getD_cstr _ k (by omega)).1, ht1, ← hag k (by omega),
            (getD_cstr q.text k (by omega)).1,
            List.getD_append _ _ _ _ (by rw [List.length_take, hcl]; omega)]
          rw [List.getD_eq_getElem?_getD, List.getD_eq_getElem?_getD, List.getElem?_take]
          simp [hk]
        obtain ⟨n1, rfl⟩ : ∃ n1, fuel1 = n1 + 1 := ⟨fuel1 - 1, by omega⟩
        obtain ⟨q1, hq1, hokq1, hlenq1, hagq1, hcq1, hleq1, htq1⟩ :=
          ih (insert q [] ((r : Int) - (q.cursor : Int))) n1 hok1 hlen1 hag1
            (by rw [hc1]; omega) (by rw [hc1]; omega)
        rw [hc1] at hcq1 hleq1 htq1
        refine ⟨q1, ?_, hokq1, hlenq1, hagq1, ?_, by omega, ?_⟩
        · unfold delwordLoop
          rw [hrdef, if_pos hcond]
          exact hq1
        · unfold wordleftLoop
          rw [if_pos ⟨hpos, hsp⟩, ← hcongr]
          exact hcq1
        · rw [htq1, ht1]
          have hA : ((cstr q.text).take r).length = r := by
            rw [List.length_take, hcl]; omega
          rw [List.take_append_of_le_length (by omega), List.take_take,
            Nat.min_eq_left hleq1, drop_append_exact _ _ _ hA]
      · have hcond : ¬ (q.cursor > 0 ∧
            isspace (q.text.getD (nextrune q.text q.cursor (-1)) 0) = sp) := by
          rw [hbyte]
          exact fun h => hsp h.2
        refine ⟨q, ?_, hok, hlen, hag, ?_, Nat.le_refl _, ?_⟩
        · unfold delwordLoop
          rw [if_neg hcond]
        · cases fuel1 with
          | zero => rfl
          | succ n =>
            unfold wordleftLoop
            rw [if_neg (fun h => hsp h.2)]
        · rw [List.take_append_drop]
    · have hcond : ¬ (q.cursor > 0 ∧
          isspace (q.text.getD (nextrune q.text q.cursor (-1)) 0) = sp) := fun h => hpos h.1
      refine ⟨q, ?_, hok, hlen, hag, ?_, Nat.le_refl _, ?_⟩
      · unfold delwordLoop
        rw [if_neg hcond]
      · cases fuel1 with
        | zero => rfl
        | succ n =>
          unfold wordleftLoop
          rw [if_neg (fun h => hpos h.1)]
      · rw [List.take_append_drop]

/-- C24: for every well-formed buffer state, `delword` returns, and its text and cursor
are those of the single call `insert(NULL, -n)` with
`n = cursor - movewordedge(text, cursor, -1)`: the bytes from the word edge on the left
up to the cursor are deleted and the cursor is at the word edge. -/
theorem delword_is_insert (p : Prompt) (hok : BufOK p) :
    movewordedge p.text p.cursor (-1) ≤ p.cursor ∧
    ∃ q, delword p = some q ∧
      cstr q.text =
        cstr (insert p []
          (-((p.cursor - movewordedge p.text p.cursor (-1) : Nat) : Int))).text ∧
      q.cursor =
        (insert p [] (-((p.cursor - movewordedge p.text p.cursor (-1) : Nat) : Int))).cursor ∧
      cstr q.text = (cstr p.text).take (movewordedge p.text p.cursor (-1)) ++
        (cstr p.text).drop p.cursor ∧
      q.cursor = movewordedge p.text p.cursor (-1) := by
  obtain ⟨q1, hq1, hok1, hlen1, hag1, hc1, hle1, ht1⟩ :=
    delwordLoop_spec p.text true p.cursor p (p.cursor + 1) hok rfl (fun _ _ => rfl)
      (Nat.le_refl _) (by omega)
  obtain ⟨q2, hq2, _, _, _, hc2, hle2, ht2⟩ :=
    delwordLoop_spec p.text false q1.cursor q1 (q1.cursor + 1) hok1 hlen1 hag1
      (Nat.le_refl _) (by omega)
  have hm : movewordedge p.text p.cursor (-1) = q2.cursor := by
    unfold movewordedge
    rw [if_pos (by decide)]
    simp only []
    rw [← hc1, ← hc2]
  have hcl : (cstr p.text).length = strlen p.text := rfl
  have hcur := hok.cursor
  have htext : cstr q2.text = (cstr p.text).take q2.cursor ++ (cstr p.text).drop p.cursor := by
    rw [ht2, ht1]
    have hA : ((cstr p.text).take q1.cursor).length = q1.cursor := by
      rw [List.length_take, hcl]; omega
    rw [List.take_append_of_le_length (by omega), List.take_take, Nat.min_eq_left hle2,
      drop_append_exact _ _ _ hA]
  rw [hm]
  obtain ⟨_, hi1, hi2, _, _⟩ := insert_neg_ok p [] (p.cursor - q2.cursor) hok (by omega)
  have hcc : p.cursor - (p.cursor - q2.cursor) = q2.cursor := by omega
  rw [hcc] at hi1 hi2
  refine ⟨by omega, q2, ?_, ?_, ?_, htext, rfl⟩
  · unfold delword
    rw [hq1]
    exact hq2
  · rw [hi1, htext]
  · rw [hi2]

set_option maxRecDepth 100000 in
/-- C24 (witness): `delword` after typing `ab  cd ` deletes `cd ` and leaves `ab  `. -/
theorem delword_is_insert_witness :
    BufOK promptWords ∧
    (movewordedge promptWords.text promptWords.cursor (-1) ≤ promptWords.cursor ∧
    ∃ q, delword promptWords = some q ∧
      cstr q.text =
        cstr (insert promptWords []
          (-((promptWords.cursor - movewordedge promptWords.text promptWords.cursor (-1) : Nat)
            : Int))).text ∧
      q.cursor =
        (insert promptWords []
          (-((promptWords.cursor - movewordedge promptWords.text promptWords.cursor (-1) : Nat)
            : Int))).cursor ∧
      cstr q.text = (cstr promptWords.text).take
          (movewordedge promptWords.text promptWords.cursor (-1)) ++
        (cstr promptWords.text).drop promptWords.cursor ∧
      q.cursor = movewordedge promptWords.text promptWords.cursor (-1)) :=
  ⟨⟨by decide, by decide, by decide, by decide⟩,
    delword_is_insert promptWords ⟨by decide, by decide, by decide, by decide⟩⟩

/-! ## Theorems: the NUL at or after select -/

/-- With `select` within the text, the char array holds a NUL at or after `select`: the
one that ends the text. -/
theorem nul_after_select (p : Prompt) (hok : BufOK p) (hsel : p.select ≤ strlen p.text) :
    0 ∈ p.text.drop p.select :=
  mem_drop_of_le_strlen p.text p.select hsel (by rw [hok.size]; exact hok.nul)

theorem mem_drop_set_zero (buf : List Nat) (c s : Nat) (h : 0 ∈ buf.drop s) :
    0 ∈ (buf.set c 0).drop s := by
  obtain ⟨i, hi, he⟩ := List.getElem_of_mem h
  rw [List.length_drop] at hi
  rw [List.getElem_drop] at he
  have hlen : s + i < (buf.set c 0).length := by rw [List.length_set]; omega
  have hget : (buf.set c 0)[s + i] = 0 := by
    rw [List.getElem_set]
    split
    · rfl
    · exact he
  have hm : ((buf.set c 0).drop s)[i]? = some 0 := by
    rw [List.getElem?_drop, List.getElem?_eq_getElem hlen, hget]
  exact List.getElem?_mem hm

/-- The delete-to-EOL key press, the one deletion that leaves `select` where it was,
returns and keeps a NUL in the char array at or after `select`. -/
theorem deleol_keeps_nul_after_select (env : Env) (p : Prompt)
    (hnul : 0 ∈ p.text.drop p.select) :
    ∃ r q, keypress env p (keyCtrl Ctrl.CTRLDELEOL) = some (r, q) ∧
      q.text = p.text.set p.cursor 0 ∧ q.cursor = p.cursor ∧ q.select = p.select ∧
      0 ∈ q.text.drop q.select := by
  obtain ⟨p1, hb, hk⟩ := keypress_editing env p (keyCtrl Ctrl.CTRLDELEOL) Ctrl.CTRLDELEOL rfl
    (Or.inl rfl) (by decide) (by decide) (by decide)
  obtain ⟨r, q, hq, hs⟩ := keypressEnd_samebuf env { p1 with text := p1.text.set p1.cursor 0 }
    Ctrl.CTRLDELEOL (by decide) (by decide)
  have hsw : keypressSwitch env p1 (keyCtrl Ctrl.CTRLDELEOL) Ctrl.CTRLDELEOL
      = keypressEnd env { p1 with text := p1.text.set p1.cursor 0 } Ctrl.CTRLDELEOL := rfl
  have ht : q.text = p.text.set p.cursor 0 := by
    rw [hs.1]
    show p1.text.set p1.cursor 0 = _
    rw [hb.1, hb.2.2.1]
  have hc : q.cursor = p.cursor := by rw [hs.2.2.1]; exact hb.2.2.1
  have hsel : q.select = p.select := by rw [hs.2.2.2]; exact hb.2.2.2
  refine ⟨r, q, by rw [hk, hsw]; exact hq, ht, hc, hsel, ?_⟩
  rw [ht, hsel]
  exact mem_drop_set_zero _ _ _ hnul

end XFilter
